import Mathlib

/-!
# Shallow embedding of the `btree-rs` B+tree (src/lib.rs)

The source is an in-memory B+tree with arena-allocated fixed-capacity nodes
(`NODE_DEG = 32`), addressed by tagged integer handles.  Fixed-size Rust
arrays are modelled as total functions `Nat → α` (slots at index ≥ the
occupancy count hold irrelevant default-filled data exactly as in the
source, which pre-fills arrays with `Default::default()`).  The unchecked
`std::ptr::copy` (memmove semantics: the destination region receives the
*original* source data even when the regions overlap) is modelled by
`memcpy` below.  Rust operations that can panic (the `assert!` in
`LeafNode::insert`, checked slice/array indexing, and `usize` underflow)
are modelled as `Option`-returning functions, with `none` for the panic.
Arena indexing `self.i[id]` / `self.l[id]` is modelled with `List.get?`,
with `none` for the out-of-bounds panic.  The driver loops of
`BTree::insert` / `BTree::lookup` are modelled with explicit fuel; the
public entry points pass a fuel that is proved sufficient on all reachable
trees.  `K: PartialOrd + PartialEq + Default + Copy` is modelled as a
`LinearOrder` with an `Inhabited` default (the source is only ever
instantiated at totally ordered key types; unused slots are never read as
meaningful data).  The debug `println!` calls have no observable effect on
the data and are omitted.
-/

set_option maxHeartbeats 1000000

/-- `const NODE_DEG: usize = 32;` -/
def NODE_DEG : Nat := 32

/-- `enum NodeIndex { Leaf(usize), Internal(usize) }` -/
inductive NodeIndex : Type where
  | leaf (i : Nat)
  | internal (i : Nat)
deriving DecidableEq, Repr

/-- `impl Default for NodeIndex { fn default() -> Self { NodeIndex::Leaf(0) } }` -/
instance : Inhabited NodeIndex := ⟨NodeIndex.leaf 0⟩

/-- Model of `std::ptr::copy(&src[srcOff], &mut dst[dstOff], n)` between two
(model) arrays: memmove semantics, the destination range `[dstOff, dstOff+n)`
receives the original source data `src[srcOff..srcOff+n)`. -/
def memcpy {α : Type} (src : Nat → α) (srcOff : Nat) (dst : Nat → α)
    (dstOff n : Nat) : Nat → α :=
  fun j => if dstOff ≤ j ∧ j < dstOff + n then src (srcOff + (j - dstOff)) else dst j

/-- Model of a single array store `a[i] = x`. -/
def setIdx {α : Type} (a : Nat → α) (i : Nat) (x : α) : Nat → α :=
  fun j => if j = i then x else a j

/-- The loop of `lower_bound`: `while l < r { let mid = (l+r)/2;
if a[mid] < val { l = mid + 1 } else { r = mid } }; l`.  The loop shrinks
`r - l` by at least one per iteration, so running it structurally on a fuel
of `r - l` iterations computes the same fixpoint (kept structural so the
kernel can evaluate it; see `lbLoop_correct` below). -/
def lbLoop {K : Type} [LinearOrder K] (a : Nat → K) (val : K) :
    Nat → Nat → Nat → Nat
  | 0, l, _ => l
  | fuel + 1, l, r =>
    if l < r then
      let mid := (l + r) / 2
      if a mid < val then lbLoop a val fuel (mid + 1) r else lbLoop a val fuel l mid
    else l

/-- `fn lower_bound<T: PartialOrd>(a: &[T], val: &T) -> usize` over the slice
`a[0..len)` of the model array `a`.  Returns the index of the first element in
`[0, len)` which does not compare less than `val`, or `len`. -/
def lower_bound {K : Type} [LinearOrder K] (a : Nat → K) (len : Nat) (val : K) : Nat :=
  if len = 0 then 0
  else if a (len - 1) < val then len
  else lbLoop a val (len - 1) 0 (len - 1)

/-- `struct InternalNode<K> { keys: [K; NODE_DEG - 1], sons: [NodeIndex; NODE_DEG], cnt: usize }`.
Only `keys[0..cnt-1)` and `sons[0..cnt)` are meaningful. -/
structure InternalNode (K : Type) where
  keys : Nat → K
  sons : Nat → NodeIndex
  cnt : Nat

/-- `InternalNode::new(first)`: one child, `cnt = 1`, arrays default-filled. -/
def InternalNode.new {K : Type} [Inhabited K] (first : NodeIndex) : InternalNode K :=
  { keys := fun _ => default
    sons := setIdx (fun _ => default) 0 first
    cnt := 1 }

/-- `InternalNode::full`: `self.cnt == self.sons.len()`. -/
def InternalNode.full {K : Type} (nd : InternalNode K) : Bool :=
  nd.cnt = NODE_DEG

/-- `InternalNode::lookup`: `let i = lower_bound(&self.keys[0..self.cnt-1], k);
(i, self.sons[i])`.  The slice `0..cnt-1` panics (`none`) when `cnt = 0`
(usize underflow) or `cnt - 1 > keys.len()`; the subsequent `sons[i]` index is
then always in bounds because `i ≤ cnt - 1 < NODE_DEG`. -/
def InternalNode.lookup {K : Type} [LinearOrder K] (nd : InternalNode K) (k : K) :
    Option (Nat × NodeIndex) :=
  if 1 ≤ nd.cnt ∧ nd.cnt - 1 ≤ NODE_DEG - 1 then
    let i := lower_bound nd.keys (nd.cnt - 1) k
    some (i, nd.sons i)
  else none

/-- `InternalNode::insert(pos, left_max, right)`.  The guards model the Rust
bounds checks on the index expressions (`keys[pos-1]`, `keys[pos]`,
`sons[pos]`, `sons[pos+1]`, including the `usize` underflow of `pos - 1`);
the `ptr::copy` amounts themselves are unchecked in the source, exactly as
here (on a full node with `1 ≤ pos ≤ NODE_DEG - 2` the source's copies write
out of array bounds without any signaled fault). -/
def InternalNode.insert {K : Type} (nd : InternalNode K) (pos : Nat) (left_max : K)
    (right : NodeIndex) : Option (InternalNode K) :=
  if pos < nd.cnt then
    if 1 ≤ pos ∧ pos - 1 < NODE_DEG - 1 ∧ pos < NODE_DEG - 1 ∧
       pos < NODE_DEG ∧ pos + 1 < NODE_DEG then
      let keys1 := memcpy nd.keys (pos - 1) nd.keys pos (nd.cnt - pos)
      let sons1 := memcpy nd.sons pos nd.sons (pos + 1) (nd.cnt - pos)
      some { keys := setIdx keys1 (pos - 1) left_max
             sons := setIdx sons1 pos right
             cnt := nd.cnt + 1 }
    else none
  else
    if 1 ≤ pos ∧ pos - 1 < NODE_DEG - 1 ∧ pos < NODE_DEG then
      some { keys := setIdx nd.keys (pos - 1) left_max
             sons := setIdx nd.sons pos right
             cnt := nd.cnt + 1 }
    else none

/-- `InternalNode::split`: returns `(max key left, left, right)`; the source
mutates `self` into the left node and returns `(K, Self)`.  Guards model the
checked index expressions `keys[left_cnt]`, `sons[left_cnt]`,
`keys[left_cnt - 1]` (with underflow for `left_cnt = 0`). -/
def InternalNode.split {K : Type} [Inhabited K] (nd : InternalNode K) :
    Option (K × InternalNode K × InternalNode K) :=
  let left_cnt := nd.cnt / 2
  let right_cnt := nd.cnt - left_cnt
  if 1 ≤ left_cnt ∧ left_cnt < NODE_DEG - 1 ∧ left_cnt < NODE_DEG then
    let right : InternalNode K :=
      { keys := memcpy nd.keys left_cnt (fun _ => default) 0 (right_cnt - 1)
        sons := memcpy nd.sons left_cnt (fun _ => default) 0 right_cnt
        cnt := right_cnt }
    some (nd.keys (left_cnt - 1), { nd with cnt := left_cnt }, right)
  else none

/-- `struct LeafNode<K, V> { keys: [K; NODE_DEG], values: [V; NODE_DEG], cnt: usize }`.
Only `keys[0..cnt)` / `values[0..cnt)` are meaningful. -/
structure LeafNode (K V : Type) where
  keys : Nat → K
  values : Nat → V
  cnt : Nat

/-- `LeafNode::new()`: empty, arrays default-filled. -/
def LeafNode.new {K V : Type} [Inhabited K] [Inhabited V] : LeafNode K V :=
  { keys := fun _ => default, values := fun _ => default, cnt := 0 }

/-- `LeafNode::full`: `self.cnt == self.keys.len()`. -/
def LeafNode.full {K V : Type} (nd : LeafNode K V) : Bool :=
  nd.cnt = NODE_DEG

/-- `LeafNode::insert(k, v)`: `assert!(!self.full())` is the `none` on a full
node; the second guard models the slice bound check of `keys[0..cnt]`.
Branches: append when the lower bound is `cnt`; overwrite in place when the
key at the lower bound equals `k`; otherwise shift right by one and insert. -/
def LeafNode.insert {K V : Type} [LinearOrder K] (nd : LeafNode K V) (k : K) (v : V) :
    Option (Option V × LeafNode K V) :=
  if nd.full then none
  else if nd.cnt ≤ NODE_DEG then
    let i := lower_bound nd.keys nd.cnt k
    if i = nd.cnt then
      some (none, { nd with keys := setIdx nd.keys nd.cnt k
                            values := setIdx nd.values nd.cnt v
                            cnt := nd.cnt + 1 })
    else if nd.keys i = k then
      some (some (nd.values i), { nd with values := setIdx nd.values i v })
    else
      some (none, { keys := setIdx (memcpy nd.keys i nd.keys (i + 1) (nd.cnt - i)) i k
                    values := setIdx (memcpy nd.values i nd.values (i + 1) (nd.cnt - i)) i v
                    cnt := nd.cnt + 1 })
  else none

/-- `LeafNode::lookup(k)`: lower bound over `keys[0..cnt)`, `none` when absent.
(The slice check `cnt ≤ NODE_DEG` always holds on well-formed nodes.) -/
def LeafNode.lookup {K V : Type} [LinearOrder K] (nd : LeafNode K V) (k : K) : Option V :=
  let i := lower_bound nd.keys nd.cnt k
  if i = nd.cnt then none
  else if nd.keys i = k then some (nd.values i)
  else none

/-- `LeafNode::split`: returns `(max key left, left, right)`; the source
mutates `self` into the left node.  Guard models `keys[self.cnt - 1]` after
`self.cnt = left_cnt` (underflow for `left_cnt = 0`) and the checked copy
bases `keys[left_cnt]` / `values[left_cnt]`. -/
def LeafNode.split {K V : Type} [Inhabited K] [Inhabited V] (nd : LeafNode K V) :
    Option (K × LeafNode K V × LeafNode K V) :=
  let left_cnt := nd.cnt / 2
  if 1 ≤ left_cnt ∧ left_cnt < NODE_DEG then
    let right : LeafNode K V :=
      { keys := memcpy nd.keys left_cnt (fun _ => default) 0 (nd.cnt - left_cnt)
        values := memcpy nd.values left_cnt (fun _ => default) 0 (nd.cnt - left_cnt)
        cnt := nd.cnt - left_cnt }
    some (nd.keys (left_cnt - 1), { nd with cnt := left_cnt }, right)
  else none

/-- `pub struct BTree<K, V> { i: Vec<InternalNode<K>>, l: Vec<LeafNode<K, V>>, root: NodeIndex }` -/
structure BTree (K V : Type) where
  i : List (InternalNode K)
  l : List (LeafNode K V)
  root : NodeIndex

/-- `BTree::new()`: one empty leaf, root points at it. -/
def BTree.new {K V : Type} [Inhabited K] [Inhabited V] : BTree K V :=
  { i := [], l := [LeafNode.new], root := NodeIndex.leaf 0 }

/-- `BTree::alloc_leaf`: push and return the new index. -/
def BTree.alloc_leaf {K V : Type} (t : BTree K V) (leaf : LeafNode K V) :
    Nat × BTree K V :=
  (t.l.length, { t with l := t.l ++ [leaf] })

/-- `BTree::alloc_internal`: push and return the new index. -/
def BTree.alloc_internal {K V : Type} (t : BTree K V) (internal : InternalNode K) :
    Nat × BTree K V :=
  (t.i.length, { t with i := t.i ++ [internal] })

/-- `BTree::make_new_root(first)`: allocate `InternalNode::new(first)`,
point `root` at it, return its id. -/
def BTree.make_new_root {K V : Type} [Inhabited K] (t : BTree K V) (first : NodeIndex) :
    Nat × BTree K V :=
  let p := t.alloc_internal (InternalNode.new first)
  (p.1, { p.2 with root := NodeIndex.internal p.1 })

/-- The loop body of `BTree::insert`, with explicit fuel for the `loop`.
State: current handle `cur`, `father_id`, `father_son_index`.  `none` models
a panic (arena index out of bounds, node-level fault) or fuel exhaustion. -/
def BTree.insertGo {K V : Type} [LinearOrder K] [Inhabited K] [Inhabited V]
    (k : K) (v : V) :
    Nat → BTree K V → NodeIndex → Option Nat → Nat → Option (Option V × BTree K V)
  | 0, _, _, _, _ => none
  | fuel + 1, t, cur, father_id, father_son_index =>
    match cur with
    | NodeIndex.internal id => do
      let nd ← t.i.get? id
      let s ←
        if nd.full then do
          let (left_max, left, right) ← nd.split
          let t1 : BTree K V := { t with i := t.i.set id left }
          let (right_id, t2) := t1.alloc_internal right
          let (fid, fsi, t3) :=
            match father_id with
            | none => let p := t2.make_new_root (NodeIndex.internal id); (p.1, 0, p.2)
            | some f => (f, father_son_index, t2)
          let fa ← t3.i.get? fid
          let fa2 ← fa.insert (fsi + 1) left_max (NodeIndex.internal right_id)
          let t4 : BTree K V := { t3 with i := t3.i.set fid fa2 }
          pure (t4, if left_max < k then right_id else id)
        else pure (t, id)
      let nd2 ← s.1.i.get? s.2
      let r ← nd2.lookup k
      BTree.insertGo k v fuel s.1 r.2 (some s.2) r.1
    | NodeIndex.leaf id => do
      let nd ← t.l.get? id
      let s ←
        if nd.full then do
          let (left_max, left, right) ← nd.split
          let t1 : BTree K V := { t with l := t.l.set id left }
          let (right_id, t2) := t1.alloc_leaf right
          let (fid, fsi, t3) :=
            match father_id with
            | none => let p := t2.make_new_root (NodeIndex.leaf id); (p.1, 0, p.2)
            | some f => (f, father_son_index, t2)
          let fa ← t3.i.get? fid
          let fa2 ← fa.insert (fsi + 1) left_max (NodeIndex.leaf right_id)
          let t4 : BTree K V := { t3 with i := t3.i.set fid fa2 }
          pure (t4, if left_max < k then right_id else id)
        else pure (t, id)
      let nd2 ← s.1.l.get? s.2
      let r ← nd2.insert k v
      pure (r.1, { s.1 with l := s.1.l.set s.2 r.2 })

/-- `pub fn insert(&mut self, k: &K, v: &V) -> Option<V>`: run the loop from
the root with no father.  The fuel `i.length + l.length + 2` is proved
sufficient on every reachable tree (the loop descends strictly in height). -/
def BTree.insert {K V : Type} [LinearOrder K] [Inhabited K] [Inhabited V]
    (t : BTree K V) (k : K) (v : V) : Option (Option V × BTree K V) :=
  BTree.insertGo k v (t.i.length + t.l.length + 2) t t.root none 0

/-- The loop of `BTree::lookup`, with explicit fuel. -/
def BTree.lookupGo {K V : Type} [LinearOrder K] (k : K) :
    Nat → BTree K V → NodeIndex → Option (Option V)
  | 0, _, _ => none
  | fuel + 1, t, cur =>
    match cur with
    | NodeIndex.internal id => do
      let nd ← t.i.get? id
      let r ← nd.lookup k
      BTree.lookupGo k fuel t r.2
    | NodeIndex.leaf id => do
      let nd ← t.l.get? id
      pure (nd.lookup k)

/-- `pub fn lookup(&self, k: &K) -> Option<&V>`: run the loop from the root. -/
def BTree.lookup {K V : Type} [LinearOrder K] (t : BTree K V) (k : K) :
    Option (Option V) :=
  BTree.lookupGo k (t.i.length + t.l.length + 2) t t.root

/-- Reachable tree states: `BTree::new()` and anything produced from a
reachable state by a successful `BTree::insert` (lookup does not mutate). -/
inductive BTree.Reachable {K V : Type} [LinearOrder K] [Inhabited K] [Inhabited V] :
    BTree K V → Prop where
  | new : BTree.Reachable BTree.new
  | step {t : BTree K V} {k : K} {v : V} {r : Option V} {t' : BTree K V} :
      BTree.Reachable t → t.insert k v = some (r, t') → BTree.Reachable t'

/-! ## Basic array-model lemmas -/

theorem memcpy_in {α : Type} (src : Nat → α) (srcOff : Nat) (dst : Nat → α)
    (dstOff n j : Nat) (h1 : dstOff ≤ j) (h2 : j < dstOff + n) :
    memcpy src srcOff dst dstOff n j = src (srcOff + (j - dstOff)) := by
  simp [memcpy, h1, h2]

theorem memcpy_out {α : Type} (src : Nat → α) (srcOff : Nat) (dst : Nat → α)
    (dstOff n j : Nat) (h : ¬(dstOff ≤ j ∧ j < dstOff + n)) :
    memcpy src srcOff dst dstOff n j = dst j := by
  simp only [memcpy, if_neg h]

theorem setIdx_eq {α : Type} (a : Nat → α) (i : Nat) (x : α) : setIdx a i x i = x := by
  simp [setIdx]

theorem setIdx_ne {α : Type} (a : Nat → α) (i : Nat) (x : α) (j : Nat) (h : j ≠ i) :
    setIdx a i x j = a j := by
  simp [setIdx, h]

/-! ## Correctness of the binary search `lower_bound` -/

theorem lbLoop_correct {K : Type} [LinearOrder K] (a : Nat → K) (v : K) (len : Nat)
    (hsort : ∀ i j, i ≤ j → j < len → a i ≤ a j) :
    ∀ fuel l r, r - l ≤ fuel → l ≤ r → r < len →
      (∀ j, j < l → a j < v) → ¬ a r < v →
      l ≤ lbLoop a v fuel l r ∧ lbLoop a v fuel l r ≤ r ∧
      (∀ j, j < lbLoop a v fuel l r → a j < v) ∧ ¬ a (lbLoop a v fuel l r) < v := by
  intro fuel
  induction fuel with
  | zero =>
    intro l r hfuel hlr _ hlow hhigh
    have hconst : lbLoop a v 0 l r = l := rfl
    have : l = r := by omega
    rw [hconst]
    exact ⟨le_refl l, hlr, hlow, this ▸ hhigh⟩
  | succ fuel ih =>
    intro l r hfuel hlr hrlen hlow hhigh
    by_cases hlt : l < r
    · have hmid1 : l ≤ (l + r) / 2 := by omega
      have hmid2 : (l + r) / 2 < r := by omega
      by_cases hcmp : a ((l + r) / 2) < v
      · have hunf : lbLoop a v (fuel + 1) l r = lbLoop a v fuel ((l + r) / 2 + 1) r := by
          simp [lbLoop, hlt, hcmp]
        have hrec := ih ((l + r) / 2 + 1) r (by omega) (by omega) hrlen
          (fun j hj => by
            rcases Nat.lt_or_ge j l with hjl | hjl
            · exact hlow j hjl
            · exact lt_of_le_of_lt (hsort j ((l + r) / 2) (by omega) (by omega)) hcmp)
          hhigh
        rw [hunf]
        exact ⟨by omega, hrec.2.1, hrec.2.2.1, hrec.2.2.2⟩
      · have hunf : lbLoop a v (fuel + 1) l r = lbLoop a v fuel l ((l + r) / 2) := by
          simp [lbLoop, hlt, hcmp]
        have hrec := ih l ((l + r) / 2) (by omega) (by omega) (by omega) hlow hcmp
        rw [hunf]
        exact ⟨hrec.1, by omega, hrec.2.2.1, hrec.2.2.2⟩
    · have hconst : lbLoop a v (fuel + 1) l r = l := by simp [lbLoop, hlt]
      have : l = r := by omega
      rw [hconst]
      exact ⟨le_refl l, hlr, hlow, this ▸ hhigh⟩

/-- Characterization of `lower_bound` on a sorted slice: the result `i` is the
least index in `[0, len]` whose element is not less than `v`. -/
theorem lower_bound_spec {K : Type} [LinearOrder K] (a : Nat → K) (len : Nat) (v : K)
    (hsort : ∀ i j, i ≤ j → j < len → a i ≤ a j) :
    lower_bound a len v ≤ len ∧
    (∀ j, j < lower_bound a len v → a j < v) ∧
    (lower_bound a len v < len → v ≤ a (lower_bound a len v)) := by
  by_cases h0 : len = 0
  · subst h0; simp [lower_bound]
  · by_cases hlast : a (len - 1) < v
    · refine ⟨by simp [lower_bound, h0, hlast], ?_, ?_⟩
      · intro j hj
        simp only [lower_bound, if_neg h0, if_pos hlast] at hj
        exact lt_of_le_of_lt (hsort j (len - 1) (by omega) (by omega)) hlast
      · intro hlt
        simp only [lower_bound, if_neg h0, if_pos hlast] at hlt
        omega
    · have hrec := lbLoop_correct a v len hsort (len - 1) 0 (len - 1)
        (by omega) (by omega) (by omega) (by omega) hlast
      have heq : lower_bound a len v = lbLoop a v (len - 1) 0 (len - 1) := by
        simp [lower_bound, h0, hlast]
      rw [heq]
      exact ⟨by omega, hrec.2.2.1, fun _ => le_of_not_lt hrec.2.2.2⟩

theorem lower_bound_le_len {K : Type} [LinearOrder K] (a : Nat → K) (len : Nat) (v : K)
    (hsort : ∀ i j, i ≤ j → j < len → a i ≤ a j) : lower_bound a len v ≤ len :=
  (lower_bound_spec a len v hsort).1

/-- On a sorted slice, `lower_bound` is uniquely determined by its
characterization; useful to compute it without unfolding the search. -/
theorem lower_bound_eq_of {K : Type} [LinearOrder K] (a : Nat → K) (len : Nat) (v : K)
    (hsort : ∀ i j, i ≤ j → j < len → a i ≤ a j) (i : Nat)
    (hle : i ≤ len) (hlow : ∀ j, j < i → a j < v) (hhigh : i < len → v ≤ a i) :
    lower_bound a len v = i := by
  obtain ⟨h1, h2, h3⟩ := lower_bound_spec a len v hsort
  rcases Nat.lt_trichotomy (lower_bound a len v) i with h | h | h
  · exact absurd (h3 (by omega)) (not_le.mpr (hlow _ h))
  · exact h
  · exact absurd (hhigh (by omega)) (not_le.mpr (h2 _ h))

/-- C4: for every ascending sorted slice `a[0..len)` and query `v`,
`lower_bound` returns the smallest index `i ∈ [0, len]` such that `a[i]` is
not less than `v`: `a[j] < v` for all `j < i`, and either `i = len` or
`a[i] ≥ v`; on an empty slice it returns `0`, and an element equal to `v`
is found (not skipped). -/
theorem lower_bound_correct {K : Type} [LinearOrder K] (a : Nat → K) (len : Nat)
    (v : K) (hsort : ∀ i j, i ≤ j → j < len → a i ≤ a j) :
    lower_bound a len v ≤ len ∧
    (∀ j, j < lower_bound a len v → a j < v) ∧
    (lower_bound a len v = len ∨ v ≤ a (lower_bound a len v)) ∧
    (len = 0 → lower_bound a len v = 0) ∧
    (∀ j, j < len → a j = v →
      lower_bound a len v < len ∧ a (lower_bound a len v) = v) := by
  obtain ⟨h1, h2, h3⟩ := lower_bound_spec a len v hsort
  refine ⟨h1, h2, ?_, ?_, ?_⟩
  · rcases Nat.lt_or_ge (lower_bound a len v) len with h | h
    · exact Or.inr (h3 h)
    · exact Or.inl (by omega)
  · intro h0; subst h0; simp [lower_bound]
  · intro j hj hjv
    have hilen : lower_bound a len v < len := by
      by_contra hc
      have : lower_bound a len v = len := by omega
      exact absurd (hjv ▸ h2 j (by omega)) (lt_irrefl v)
    refine ⟨hilen, le_antisymm ?_ (h3 hilen)⟩
    have hij : lower_bound a len v ≤ j := by
      by_contra hc
      exact absurd (hjv ▸ h2 j (by omega)) (lt_irrefl v)
    calc a (lower_bound a len v) ≤ a j := hsort _ j hij hj
      _ = v := hjv

/-- Witness for C4 at a concrete sorted slice. -/
theorem lower_bound_correct_witness :
    (∀ i j, i ≤ j → j < 5 → (fun q => [1, 4, 6, 9, 10].getD q 0) i ≤
      (fun q => [1, 4, 6, 9, 10].getD q 0) j) ∧
    lower_bound (fun q => [1, 4, 6, 9, 10].getD q 0) 5 6 ≤ 5 ∧
    (∀ j, j < lower_bound (fun q => [1, 4, 6, 9, 10].getD q 0) 5 6 →
      (fun q => [1, 4, 6, 9, 10].getD q 0) j < 6) := by
  have hs : ∀ i j, i ≤ j → j < 5 → (fun q => [1, 4, 6, 9, 10].getD q 0) i ≤
      (fun q => [1, 4, 6, 9, 10].getD q 0) j := by
    intro i j hij hj
    have hi : i < 5 := by omega
    revert hij
    interval_cases i <;> interval_cases j <;> decide
  have h := lower_bound_correct (fun q => [1, 4, 6, 9, 10].getD q 0) 5 6 hs
  exact ⟨hs, h.1, h.2.1⟩

/-! ## Leaf insert (C5) -/

/-- Extensional description of `LeafNode::insert` on a sorted non-full
leaf (helper shared by the leaf-level claims and the refinement proof). -/
theorem LeafNode.upsert_desc {K V : Type} [LinearOrder K] (nd : LeafNode K V)
    (k : K) (v : V) (hnf : nd.cnt < NODE_DEG)
    (_hsort : ∀ i j, i < j → j < nd.cnt → nd.keys i < nd.keys j) :
    (lower_bound nd.keys nd.cnt k = nd.cnt →
      ∃ nd', nd.insert k v = some (none, nd') ∧ nd'.cnt = nd.cnt + 1 ∧
        (∀ j, j < nd.cnt → nd'.keys j = nd.keys j ∧ nd'.values j = nd.values j) ∧
        nd'.keys nd.cnt = k ∧ nd'.values nd.cnt = v) ∧
    (lower_bound nd.keys nd.cnt k < nd.cnt →
      nd.keys (lower_bound nd.keys nd.cnt k) = k →
      ∃ nd', nd.insert k v =
          some (some (nd.values (lower_bound nd.keys nd.cnt k)), nd') ∧
        nd'.cnt = nd.cnt ∧ (∀ j, nd'.keys j = nd.keys j) ∧
        nd'.values (lower_bound nd.keys nd.cnt k) = v ∧
        (∀ j, j ≠ lower_bound nd.keys nd.cnt k → nd'.values j = nd.values j)) ∧
    (lower_bound nd.keys nd.cnt k < nd.cnt →
      nd.keys (lower_bound nd.keys nd.cnt k) ≠ k →
      ∃ nd', nd.insert k v = some (none, nd') ∧ nd'.cnt = nd.cnt + 1 ∧
        (∀ j, j < lower_bound nd.keys nd.cnt k →
          nd'.keys j = nd.keys j ∧ nd'.values j = nd.values j) ∧
        nd'.keys (lower_bound nd.keys nd.cnt k) = k ∧
        nd'.values (lower_bound nd.keys nd.cnt k) = v ∧
        (∀ j, lower_bound nd.keys nd.cnt k ≤ j → j < nd.cnt →
          nd'.keys (j + 1) = nd.keys j ∧ nd'.values (j + 1) = nd.values j)) := by
  have hfull : nd.full = false := by
    simp only [LeafNode.full, decide_eq_false_iff_not]
    omega
  have hle : nd.cnt ≤ NODE_DEG := by omega
  refine ⟨?_, ?_, ?_⟩
  · intro hi
    have heq : nd.insert k v = some (none,
        { nd with keys := setIdx nd.keys nd.cnt k
                  values := setIdx nd.values nd.cnt v
                  cnt := nd.cnt + 1 }) := by
      simp only [LeafNode.insert, hfull, Bool.false_eq_true, if_false, if_pos hle,
        if_pos hi]
    refine ⟨_, heq, rfl, ?_, setIdx_eq _ _ _, setIdx_eq _ _ _⟩
    intro j hj
    constructor <;> exact setIdx_ne _ _ _ _ (by omega)
  · intro hi hk
    have heq : nd.insert k v = some (some (nd.values (lower_bound nd.keys nd.cnt k)),
        { nd with values := setIdx nd.values (lower_bound nd.keys nd.cnt k) v }) := by
      simp only [LeafNode.insert, hfull, Bool.false_eq_true, if_false, if_pos hle,
        if_neg (by omega : ¬ lower_bound nd.keys nd.cnt k = nd.cnt), if_pos hk]
    exact ⟨_, heq, rfl, fun j => rfl, setIdx_eq _ _ _,
      fun j hj => setIdx_ne _ _ _ _ hj⟩
  · intro hi hk
    have heq : nd.insert k v = some (none,
        { keys := setIdx (memcpy nd.keys (lower_bound nd.keys nd.cnt k) nd.keys
            (lower_bound nd.keys nd.cnt k + 1) (nd.cnt - lower_bound nd.keys nd.cnt k))
            (lower_bound nd.keys nd.cnt k) k
          values := setIdx (memcpy nd.values (lower_bound nd.keys nd.cnt k) nd.values
            (lower_bound nd.keys nd.cnt k + 1) (nd.cnt - lower_bound nd.keys nd.cnt k))
            (lower_bound nd.keys nd.cnt k) v
          cnt := nd.cnt + 1 }) := by
      simp only [LeafNode.insert, hfull, Bool.false_eq_true, if_false, if_pos hle,
        if_neg (by omega : ¬ lower_bound nd.keys nd.cnt k = nd.cnt), if_neg hk]
    refine ⟨_, heq, rfl, ?_, setIdx_eq _ _ _, setIdx_eq _ _ _, ?_⟩
    · intro j hj
      dsimp only
      constructor
      · rw [setIdx_ne _ _ _ _ (by omega), memcpy_out _ _ _ _ _ _ (by omega)]
      · rw [setIdx_ne _ _ _ _ (by omega), memcpy_out _ _ _ _ _ _ (by omega)]
    · intro j hj1 hj2
      dsimp only
      constructor
      · rw [setIdx_ne _ _ _ _ (by omega), memcpy_in _ _ _ _ _ _ (by omega) (by omega)]
        congr 1
        omega
      · rw [setIdx_ne _ _ _ _ (by omega), memcpy_in _ _ _ _ _ _ (by omega) (by omega)]
        congr 1
        omega

/-- C5: on a non-full leaf with strictly increasing `keys[0..cnt)`,
`LeafNode::insert(k, v)` locates `i` by lower bound and then: appends and
returns absent when `i = cnt`; overwrites `values[i]` in place, returns the
previous value and leaves `cnt` and all keys unchanged when `keys[i] = k`;
otherwise shifts keys/values from `i` one slot rightward, stores the new
pair at `i`, increments `cnt`, and returns absent. -/
theorem LeafNode.insert_cases {K V : Type} [LinearOrder K] (nd : LeafNode K V)
    (k : K) (v : V) (hnf : nd.cnt < NODE_DEG)
    (_hsort : ∀ i j, i < j → j < nd.cnt → nd.keys i < nd.keys j) :
    (lower_bound nd.keys nd.cnt k = nd.cnt →
      ∃ nd', nd.insert k v = some (none, nd') ∧ nd'.cnt = nd.cnt + 1 ∧
        (∀ j, j < nd.cnt → nd'.keys j = nd.keys j ∧ nd'.values j = nd.values j) ∧
        nd'.keys nd.cnt = k ∧ nd'.values nd.cnt = v) ∧
    (lower_bound nd.keys nd.cnt k < nd.cnt →
      nd.keys (lower_bound nd.keys nd.cnt k) = k →
      ∃ nd', nd.insert k v =
          some (some (nd.values (lower_bound nd.keys nd.cnt k)), nd') ∧
        nd'.cnt = nd.cnt ∧ (∀ j, nd'.keys j = nd.keys j) ∧
        nd'.values (lower_bound nd.keys nd.cnt k) = v ∧
        (∀ j, j ≠ lower_bound nd.keys nd.cnt k → nd'.values j = nd.values j)) ∧
    (lower_bound nd.keys nd.cnt k < nd.cnt →
      nd.keys (lower_bound nd.keys nd.cnt k) ≠ k →
      ∃ nd', nd.insert k v = some (none, nd') ∧ nd'.cnt = nd.cnt + 1 ∧
        (∀ j, j < lower_bound nd.keys nd.cnt k →
          nd'.keys j = nd.keys j ∧ nd'.values j = nd.values j) ∧
        nd'.keys (lower_bound nd.keys nd.cnt k) = k ∧
        nd'.values (lower_bound nd.keys nd.cnt k) = v ∧
        (∀ j, lower_bound nd.keys nd.cnt k ≤ j → j < nd.cnt →
          nd'.keys (j + 1) = nd.keys j ∧ nd'.values (j + 1) = nd.values j)) :=
  LeafNode.upsert_desc nd k v hnf _hsort

/-- Witness for C5: insert key 4 into the sorted non-full leaf
`[1, 3, 5]` (shift case). -/
theorem LeafNode.insert_cases_witness :
    let nd : LeafNode Nat Nat :=
      { keys := fun j => [1, 3, 5].getD j 0, values := fun j => [10, 30, 50].getD j 0,
        cnt := 3 }
    (nd.cnt < NODE_DEG ∧ lower_bound nd.keys nd.cnt 4 < nd.cnt ∧
      nd.keys (lower_bound nd.keys nd.cnt 4) ≠ 4) ∧
    ∃ nd', nd.insert 4 40 = some (none, nd') ∧ nd'.cnt = nd.cnt + 1 ∧
      (∀ j, j < lower_bound nd.keys nd.cnt 4 →
        nd'.keys j = nd.keys j ∧ nd'.values j = nd.values j) ∧
      nd'.keys (lower_bound nd.keys nd.cnt 4) = 4 ∧
      nd'.values (lower_bound nd.keys nd.cnt 4) = 40 ∧
      (∀ j, lower_bound nd.keys nd.cnt 4 ≤ j → j < nd.cnt →
        nd'.keys (j + 1) = nd.keys j ∧ nd'.values (j + 1) = nd.values j) := by
  intro nd
  have hsort : ∀ i j, i < j → j < nd.cnt → nd.keys i < nd.keys j := by
    intro i j hij hj
    have hj3 : j < 3 := hj
    have hi : i < 3 := by omega
    revert hij
    interval_cases i <;> interval_cases j <;> decide
  refine ⟨⟨by decide, by decide, by decide⟩, ?_⟩
  exact (LeafNode.insert_cases nd 4 40 (by decide) hsort).2.2 (by decide) (by decide)

/-! ## Internal insert (C7) -/

/-- Extensional description of `InternalNode::insert` on a non-full node
(helper shared by the internal-node claims and the refinement proof). -/
theorem InternalNode.child_insert_desc {K : Type} (nd : InternalNode K) (pos : Nat)
    (left_max : K) (right : NodeIndex) (hnf : nd.cnt < NODE_DEG)
    (hpos1 : 1 ≤ pos) (hpos2 : pos ≤ nd.cnt) :
    ∃ nd', nd.insert pos left_max right = some nd' ∧ nd'.cnt = nd.cnt + 1 ∧
      (∀ j, j < pos - 1 → nd'.keys j = nd.keys j) ∧
      nd'.keys (pos - 1) = left_max ∧
      (∀ j, pos - 1 ≤ j → j < nd.cnt - 1 → nd'.keys (j + 1) = nd.keys j) ∧
      (∀ j, j < pos → nd'.sons j = nd.sons j) ∧
      nd'.sons pos = right ∧
      (∀ j, pos ≤ j → j < nd.cnt → nd'.sons (j + 1) = nd.sons j) := by
  have hdeg : NODE_DEG = 32 := rfl
  by_cases hlt : pos < nd.cnt
  · have hguard : 1 ≤ pos ∧ pos - 1 < NODE_DEG - 1 ∧ pos < NODE_DEG - 1 ∧
        pos < NODE_DEG ∧ pos + 1 < NODE_DEG := by omega
    have heq : nd.insert pos left_max right = some
        { keys := setIdx (memcpy nd.keys (pos - 1) nd.keys pos (nd.cnt - pos))
            (pos - 1) left_max
          sons := setIdx (memcpy nd.sons pos nd.sons (pos + 1) (nd.cnt - pos)) pos right
          cnt := nd.cnt + 1 } := by
      simp only [InternalNode.insert, if_pos hlt, if_pos hguard]
    refine ⟨_, heq, rfl, ?_, setIdx_eq _ _ _, ?_, ?_, setIdx_eq _ _ _, ?_⟩
    · intro j hj
      dsimp only
      rw [setIdx_ne _ _ _ _ (by omega), memcpy_out _ _ _ _ _ _ (by omega)]
    · intro j hj1 hj2
      dsimp only
      rw [setIdx_ne _ _ _ _ (by omega), memcpy_in _ _ _ _ _ _ (by omega) (by omega)]
      congr 1
      omega
    · intro j hj
      dsimp only
      rw [setIdx_ne _ _ _ _ (by omega), memcpy_out _ _ _ _ _ _ (by omega)]
    · intro j hj1 hj2
      dsimp only
      rw [setIdx_ne _ _ _ _ (by omega), memcpy_in _ _ _ _ _ _ (by omega) (by omega)]
      congr 1
      omega
  · have hpe : pos = nd.cnt := by omega
    have hguard : 1 ≤ pos ∧ pos - 1 < NODE_DEG - 1 ∧ pos < NODE_DEG := by omega
    have heq : nd.insert pos left_max right = some
        { keys := setIdx nd.keys (pos - 1) left_max
          sons := setIdx nd.sons pos right
          cnt := nd.cnt + 1 } := by
      simp only [InternalNode.insert, if_neg hlt, if_pos hguard]
    refine ⟨_, heq, rfl, ?_, setIdx_eq _ _ _, ?_, ?_, setIdx_eq _ _ _, ?_⟩
    · intro j hj
      exact setIdx_ne _ _ _ _ (by omega)
    · intro j hj1 hj2
      omega
    · intro j hj
      exact setIdx_ne _ _ _ _ (by omega)
    · intro j hj1 hj2
      omega

/-- C7: on a non-full internal node with `1 ≤ pos ≤ cnt`,
`InternalNode::insert(pos, leftMax, rightHandle)` shifts separator keys
`[pos-1, cnt-1)` and children `[pos, cnt)` one slot rightward (no shift when
`pos = cnt`, where those ranges are empty), writes `keys[pos-1] = leftMax`
and `sons[pos] = rightHandle`, and increments `cnt`, leaving all other keys
and children in their original relative order. -/
theorem InternalNode.insert_spec {K : Type} (nd : InternalNode K) (pos : Nat)
    (left_max : K) (right : NodeIndex) (hnf : nd.cnt < NODE_DEG)
    (hpos1 : 1 ≤ pos) (hpos2 : pos ≤ nd.cnt) :
    ∃ nd', nd.insert pos left_max right = some nd' ∧ nd'.cnt = nd.cnt + 1 ∧
      (∀ j, j < pos - 1 → nd'.keys j = nd.keys j) ∧
      nd'.keys (pos - 1) = left_max ∧
      (∀ j, pos - 1 ≤ j → j < nd.cnt - 1 → nd'.keys (j + 1) = nd.keys j) ∧
      (∀ j, j < pos → nd'.sons j = nd.sons j) ∧
      nd'.sons pos = right ∧
      (∀ j, pos ≤ j → j < nd.cnt → nd'.sons (j + 1) = nd.sons j) :=
  InternalNode.child_insert_desc nd pos left_max right hnf hpos1 hpos2

/-- Witness for C7: the source's `test_internal_node` scenario — a node with
5 children and keys `[1, 10, 20, 30]` receiving a new child at position 3
with separator 15. -/
theorem InternalNode.insert_spec_witness :
    let nd : InternalNode Nat :=
      { keys := fun j => [1, 10, 20, 30].getD j 0
        sons := fun j => (List.range 5).map NodeIndex.leaf |>.getD j default
        cnt := 5 }
    (nd.cnt < NODE_DEG ∧ 1 ≤ 3 ∧ 3 ≤ nd.cnt) ∧
    ∃ nd', nd.insert 3 15 (NodeIndex.leaf 5) = some nd' ∧ nd'.cnt = nd.cnt + 1 ∧
      (∀ j, j < 2 → nd'.keys j = nd.keys j) ∧ nd'.keys 2 = 15 ∧
      (∀ j, 2 ≤ j → j < nd.cnt - 1 → nd'.keys (j + 1) = nd.keys j) ∧
      (∀ j, j < 3 → nd'.sons j = nd.sons j) ∧ nd'.sons 3 = NodeIndex.leaf 5 ∧
      (∀ j, 3 ≤ j → j < nd.cnt → nd'.sons (j + 1) = nd.sons j) := by
  intro nd
  exact ⟨⟨by decide, by decide, by decide⟩,
    InternalNode.insert_spec nd 3 15 (NodeIndex.leaf 5) (by decide) (by decide)
      (by decide)⟩

/-! ## Splits (C6) -/

/-- Extensional description of `LeafNode::split` (defined for `2 ≤ cnt ≤ NODE_DEG`;
the driver only splits full leaves). -/
theorem LeafNode.split_halves {K V : Type} [Inhabited K] [Inhabited V]
    (nd : LeafNode K V) (h2 : 2 ≤ nd.cnt) (hle : nd.cnt ≤ NODE_DEG) :
    ∃ sep left right, nd.split = some (sep, left, right) ∧
      left.cnt = nd.cnt / 2 ∧ right.cnt = nd.cnt - nd.cnt / 2 ∧
      (∀ j, left.keys j = nd.keys j) ∧ (∀ j, left.values j = nd.values j) ∧
      (∀ j, j < nd.cnt - nd.cnt / 2 →
        right.keys j = nd.keys (nd.cnt / 2 + j) ∧
        right.values j = nd.values (nd.cnt / 2 + j)) ∧
      sep = nd.keys (nd.cnt / 2 - 1) := by
  have hdeg : NODE_DEG = 32 := rfl
  have hguard : 1 ≤ nd.cnt / 2 ∧ nd.cnt / 2 < NODE_DEG := by omega
  have heq : nd.split = some (nd.keys (nd.cnt / 2 - 1), { nd with cnt := nd.cnt / 2 },
      { keys := memcpy nd.keys (nd.cnt / 2) (fun _ => default) 0 (nd.cnt - nd.cnt / 2)
        values := memcpy nd.values (nd.cnt / 2) (fun _ => default) 0 (nd.cnt - nd.cnt / 2)
        cnt := nd.cnt - nd.cnt / 2 }) := by
    simp only [LeafNode.split, if_pos hguard]
  refine ⟨_, _, _, heq, rfl, rfl, fun j => rfl, fun j => rfl, ?_, rfl⟩
  intro j hj
  constructor
  · show memcpy nd.keys (nd.cnt / 2) (fun _ => default) 0 (nd.cnt - nd.cnt / 2) j = _
    rw [memcpy_in _ _ _ _ _ _ (by omega) (by omega)]
    all_goals simp
  · show memcpy nd.values (nd.cnt / 2) (fun _ => default) 0 (nd.cnt - nd.cnt / 2) j = _
    rw [memcpy_in _ _ _ _ _ _ (by omega) (by omega)]
    all_goals simp

/-- Extensional description of `InternalNode::split` (defined for
`2 ≤ cnt ≤ NODE_DEG`; the driver only splits full internal nodes).  The
separator key `keys[cnt/2 - 1]` is consumed: it is stored in neither
partition's key array. -/
theorem InternalNode.split_consumes_mid {K : Type} [Inhabited K]
    (nd : InternalNode K) (h2 : 2 ≤ nd.cnt) (hle : nd.cnt ≤ NODE_DEG) :
    ∃ sep left right, nd.split = some (sep, left, right) ∧
      left.cnt = nd.cnt / 2 ∧ right.cnt = nd.cnt - nd.cnt / 2 ∧
      (∀ j, left.keys j = nd.keys j) ∧ (∀ j, left.sons j = nd.sons j) ∧
      (∀ j, j < nd.cnt - nd.cnt / 2 - 1 → right.keys j = nd.keys (nd.cnt / 2 + j)) ∧
      (∀ j, j < nd.cnt - nd.cnt / 2 → right.sons j = nd.sons (nd.cnt / 2 + j)) ∧
      sep = nd.keys (nd.cnt / 2 - 1) := by
  have hdeg : NODE_DEG = 32 := rfl
  have hguard : 1 ≤ nd.cnt / 2 ∧ nd.cnt / 2 < NODE_DEG - 1 ∧ nd.cnt / 2 < NODE_DEG := by
    omega
  have heq : nd.split = some (nd.keys (nd.cnt / 2 - 1), { nd with cnt := nd.cnt / 2 },
      { keys := memcpy nd.keys (nd.cnt / 2) (fun _ => default) 0 (nd.cnt - nd.cnt / 2 - 1)
        sons := memcpy nd.sons (nd.cnt / 2) (fun _ => default) 0 (nd.cnt - nd.cnt / 2)
        cnt := nd.cnt - nd.cnt / 2 }) := by
    simp only [InternalNode.split, if_pos hguard]
  refine ⟨_, _, _, heq, rfl, rfl, fun j => rfl, fun j => rfl, ?_, ?_, rfl⟩
  · intro j hj
    show memcpy nd.keys (nd.cnt / 2) (fun _ => default) 0 (nd.cnt - nd.cnt / 2 - 1) j = _
    rw [memcpy_in _ _ _ _ _ _ (by omega) (by omega)]
    all_goals simp
  · intro j hj
    show memcpy nd.sons (nd.cnt / 2) (fun _ => default) 0 (nd.cnt - nd.cnt / 2) j = _
    rw [memcpy_in _ _ _ _ _ _ (by omega) (by omega)]
    all_goals simp

/-- A concrete full internal node: separator keys `0, 1, …, 30`, children
`Leaf 0 … Leaf 31`, `cnt = 32`. -/
def cexFullInternal : InternalNode Nat :=
  { keys := fun j => j, sons := fun j => NodeIndex.leaf j, cnt := NODE_DEG }

/-- A concrete full leaf node: keys and values `0, 1, …, 31`, `cnt = 32`. -/
def cexFullLeaf : LeafNode Nat Nat :=
  { keys := fun j => j, values := fun j => j, cnt := NODE_DEG }

/-- C6 counterexample: splitting a full internal node does NOT keep all
original keys across the two partitions — the separator key (here `15`) is
consumed by the split and stored in neither partition's key array. -/
theorem internal_split_loses_separator :
    ∃ sep left right, cexFullInternal.split = some (sep, left, right) ∧
      ¬ (∀ j, j < cexFullInternal.cnt - 1 →
          (∃ j2, j2 < left.cnt - 1 ∧ left.keys j2 = cexFullInternal.keys j) ∨
          (∃ j2, j2 < right.cnt - 1 ∧ right.keys j2 = cexFullInternal.keys j)) := by
  refine ⟨_, _, _, rfl, by decide⟩

/-- C6 amended: for a full leaf, `split` moves the upper half out in order:
`left.cnt = ⌊n/2⌋`, `left.cnt + right.cnt = n`, all original keys are
present across the two partitions (none duplicated or lost), both
partitions are individually sorted, and every left key is `≤` the returned
separator `<` every right key.  For a full internal node the same holds for
the children and for the separator ordering, but the original separator key
`keys[n/2 - 1]` is returned as the separator and is stored in neither
partition: the original keys are exactly the left partition's keys,
followed by the returned separator, followed by the right partition's keys. -/
theorem split_preserves_content {K V : Type} [LinearOrder K] [Inhabited K]
    [Inhabited V] (lf : LeafNode K V) (nd : InternalNode K)
    (hlf : lf.cnt = NODE_DEG)
    (hlfsort : ∀ i j, i < j → j < lf.cnt → lf.keys i < lf.keys j)
    (hnd : nd.cnt = NODE_DEG)
    (hndsort : ∀ i j, i < j → j < nd.cnt - 1 → nd.keys i < nd.keys j) :
    (∃ sep left right, lf.split = some (sep, left, right) ∧
      left.cnt = lf.cnt / 2 ∧ left.cnt + right.cnt = lf.cnt ∧
      (∀ j, j < left.cnt → left.keys j = lf.keys j) ∧
      (∀ j, j < right.cnt → right.keys j = lf.keys (left.cnt + j)) ∧
      (∀ i j, i < j → j < left.cnt → left.keys i < left.keys j) ∧
      (∀ i j, i < j → j < right.cnt → right.keys i < right.keys j) ∧
      (∀ j, j < left.cnt → left.keys j ≤ sep) ∧
      (∀ j, j < right.cnt → sep < right.keys j)) ∧
    (∃ sep left right, nd.split = some (sep, left, right) ∧
      left.cnt = nd.cnt / 2 ∧ left.cnt + right.cnt = nd.cnt ∧
      (∀ j, j < left.cnt → left.sons j = nd.sons j) ∧
      (∀ j, j < right.cnt → right.sons j = nd.sons (left.cnt + j)) ∧
      (∀ j, j < left.cnt - 1 → left.keys j = nd.keys j) ∧
      sep = nd.keys (left.cnt - 1) ∧
      (∀ j, j < right.cnt - 1 → right.keys j = nd.keys (left.cnt + j)) ∧
      (∀ i j, i < j → j < left.cnt - 1 → left.keys i < left.keys j) ∧
      (∀ i j, i < j → j < right.cnt - 1 → right.keys i < right.keys j) ∧
      (∀ j, j < left.cnt - 1 → left.keys j ≤ sep) ∧
      (∀ j, j < right.cnt - 1 → sep < right.keys j)) := by
  have hdeg : NODE_DEG = 32 := rfl
  constructor
  · obtain ⟨sep, left, right, heq, hlc, hrc, hlk, _, hrk, hsep⟩ :=
      LeafNode.split_halves lf (by omega) (by omega)
    refine ⟨sep, left, right, heq, hlc, by omega, ?_, ?_, ?_, ?_, ?_, ?_⟩
    · intro j hj; rw [hlk]
    · intro j hj; rw [hlc]; exact (hrk j (by omega)).1
    · intro i j hij hj
      rw [hlk, hlk]; exact hlfsort i j hij (by omega)
    · intro i j hij hj
      rw [(hrk i (by omega)).1, (hrk j (by omega)).1]
      exact hlfsort _ _ (by omega) (by omega)
    · intro j hj
      rw [hlk, hsep]
      rcases Nat.lt_or_ge j (lf.cnt / 2 - 1) with h | h
      · exact le_of_lt (hlfsort _ _ (by omega) (by omega))
      · have : j = lf.cnt / 2 - 1 := by omega
        subst this; exact le_refl _
    · intro j hj
      rw [(hrk j (by omega)).1, hsep]
      exact hlfsort _ _ (by omega) (by omega)
  · obtain ⟨sep, left, right, heq, hlc, hrc, hlk, hls, hrk, hrs, hsep⟩ :=
      InternalNode.split_consumes_mid nd (by omega) (by omega)
    refine ⟨sep, left, right, heq, hlc, by omega, ?_, ?_, ?_, ?_, ?_, ?_, ?_, ?_, ?_⟩
    · intro j hj; rw [hls]
    · intro j hj; rw [hlc]; exact hrs j (by omega)
    · intro j hj; rw [hlk]
    · rw [hsep, hlc]
    · intro j hj; rw [hlc]; exact hrk j (by omega)
    · intro i j hij hj
      rw [hlk, hlk]; exact hndsort i j hij (by omega)
    · intro i j hij hj
      rw [hrk i (by omega), hrk j (by omega)]
      exact hndsort _ _ (by omega) (by omega)
    · intro j hj
      rw [hlk, hsep]
      exact le_of_lt (hndsort _ _ (by omega) (by omega))
    · intro j hj
      rw [hrk j (by omega), hsep]
      exact hndsort _ _ (by omega) (by omega)

/-- Witness for C6 (amended): a full leaf with keys `0..31` and the full
internal node `cexFullInternal`. -/
theorem split_preserves_content_witness :
    let lf : LeafNode Nat Nat := { keys := fun j => j, values := fun j => j, cnt := NODE_DEG }
    (lf.cnt = NODE_DEG ∧ cexFullInternal.cnt = NODE_DEG) ∧
    (∃ sep left right, lf.split = some (sep, left, right) ∧
      left.cnt = lf.cnt / 2 ∧ left.cnt + right.cnt = lf.cnt ∧
      (∀ j, j < left.cnt → left.keys j = lf.keys j) ∧
      (∀ j, j < right.cnt → right.keys j = lf.keys (left.cnt + j)) ∧
      (∀ i j, i < j → j < left.cnt → left.keys i < left.keys j) ∧
      (∀ i j, i < j → j < right.cnt → right.keys i < right.keys j) ∧
      (∀ j, j < left.cnt → left.keys j ≤ sep) ∧
      (∀ j, j < right.cnt → sep < right.keys j)) := by
  intro lf
  have h := split_preserves_content lf cexFullInternal rfl
    (fun i j hij hj => by simpa using hij) rfl
    (fun i j hij hj => by simpa [cexFullInternal] using hij)
  exact ⟨⟨rfl, rfl⟩, h.1⟩

/-! ## Driver-level insert sequences (C2) -/

set_option maxRecDepth 1000000

/-- Test driver: fold `BTree::insert` over a list of keys (each key is also
used as its value), propagating any fault. -/
def runInserts (t : BTree Nat Nat) (ks : List Nat) : Option (BTree Nat Nat) :=
  ks.foldlM (fun t k => (t.insert k k).map (fun p => p.2)) t

/-- C2 counterexample: after inserting the 32 ascending keys `0..31` into a
fresh tree, the final `BTree::insert` returns with the root (still the
original leaf) reporting `full() = true` — a full node is split only at the
start of the *next* insert that visits it, so the root can be full at the
moment a driver-level insert returns. -/
theorem root_full_after_insert_returns :
    (runInserts BTree.new (List.range NODE_DEG)).map (fun t =>
      match t.root with
      | NodeIndex.leaf id => (t.l.get? id).map (fun nd => nd.full)
      | NodeIndex.internal id => (t.i.get? id).map (fun nd => nd.full)) =
    some (some true) := by decide

/-- C2 amended: inserting `NODE_DEG^2 + 1 = 1025` distinct ascending keys
into a fresh tree produces a root that is an internal node (height ≥ 2) and
is not full after the final insert returns (if the root were still a leaf
the inner result would be `none`). -/
theorem root_internal_after_ascending_inserts :
    (runInserts BTree.new (List.range (NODE_DEG * NODE_DEG + 1))).map (fun t =>
      match t.root with
      | NodeIndex.leaf _ => none
      | NodeIndex.internal id => (t.i.get? id).map (fun nd => nd.full)) =
    some (some false) := by decide

/-! ## Unconditional bounds and success lemmas for node operations -/

theorem lbLoop_bounds {K : Type} [LinearOrder K] (a : Nat → K) (v : K) :
    ∀ fuel l r, l ≤ r → l ≤ lbLoop a v fuel l r ∧ lbLoop a v fuel l r ≤ r := by
  intro fuel
  induction fuel with
  | zero => intro l r h; exact ⟨le_refl l, h⟩
  | succ fuel ih =>
    intro l r h
    by_cases hlt : l < r
    · by_cases hcmp : a ((l + r) / 2) < v
      · have hunf : lbLoop a v (fuel + 1) l r = lbLoop a v fuel ((l + r) / 2 + 1) r := by
          simp [lbLoop, hlt, hcmp]
        have := ih ((l + r) / 2 + 1) r (by omega)
        rw [hunf]; omega
      · have hunf : lbLoop a v (fuel + 1) l r = lbLoop a v fuel l ((l + r) / 2) := by
          simp [lbLoop, hlt, hcmp]
        have := ih l ((l + r) / 2) (by omega)
        rw [hunf]; omega
    · have hconst : lbLoop a v (fuel + 1) l r = l := by simp [lbLoop, hlt]
      rw [hconst]; exact ⟨le_refl l, h⟩

/-- `lower_bound` never exceeds the slice length, regardless of sortedness. -/
theorem lower_bound_le {K : Type} [LinearOrder K] (a : Nat → K) (len : Nat) (v : K) :
    lower_bound a len v ≤ len := by
  by_cases h0 : len = 0
  · subst h0; simp [lower_bound]
  · by_cases hlast : a (len - 1) < v
    · simp [lower_bound, h0, hlast]
    · have := lbLoop_bounds a v (len - 1) 0 (len - 1) (by omega)
      simp only [lower_bound, if_neg h0, if_neg hlast]
      omega

/-- A non-full leaf insert never faults and grows the count by at most one. -/
theorem LeafNode.insert_nofault {K V : Type} [LinearOrder K] (nd : LeafNode K V)
    (k : K) (v : V) (hnf : nd.cnt < NODE_DEG) :
    ∃ r nd', nd.insert k v = some (r, nd') ∧ nd'.cnt ≤ nd.cnt + 1 := by
  have hfull : nd.full = false := by
    simp only [LeafNode.full, decide_eq_false_iff_not]; omega
  have hle : nd.cnt ≤ NODE_DEG := by omega
  simp only [LeafNode.insert, hfull, Bool.false_eq_true, if_false, if_pos hle]
  by_cases h1 : lower_bound nd.keys nd.cnt k = nd.cnt
  · simp only [if_pos h1]
    exact ⟨_, _, rfl, le_refl _⟩
  · by_cases h2 : nd.keys (lower_bound nd.keys nd.cnt k) = k
    · simp only [if_neg h1, if_pos h2]
      exact ⟨_, _, rfl, by dsimp only; omega⟩
    · simp only [if_neg h1, if_neg h2]
      exact ⟨_, _, rfl, le_refl _⟩

/-- An insert into a non-full internal node at a valid position never faults;
the new child list consists of the old children plus `right`. -/
theorem InternalNode.insert_child_total {K : Type} (nd : InternalNode K) (pos : Nat)
    (left_max : K) (right : NodeIndex) (hnf : nd.cnt < NODE_DEG)
    (hpos1 : 1 ≤ pos) (hpos2 : pos ≤ nd.cnt) :
    ∃ nd', nd.insert pos left_max right = some nd' ∧ nd'.cnt = nd.cnt + 1 ∧
      (∀ j, j < nd'.cnt → (∃ j2, j2 < nd.cnt ∧ nd'.sons j = nd.sons j2) ∨
        nd'.sons j = right) := by
  obtain ⟨nd', heq, hcnt, _, _, _, hs1, hs2, hs3⟩ :=
    InternalNode.insert_spec nd pos left_max right hnf hpos1 hpos2
  refine ⟨nd', heq, hcnt, ?_⟩
  intro j hj
  rcases Nat.lt_trichotomy j pos with h | h | h
  · exact Or.inl ⟨j, by omega, hs1 j h⟩
  · subst h; exact Or.inr hs2
  · have hj1 : j - 1 + 1 = j := by omega
    refine Or.inl ⟨j - 1, by omega, ?_⟩
    have h2 := hs3 (j - 1) (by omega) (by omega)
    rw [hj1] at h2
    exact h2

theorem exists_get?_of_lt {α : Type} (l : List α) (i : Nat) (h : i < l.length) :
    ∃ x, l.get? i = some x := by
  rw [List.get?_eq_get h]; exact ⟨_, rfl⟩

theorem lt_of_get?_some {α : Type} {l : List α} {i : Nat} {a : α}
    (h : l.get? i = some a) : i < l.length := by
  by_contra hc
  rw [List.get?_len_le (by omega)] at h
  exact absurd h (by simp)

/-! ## Structural tree invariant: valid handles and strictly decreasing rank -/

/-- Rank of a handle under an internal-height assignment `HI`: leaves have
rank 0, internal node `i` has rank `HI i + 1`. -/
def hRank (HI : Nat → Nat) : NodeIndex → Nat
  | NodeIndex.leaf _ => 0
  | NodeIndex.internal i => HI i + 1

/-- A handle points into the corresponding arena. -/
def HandleOK {K V : Type} (t : BTree K V) : NodeIndex → Prop
  | NodeIndex.leaf i => i < t.l.length
  | NodeIndex.internal i => i < t.i.length

/-- Arena invariant: every allocated node has a sane count, every stored
child handle points into its arena, and the rank assignment `HI` strictly
decreases from every internal node to each of its children (so the node
graph is acyclic and every descent terminates). -/
structure ArenaInv {K V : Type} (iA : List (InternalNode K)) (lA : List (LeafNode K V))
    (HI : Nat → Nat) : Prop where
  leaf_cnt : ∀ id nd, lA.get? id = some nd → nd.cnt ≤ NODE_DEG
  int_cnt1 : ∀ id nd, iA.get? id = some nd → 1 ≤ nd.cnt
  int_cnt2 : ∀ id nd, iA.get? id = some nd → nd.cnt ≤ NODE_DEG
  sons_leaf : ∀ id nd, iA.get? id = some nd → ∀ j, j < nd.cnt →
    ∀ li, nd.sons j = NodeIndex.leaf li → li < lA.length
  sons_int : ∀ id nd, iA.get? id = some nd → ∀ j, j < nd.cnt →
    ∀ ii, nd.sons j = NodeIndex.internal ii → ii < iA.length
  sons_rank : ∀ id nd, iA.get? id = some nd → ∀ j, j < nd.cnt →
    hRank HI (nd.sons j) < HI id + 1
  hi_bound : ∀ id, id < iA.length → HI id ≤ iA.length

/-! ## One-iteration unfoldings of the insert loop

Each lemma describes one pass of the `loop` in `BTree::insert` for one shape
of the state: current node internal/leaf, full or not, father present or
root.  They are the building blocks for the driver-level proofs. -/

theorem BTree.insertGo_internal_notfull {K V : Type} [LinearOrder K] [Inhabited K]
    [Inhabited V] (k : K) (v : V) (fuel : Nat) (t : BTree K V) (id : Nat)
    (father : Option Nat) (fsi : Nat) (nd : InternalNode K)
    (hnd : t.i.get? id = some nd) (hfull : nd.full = false) :
    BTree.insertGo k v (fuel + 1) t (NodeIndex.internal id) father fsi =
      (nd.lookup k).bind fun r => BTree.insertGo k v fuel t r.2 (some id) r.1 := by
  simp only [BTree.insertGo, hnd, hfull, Bool.false_eq_true, if_false,
    Option.pure_def, Option.bind_eq_bind, Option.some_bind]

theorem BTree.insertGo_internal_full_father {K V : Type} [LinearOrder K] [Inhabited K]
    [Inhabited V] (k : K) (v : V) (fuel : Nat) (t : BTree K V) (id f : Nat)
    (fsi : Nat) (nd left right : InternalNode K) (lm : K) (fa fa2 : InternalNode K)
    (hnd : t.i.get? id = some nd) (hfull : nd.full = true)
    (hsplit : nd.split = some (lm, left, right))
    (hfa : ((t.i.set id left) ++ [right]).get? f = some fa)
    (hins : fa.insert (fsi + 1) lm (NodeIndex.internal t.i.length) = some fa2) :
    BTree.insertGo k v (fuel + 1) t (NodeIndex.internal id) (some f) fsi =
      (do
        let nd2 ← (((t.i.set id left) ++ [right]).set f fa2).get?
          (if lm < k then t.i.length else id)
        let r ← nd2.lookup k
        BTree.insertGo k v fuel
          { t with i := ((t.i.set id left) ++ [right]).set f fa2 } r.2
          (some (if lm < k then t.i.length else id)) r.1
        : Option (Option V × BTree K V)) := by
  simp only [BTree.insertGo, hnd, hfull, if_true, hsplit, BTree.alloc_internal,
    List.length_set, hfa, hins, Option.pure_def, Option.bind_eq_bind, Option.some_bind]

theorem BTree.insertGo_internal_full_root {K V : Type} [LinearOrder K] [Inhabited K]
    [Inhabited V] (k : K) (v : V) (fuel : Nat) (t : BTree K V) (id : Nat) (fsi : Nat)
    (nd left right : InternalNode K) (lm : K) (nr2 : InternalNode K)
    (hnd : t.i.get? id = some nd) (hfull : nd.full = true)
    (hsplit : nd.split = some (lm, left, right))
    (hroot : ((t.i.set id left ++ [right]) ++ [InternalNode.new (NodeIndex.internal id)]).get?
      (t.i.length + 1) = some (InternalNode.new (NodeIndex.internal id)))
    (hins : (InternalNode.new (NodeIndex.internal id) : InternalNode K).insert 1 lm
      (NodeIndex.internal t.i.length) = some nr2) :
    BTree.insertGo k v (fuel + 1) t (NodeIndex.internal id) none fsi =
      (do
        let nd2 ← ((((t.i.set id left) ++ [right]) ++ [InternalNode.new (NodeIndex.internal id)]).set
          (t.i.length + 1) nr2).get? (if lm < k then t.i.length else id)
        let r ← nd2.lookup k
        BTree.insertGo k v fuel
          { i := (((t.i.set id left) ++ [right]) ++ [InternalNode.new (NodeIndex.internal id)]).set
              (t.i.length + 1) nr2
            l := t.l
            root := NodeIndex.internal (t.i.length + 1) } r.2
          (some (if lm < k then t.i.length else id)) r.1
        : Option (Option V × BTree K V)) := by
  simp only [BTree.insertGo, hnd, hfull, if_true, hsplit, BTree.alloc_internal,
    BTree.make_new_root, List.length_set, List.length_append, List.length_cons,
    List.length_nil, Nat.zero_add, hroot, hins, Option.pure_def,
    Option.bind_eq_bind, Option.some_bind]

theorem BTree.insertGo_leaf_notfull {K V : Type} [LinearOrder K] [Inhabited K]
    [Inhabited V] (k : K) (v : V) (fuel : Nat) (t : BTree K V) (id : Nat)
    (father : Option Nat) (fsi : Nat) (nd : LeafNode K V)
    (hnd : t.l.get? id = some nd) (hfull : nd.full = false) :
    BTree.insertGo k v (fuel + 1) t (NodeIndex.leaf id) father fsi =
      (nd.insert k v).bind fun r =>
        some (r.1, { t with l := t.l.set id r.2 }) := by
  simp only [BTree.insertGo, hnd, hfull, Bool.false_eq_true, if_false,
    Option.pure_def, Option.bind_eq_bind, Option.some_bind]

theorem BTree.insertGo_leaf_full_father {K V : Type} [LinearOrder K] [Inhabited K]
    [Inhabited V] (k : K) (v : V) (fuel : Nat) (t : BTree K V) (id f : Nat)
    (fsi : Nat) (nd left right : LeafNode K V) (lm : K) (fa fa2 : InternalNode K)
    (hnd : t.l.get? id = some nd) (hfull : nd.full = true)
    (hsplit : nd.split = some (lm, left, right))
    (hfa : t.i.get? f = some fa)
    (hins : fa.insert (fsi + 1) lm (NodeIndex.leaf t.l.length) = some fa2) :
    BTree.insertGo k v (fuel + 1) t (NodeIndex.leaf id) (some f) fsi =
      (do
        let nd2 ← ((t.l.set id left) ++ [right]).get? (if lm < k then t.l.length else id)
        let r ← nd2.insert k v
        some (r.1, { t with
          i := t.i.set f fa2
          l := ((t.l.set id left) ++ [right]).set (if lm < k then t.l.length else id) r.2 })
        : Option (Option V × BTree K V)) := by
  simp only [BTree.insertGo, hnd, hfull, if_true, hsplit, BTree.alloc_leaf,
    List.length_set, hfa, hins, Option.pure_def, Option.bind_eq_bind, Option.some_bind]

theorem BTree.insertGo_leaf_full_root {K V : Type} [LinearOrder K] [Inhabited K]
    [Inhabited V] (k : K) (v : V) (fuel : Nat) (t : BTree K V) (id : Nat) (fsi : Nat)
    (nd left right : LeafNode K V) (lm : K) (nr2 : InternalNode K)
    (hnd : t.l.get? id = some nd) (hfull : nd.full = true)
    (hsplit : nd.split = some (lm, left, right))
    (hroot : (t.i ++ [InternalNode.new (NodeIndex.leaf id)]).get? t.i.length =
      some (InternalNode.new (NodeIndex.leaf id)))
    (hins : (InternalNode.new (NodeIndex.leaf id) : InternalNode K).insert 1 lm
      (NodeIndex.leaf t.l.length) = some nr2) :
    BTree.insertGo k v (fuel + 1) t (NodeIndex.leaf id) none fsi =
      (do
        let nd2 ← ((t.l.set id left) ++ [right]).get? (if lm < k then t.l.length else id)
        let r ← nd2.insert k v
        some (r.1,
          { i := (t.i ++ [InternalNode.new (NodeIndex.leaf id)]).set t.i.length nr2
            l := ((t.l.set id left) ++ [right]).set (if lm < k then t.l.length else id) r.2
            root := NodeIndex.internal t.i.length })
        : Option (Option V × BTree K V)) := by
  simp only [BTree.insertGo, hnd, hfull, if_true, hsplit, BTree.alloc_leaf,
    BTree.make_new_root, BTree.alloc_internal, List.length_set, List.length_append,
    List.length_cons, List.length_nil, Nat.zero_add, hroot, hins, Option.pure_def,
    Option.bind_eq_bind, Option.some_bind]

theorem BTree.lookupGo_internal {K V : Type} [LinearOrder K] (k : K) (fuel : Nat)
    (t : BTree K V) (id : Nat) (nd : InternalNode K) (hnd : t.i.get? id = some nd) :
    BTree.lookupGo k (fuel + 1) t (NodeIndex.internal id) =
      (nd.lookup k).bind fun r => BTree.lookupGo k fuel t r.2 := by
  simp only [BTree.lookupGo, hnd, Option.pure_def, Option.bind_eq_bind,
    Option.some_bind]

theorem BTree.lookupGo_leaf {K V : Type} [LinearOrder K] (k : K) (fuel : Nat)
    (t : BTree K V) (id : Nat) (nd : LeafNode K V) (hnd : t.l.get? id = some nd) :
    BTree.lookupGo k (fuel + 1) t (NodeIndex.leaf id) = some (nd.lookup k) := by
  simp only [BTree.lookupGo, hnd, Option.pure_def, Option.bind_eq_bind,
    Option.some_bind]

/-! ## Arena indexing helpers -/

theorem get?_set_cases {α : Type} {l : List α} {id id2 : Nat} {x nd2 : α}
    (h : (l.set id x).get? id2 = some nd2) :
    (id2 = id ∧ nd2 = x) ∨ (id2 ≠ id ∧ l.get? id2 = some nd2) := by
  by_cases he : id2 = id
  · subst he
    have hlt : id2 < l.length := by
      have := lt_of_get?_some h
      rwa [List.length_set] at this
    rw [List.get?_set_eq_of_lt x hlt] at h
    exact Or.inl ⟨rfl, (Option.some_inj.mp h).symm⟩
  · rw [List.get?_set_ne _ _ (fun hc => he hc.symm)] at h
    exact Or.inr ⟨he, h⟩

theorem get?_append_one_cases {α : Type} {l : List α} {id2 : Nat} {y nd2 : α}
    (h : (l ++ [y]).get? id2 = some nd2) :
    (id2 = l.length ∧ nd2 = y) ∨ (id2 < l.length ∧ l.get? id2 = some nd2) := by
  rcases Nat.lt_trichotomy id2 l.length with hlt | he | hgt
  · rw [List.get?_append hlt] at h
    exact Or.inr ⟨hlt, h⟩
  · subst he
    rw [List.get?_concat_length] at h
    exact Or.inl ⟨rfl, (Option.some_inj.mp h).symm⟩
  · have := lt_of_get?_some h
    simp only [List.length_append, List.length_cons, List.length_nil] at this
    omega

theorem get?_set_append_cases {α : Type} {l : List α} {id id2 : Nat} {x y nd2 : α}
    (h : ((l.set id x) ++ [y]).get? id2 = some nd2) :
    (id2 = id ∧ id2 < l.length ∧ nd2 = x) ∨ (id2 = l.length ∧ nd2 = y) ∨
    (id2 ≠ id ∧ id2 < l.length ∧ l.get? id2 = some nd2) := by
  rcases get?_append_one_cases h with ⟨he, hy⟩ | ⟨hlt, hset⟩
  · rw [List.length_set] at he
    exact Or.inr (Or.inl ⟨he, hy⟩)
  · rw [List.length_set] at hlt
    rcases get?_set_cases hset with ⟨he, hx⟩ | ⟨hne, hold⟩
    · exact Or.inl ⟨he, by omega, hx⟩
    · exact Or.inr (Or.inr ⟨hne, hlt, hold⟩)

theorem get?_set_append_at {α : Type} (l : List α) (id : Nat) (x y : α)
    (hid : id < l.length) : ((l.set id x) ++ [y]).get? id = some x := by
  rw [List.get?_append (by rwa [List.length_set]), List.get?_set_eq_of_lt x hid]

theorem get?_set_append_new {α : Type} (l : List α) (id : Nat) (x y : α) :
    ((l.set id x) ++ [y]).get? l.length = some y := by
  have h := List.get?_concat_length (l.set id x) y
  rwa [List.length_set] at h

theorem get?_set_append_old {α : Type} (l : List α) (id j : Nat) (x y : α)
    (hj : j < l.length) (hne : j ≠ id) :
    ((l.set id x) ++ [y]).get? j = l.get? j := by
  rw [List.get?_append (by rwa [List.length_set]), List.get?_set_ne _ _ (fun hc => hne hc.symm)]

/-! ## Invariant preservation through the split/insert steps -/

theorem some_triple_inj {A B C : Type} {a a2 : A} {b b2 : B} {c c2 : C}
    (h : (some (a, b, c) : Option (A × B × C)) = some (a2, b2, c2)) :
    a = a2 ∧ b = b2 ∧ c = c2 := by
  have h2 := Option.some_inj.mp h
  exact ⟨congrArg Prod.fst h2, congrArg (fun p => p.2.1) h2,
    congrArg (fun p => p.2.2) h2⟩

theorem hRank_setIdx_ne (HI : Nat → Nat) (n x : Nat) (h : NodeIndex)
    (hne : ∀ ii, h = NodeIndex.internal ii → ii ≠ n) :
    hRank (setIdx HI n x) h = hRank HI h := by
  cases h with
  | leaf i => rfl
  | internal i => simp [hRank, setIdx_ne _ _ _ _ (hne i rfl)]

/-- Splitting a full internal node `id` in place and appending the right half
preserves the arena invariant, assigning the fresh node the height of the
split node. -/
theorem ArenaInv.internal_split {K V : Type} [Inhabited K]
    {iA : List (InternalNode K)} {lA : List (LeafNode K V)} {HI : Nat → Nat}
    {id : Nat} {nd left right : InternalNode K} {lm : K}
    (hinv : ArenaInv iA lA HI) (hnd : iA.get? id = some nd)
    (hfull : nd.cnt = NODE_DEG) (hsplit : nd.split = some (lm, left, right)) :
    ArenaInv ((iA.set id left) ++ [right]) lA (setIdx HI iA.length (HI id)) := by
  have hdeg : NODE_DEG = 32 := rfl
  obtain ⟨sep, l2, r2, heq2, hlc, hrc, _, hls, _, hrs, _⟩ :=
    InternalNode.split_consumes_mid nd (by omega) (by omega)
  rw [hsplit] at heq2
  obtain ⟨he1, he2, he3⟩ := some_triple_inj heq2
  subst he2; subst he3
  have hid : id < iA.length := lt_of_get?_some hnd
  -- every node of the new arena is: left (at id), right (at iA.length), or old
  have hcase : ∀ id2 nd2, ((iA.set id left) ++ [right]).get? id2 = some nd2 →
      (id2 = id ∧ id2 < iA.length ∧ nd2 = left) ∨ (id2 = iA.length ∧ nd2 = right) ∨
      (id2 ≠ id ∧ id2 < iA.length ∧ iA.get? id2 = some nd2) :=
    fun id2 nd2 h => get?_set_append_cases h
  have hsonsl : ∀ j, j < left.cnt → left.sons j = nd.sons j := fun j _ => hls j
  have hsonsr : ∀ j, j < right.cnt → right.sons j = nd.sons (nd.cnt / 2 + j) := by
    intro j hj
    exact hrs j (by omega)
  have hlcnt : left.cnt = nd.cnt / 2 := hlc
  have hrcnt : right.cnt = nd.cnt - nd.cnt / 2 := hrc
  refine ⟨hinv.leaf_cnt, ?_, ?_, ?_, ?_, ?_, ?_⟩
  · intro id2 nd2 h
    rcases hcase id2 nd2 h with ⟨_, _, he⟩ | ⟨_, he⟩ | ⟨_, _, hold⟩
    · subst he; omega
    · subst he; omega
    · exact hinv.int_cnt1 _ _ hold
  · intro id2 nd2 h
    rcases hcase id2 nd2 h with ⟨_, _, he⟩ | ⟨_, he⟩ | ⟨_, _, hold⟩
    · subst he; omega
    · subst he; omega
    · exact hinv.int_cnt2 _ _ hold
  · intro id2 nd2 h j hj li hli
    rcases hcase id2 nd2 h with ⟨_, _, he⟩ | ⟨_, he⟩ | ⟨_, _, hold⟩
    · subst he
      rw [hsonsl j hj] at hli
      exact hinv.sons_leaf _ _ hnd j (by omega) li hli
    · subst he
      rw [hsonsr j hj] at hli
      exact hinv.sons_leaf _ _ hnd _ (by omega) li hli
    · exact hinv.sons_leaf _ _ hold j hj li hli
  · intro id2 nd2 h j hj ii hii
    have hlen : iA.length ≤ ((iA.set id left) ++ [right]).length := by
      simp [List.length_set]
    rcases hcase id2 nd2 h with ⟨_, _, he⟩ | ⟨_, he⟩ | ⟨_, _, hold⟩
    · subst he
      rw [hsonsl j hj] at hii
      exact lt_of_lt_of_le (hinv.sons_int _ _ hnd j (by omega) ii hii) hlen
    · subst he
      rw [hsonsr j hj] at hii
      exact lt_of_lt_of_le (hinv.sons_int _ _ hnd _ (by omega) ii hii) hlen
    · exact lt_of_lt_of_le (hinv.sons_int _ _ hold j hj ii hii) hlen
  · intro id2 nd2 h j hj
    rcases hcase id2 nd2 h with ⟨heid, hlt, he⟩ | ⟨heid, he⟩ | ⟨hne, hlt, hold⟩
    · subst he; subst heid
      rw [hsonsl j hj, hRank_setIdx_ne _ _ _ _ (fun ii hii hc => by
        have := hinv.sons_int _ _ hnd j (by omega) ii hii
        omega), setIdx_ne _ _ _ _ (by omega)]
      exact hinv.sons_rank _ _ hnd j (by omega)
    · subst he; subst heid
      rw [hsonsr j hj, hRank_setIdx_ne _ _ _ _ (fun ii hii hc => by
        have := hinv.sons_int _ _ hnd _ (by omega) ii hii
        omega), setIdx_eq _ _ _]
      exact hinv.sons_rank _ _ hnd _ (by omega)
    · rw [hRank_setIdx_ne _ _ _ _ (fun ii hii hc => by
        have := hinv.sons_int _ _ hold j hj ii hii
        omega), setIdx_ne _ _ _ _ (by omega)]
      exact hinv.sons_rank _ _ hold j hj
  · intro id2 hid2
    simp only [List.length_append, List.length_set, List.length_cons,
      List.length_nil] at hid2 ⊢
    by_cases he : id2 = iA.length
    · subst he
      rw [setIdx_eq _ _ _]
      have := hinv.hi_bound id hid
      omega
    · rw [setIdx_ne _ _ _ _ he]
      have hlt : id2 < iA.length := by omega
      have := hinv.hi_bound id2 hlt
      omega

/-- Splitting a full leaf `id` in place and appending the right half
preserves the arena invariant (no internal node changes). -/
theorem ArenaInv.leaf_split {K V : Type} [Inhabited K] [Inhabited V]
    {iA : List (InternalNode K)} {lA : List (LeafNode K V)} {HI : Nat → Nat}
    {id : Nat} {nd left right : LeafNode K V} {lm : K}
    (hinv : ArenaInv iA lA HI) (hnd : lA.get? id = some nd)
    (hfull : nd.cnt = NODE_DEG) (hsplit : nd.split = some (lm, left, right)) :
    ArenaInv iA ((lA.set id left) ++ [right]) HI := by
  have hdeg : NODE_DEG = 32 := rfl
  obtain ⟨sep, l2, r2, heq2, hlc, hrc, _, _, _, _⟩ :=
    LeafNode.split_halves nd (by omega) (by omega)
  rw [hsplit] at heq2
  obtain ⟨he1, he2, he3⟩ := some_triple_inj heq2
  subst he2; subst he3
  have hlen : lA.length ≤ ((lA.set id left) ++ [right]).length := by
    simp [List.length_set]
  refine ⟨?_, hinv.int_cnt1, hinv.int_cnt2, ?_, hinv.sons_int, hinv.sons_rank,
    hinv.hi_bound⟩
  · intro id2 nd2 h
    rcases get?_set_append_cases h with ⟨_, _, he⟩ | ⟨_, he⟩ | ⟨_, _, hold⟩
    · subst he; omega
    · subst he; omega
    · exact hinv.leaf_cnt _ _ hold
  · intro id2 nd2 h j hj li hli
    exact lt_of_lt_of_le (hinv.sons_leaf id2 nd2 h j hj li hli) hlen

/-- Inserting one additional valid child of smaller rank into a non-full
internal node preserves the arena invariant. -/
theorem ArenaInv.father_insert {K V : Type}
    {iA : List (InternalNode K)} {lA : List (LeafNode K V)} {HI : Nat → Nat}
    {f : Nat} {fa fa2 : InternalNode K} {pos : Nat} {lm : K} {newson : NodeIndex}
    (hinv : ArenaInv iA lA HI) (hfa : iA.get? f = some fa)
    (hnf : fa.cnt < NODE_DEG) (hpos1 : 1 ≤ pos) (hpos2 : pos ≤ fa.cnt)
    (hins : fa.insert pos lm newson = some fa2)
    (hval_leaf : ∀ li, newson = NodeIndex.leaf li → li < lA.length)
    (hval_int : ∀ ii, newson = NodeIndex.internal ii → ii < iA.length)
    (hrank : hRank HI newson < HI f + 1) :
    ArenaInv (iA.set f fa2) lA HI := by
  have hdeg : NODE_DEG = 32 := rfl
  obtain ⟨nd', heq, hcnt, hsons⟩ :=
    InternalNode.insert_child_total fa pos lm newson hnf hpos1 hpos2
  rw [hins] at heq
  have he : fa2 = nd' := Option.some_inj.mp heq
  rw [← he] at hcnt hsons
  have hf : f < iA.length := lt_of_get?_some hfa
  have hcase : ∀ id2 nd2, (iA.set f fa2).get? id2 = some nd2 →
      (id2 = f ∧ nd2 = fa2) ∨ (id2 ≠ f ∧ iA.get? id2 = some nd2) :=
    fun id2 nd2 h => get?_set_cases h
  refine ⟨hinv.leaf_cnt, ?_, ?_, ?_, ?_, ?_, ?_⟩
  · intro id2 nd2 h
    rcases hcase id2 nd2 h with ⟨_, he⟩ | ⟨_, hold⟩
    · subst he; omega
    · exact hinv.int_cnt1 _ _ hold
  · intro id2 nd2 h
    rcases hcase id2 nd2 h with ⟨_, he⟩ | ⟨_, hold⟩
    · subst he; omega
    · exact hinv.int_cnt2 _ _ hold
  · intro id2 nd2 h j hj li hli
    rcases hcase id2 nd2 h with ⟨_, he⟩ | ⟨_, hold⟩
    · subst he
      rcases hsons j hj with ⟨j2, hj2, hs⟩ | hs
      · rw [hs] at hli
        exact hinv.sons_leaf _ _ hfa j2 hj2 li hli
      · rw [hs] at hli
        exact hval_leaf li hli
    · exact hinv.sons_leaf _ _ hold j hj li hli
  · intro id2 nd2 h j hj ii hii
    have hlen : (iA.set f fa2).length = iA.length := List.length_set _ _ _
    rw [hlen]
    rcases hcase id2 nd2 h with ⟨_, he⟩ | ⟨_, hold⟩
    · subst he
      rcases hsons j hj with ⟨j2, hj2, hs⟩ | hs
      · rw [hs] at hii
        exact hinv.sons_int _ _ hfa j2 hj2 ii hii
      · rw [hs] at hii
        exact hval_int ii hii
    · exact hinv.sons_int _ _ hold j hj ii hii
  · intro id2 nd2 h j hj
    rcases hcase id2 nd2 h with ⟨heid, he⟩ | ⟨_, hold⟩
    · subst he; subst heid
      rcases hsons j hj with ⟨j2, hj2, hs⟩ | hs
      · rw [hs]
        exact hinv.sons_rank _ _ hfa j2 hj2
      · rw [hs]
        exact hrank
    · exact hinv.sons_rank _ _ hold j hj
  · intro id2 hid2
    rw [List.length_set] at hid2 ⊢
    exact hinv.hi_bound id2 hid2

/-- Allocating a new root internal node (one child `first`) preserves the
arena invariant, assigning it rank one above its child. -/
theorem ArenaInv.new_root {K V : Type} [Inhabited K]
    {iA : List (InternalNode K)} {lA : List (LeafNode K V)} {HI : Nat → Nat}
    (first : NodeIndex)
    (hinv : ArenaInv iA lA HI)
    (hval_leaf : ∀ li, first = NodeIndex.leaf li → li < lA.length)
    (hval_int : ∀ ii, first = NodeIndex.internal ii → ii < iA.length) :
    ArenaInv (iA ++ [InternalNode.new first]) lA
      (setIdx HI iA.length (hRank HI first)) := by
  have hdeg : NODE_DEG = 32 := rfl
  have hcase : ∀ id2 nd2, (iA ++ [InternalNode.new first]).get? id2 = some nd2 →
      (id2 = iA.length ∧ nd2 = InternalNode.new first) ∨
      (id2 < iA.length ∧ iA.get? id2 = some nd2) :=
    fun id2 nd2 h => get?_append_one_cases h
  have hnewcnt : (InternalNode.new first : InternalNode K).cnt = 1 := rfl
  have hnewsons : ∀ j, j < (InternalNode.new first : InternalNode K).cnt →
      (InternalNode.new first : InternalNode K).sons j = first := by
    intro j hj
    have hj0 : j = 0 := by omega
    subst hj0
    show setIdx (fun _ => default) 0 first 0 = first
    exact setIdx_eq _ _ _
  refine ⟨hinv.leaf_cnt, ?_, ?_, ?_, ?_, ?_, ?_⟩
  · intro id2 nd2 h
    rcases hcase id2 nd2 h with ⟨_, he⟩ | ⟨_, hold⟩
    · subst he; omega
    · exact hinv.int_cnt1 _ _ hold
  · intro id2 nd2 h
    rcases hcase id2 nd2 h with ⟨_, he⟩ | ⟨_, hold⟩
    · subst he; omega
    · exact hinv.int_cnt2 _ _ hold
  · intro id2 nd2 h j hj li hli
    rcases hcase id2 nd2 h with ⟨_, he⟩ | ⟨_, hold⟩
    · subst he
      rw [hnewsons j hj] at hli
      exact hval_leaf li hli
    · exact hinv.sons_leaf _ _ hold j hj li hli
  · intro id2 nd2 h j hj ii hii
    simp only [List.length_append, List.length_cons, List.length_nil]
    rcases hcase id2 nd2 h with ⟨_, he⟩ | ⟨_, hold⟩
    · subst he
      rw [hnewsons j hj] at hii
      have := hval_int ii hii
      omega
    · have := hinv.sons_int _ _ hold j hj ii hii
      omega
  · intro id2 nd2 h j hj
    rcases hcase id2 nd2 h with ⟨heid, he⟩ | ⟨hlt, hold⟩
    · subst he; subst heid
      rw [hnewsons j hj, setIdx_eq _ _ _]
      rw [hRank_setIdx_ne _ _ _ _ (fun ii hii hc => by
        have := hval_int ii hii
        omega)]
      omega
    · rw [setIdx_ne _ _ _ _ (by omega)]
      have hr := hinv.sons_rank _ _ hold j hj
      rw [hRank_setIdx_ne _ _ _ _ (fun ii hii hc => by
        have := hinv.sons_int _ _ hold j hj ii hii
        omega)]
      exact hr
  · intro id2 hid2
    simp only [List.length_append, List.length_cons, List.length_nil] at hid2 ⊢
    by_cases he : id2 = iA.length
    · subst he
      rw [setIdx_eq _ _ _]
      cases first with
      | leaf li => simp [hRank]
      | internal ii =>
        have := hinv.hi_bound ii (hval_int ii rfl)
        simp only [hRank]
        omega
    · rw [setIdx_ne _ _ _ _ he]
      have := hinv.hi_bound id2 (by omega)
      omega

/-- Updating a leaf slot (with a sane count) preserves the arena invariant. -/
theorem ArenaInv.leaf_update {K V : Type}
    {iA : List (InternalNode K)} {lA : List (LeafNode K V)} {HI : Nat → Nat}
    {id : Nat} {nd2 : LeafNode K V}
    (hinv : ArenaInv iA lA HI) (hcnt2 : nd2.cnt ≤ NODE_DEG) :
    ArenaInv iA (lA.set id nd2) HI := by
  refine ⟨?_, hinv.int_cnt1, hinv.int_cnt2, ?_, hinv.sons_int, hinv.sons_rank,
    hinv.hi_bound⟩
  · intro id2 nd3 h
    rcases get?_set_cases h with ⟨_, he⟩ | ⟨_, hold⟩
    · subst he; exact hcnt2
    · exact hinv.leaf_cnt _ _ hold
  · intro id2 nd3 h j hj li hli
    rw [List.length_set]
    exact hinv.sons_leaf id2 nd3 h j hj li hli

/-- Handle validity is monotone under arena growth. -/
theorem HandleOK.mono {K V : Type} {t t2 : BTree K V} {x : NodeIndex}
    (h : HandleOK t x) (hi : t.i.length ≤ t2.i.length)
    (hl : t.l.length ≤ t2.l.length) : HandleOK t2 x := by
  cases x with
  | leaf i => exact lt_of_lt_of_le h hl
  | internal i => exact lt_of_lt_of_le h hi

theorem BTree.insertGo_ok {K V : Type} [LinearOrder K] [Inhabited K] [Inhabited V]
    (k : K) (v : V) :
    ∀ (fuel : Nat) (t : BTree K V) (cur : NodeIndex) (father : Option Nat)
      (fsi : Nat) (HI : Nat → Nat),
      ArenaInv t.i t.l HI → HandleOK t t.root → HandleOK t cur →
      hRank HI cur < fuel →
      (∀ f, father = some f → ∃ fa, t.i.get? f = some fa ∧ fa.cnt < NODE_DEG ∧
        fsi < fa.cnt ∧ hRank HI cur < HI f + 1) →
      ∃ r t2 HI2, BTree.insertGo k v fuel t cur father fsi = some (r, t2) ∧
        ArenaInv t2.i t2.l HI2 ∧ HandleOK t2 t2.root ∧
        t.i.length ≤ t2.i.length ∧ t.l.length ≤ t2.l.length := by
  intro fuel
  induction fuel with
  | zero =>
    intro t cur father fsi HI _ _ _ hrank _
    omega
  | succ fuel ih =>
    intro t cur father fsi HI hinv hroot hcur hrank hfather
    have hdeg : NODE_DEG = 32 := rfl
    cases cur with
    | internal id =>
      have hid : id < t.i.length := hcur
      obtain ⟨nd, hnd⟩ := exists_get?_of_lt t.i id hid
      have hcnt1 : 1 ≤ nd.cnt := hinv.int_cnt1 _ _ hnd
      have hcnt2 : nd.cnt ≤ NODE_DEG := hinv.int_cnt2 _ _ hnd
      by_cases hfull : nd.full = true
      · -- full internal node: split first
        have hcnt : nd.cnt = NODE_DEG := by
          simpa [InternalNode.full] using hfull
        obtain ⟨lm, left, right, hsplit, hlc, hrc, hlk, hls, hrk, hrs, hsep⟩ :=
          InternalNode.split_consumes_mid nd (by omega) (by omega)
        have hlcnt : left.cnt = 16 := by omega
        have hrcnt : right.cnt = 16 := by omega
        have hinv1 := ArenaInv.internal_split hinv hnd hcnt hsplit
        cases father with
        | some f =>
          obtain ⟨fa, hfa, hfanf, hfsi, hfrank⟩ := hfather f rfl
          have hfid : f < t.i.length := lt_of_get?_some hfa
          have hfr : hRank HI (NodeIndex.internal id) = HI id + 1 := rfl
          have hfne : f ≠ id := by
            intro hc
            rw [hfr, hc] at hfrank
            omega
          have hfa2 : ((t.i.set id left) ++ [right]).get? f = some fa := by
            rw [get?_set_append_old t.i id f left right hfid hfne]
            exact hfa
          obtain ⟨fa2, hins, hfa2cnt, hfa2sons⟩ :=
            InternalNode.insert_child_total fa (fsi + 1) lm
              (NodeIndex.internal t.i.length) hfanf (by omega) (by omega)
          have hinv2 : ArenaInv ((((t.i.set id left) ++ [right]).set f fa2)) t.l
              (setIdx HI t.i.length (HI id)) := by
            refine ArenaInv.father_insert hinv1 hfa2 hfanf (by omega) (by omega)
              hins (fun li h => by exact absurd h (by simp)) ?_ ?_
            · intro ii h
              simp only [NodeIndex.internal.injEq] at h
              subst h
              simp only [List.length_append, List.length_set, List.length_cons,
                List.length_nil]
              omega
            · show hRank (setIdx HI t.i.length (HI id)) (NodeIndex.internal t.i.length) <
                setIdx HI t.i.length (HI id) f + 1
              rw [hfr] at hfrank
              simp only [hRank, setIdx_eq, setIdx_ne _ _ _ _ (by omega : f ≠ t.i.length)]
              omega
          -- the node descended into after the split
          set id2 := if lm < k then t.i.length else id with hid2def
          have hnd2 : ((((t.i.set id left) ++ [right]).set f fa2)).get? id2 =
              some (if lm < k then right else left) := by
            by_cases hc : lm < k
            · simp only [hid2def, if_pos hc]
              rw [List.get?_set_ne _ _ (by omega : f ≠ t.i.length)]
              exact get?_set_append_new t.i id left right
            · simp only [hid2def, if_neg hc]
              rw [List.get?_set_ne _ _ hfne]
              exact get?_set_append_at t.i id left right hid
          set nd2 := if lm < k then right else left with hnd2def
          have hnd2cnt : nd2.cnt = 16 := by
            by_cases hc : lm < k <;> simp [hnd2def, hc, hlcnt, hrcnt]
          have hlkup : nd2.lookup k = some
              (lower_bound nd2.keys (nd2.cnt - 1) k,
               nd2.sons (lower_bound nd2.keys (nd2.cnt - 1) k)) := by
            simp only [InternalNode.lookup, if_pos (by omega : 1 ≤ nd2.cnt ∧
              nd2.cnt - 1 ≤ NODE_DEG - 1)]
          set i2 := lower_bound nd2.keys (nd2.cnt - 1) k with hi2def
          have hi2 : i2 < nd2.cnt := by
            have := lower_bound_le nd2.keys (nd2.cnt - 1) k
            omega
          set t4 : BTree K V :=
            { t with i := ((t.i.set id left) ++ [right]).set f fa2 } with ht4def
          have hstep : BTree.insertGo k v (fuel + 1) t (NodeIndex.internal id)
              (some f) fsi =
              BTree.insertGo k v fuel t4 (nd2.sons i2) (some id2) i2 := by
            rw [BTree.insertGo_internal_full_father k v fuel t id f fsi nd left right
              lm fa fa2 hnd hfull hsplit hfa2 hins]
            rw [hnd2]
            simp only [Option.pure_def, Option.bind_eq_bind, Option.some_bind, hlkup]
          have hlen4i : t4.i.length = t.i.length + 1 := by
            simp [ht4def, List.length_set]
          have hlen4l : t4.l.length = t.l.length := rfl
          have hHIid2 : setIdx HI t.i.length (HI id) id2 = HI id := by
            by_cases hc : lm < k
            · simp only [hid2def, if_pos hc, setIdx_eq]
            · simp only [hid2def, if_neg hc]
              exact setIdx_ne _ _ _ _ (by omega)
          have hrank2 := hinv2.sons_rank id2 nd2 hnd2 i2 hi2
          rw [hHIid2] at hrank2
          obtain ⟨r, t2, HI2, heqrec, hinv2r, hroot2, hli2, hll2⟩ :=
            ih t4 (nd2.sons i2) (some id2) i2 (setIdx HI t.i.length (HI id))
              hinv2
              (HandleOK.mono hroot (by omega) (by omega))
              (by
                cases hx : nd2.sons i2 with
                | leaf li =>
                  exact hinv2.sons_leaf id2 nd2 hnd2 i2 hi2 li hx
                | internal ii =>
                  exact hinv2.sons_int id2 nd2 hnd2 i2 hi2 ii hx)
              (by
                rw [hfr] at hrank
                omega)
              (by
                intro f2 hf2
                obtain rfl : f2 = id2 := by
                  exact (Option.some_inj.mp hf2).symm
                exact ⟨nd2, hnd2, by omega, hi2,
                  hinv2.sons_rank id2 nd2 hnd2 i2 hi2⟩)
          exact ⟨r, t2, HI2, hstep.trans heqrec, hinv2r, hroot2,
            by omega, by omega⟩
        | none =>
          have hlenA : ((t.i.set id left) ++ [right]).length = t.i.length + 1 := by
            simp [List.length_set]
          have hrootget : ((t.i.set id left ++ [right]) ++
              [InternalNode.new (NodeIndex.internal id)]).get? (t.i.length + 1) =
              some (InternalNode.new (NodeIndex.internal id)) := by
            have h := List.get?_concat_length ((t.i.set id left) ++ [right])
              (InternalNode.new (NodeIndex.internal id) : InternalNode K)
            rwa [hlenA] at h
          have hrk1 : hRank (setIdx HI t.i.length (HI id)) (NodeIndex.internal id) =
              HI id + 1 := by
            simp only [hRank, setIdx_ne _ _ _ _ (by omega : id ≠ t.i.length)]
          have hinvR := ArenaInv.new_root (NodeIndex.internal id) hinv1
            (fun li h => absurd h (by simp))
            (fun ii h => by
              simp only [NodeIndex.internal.injEq] at h
              subst h
              rw [hlenA]
              exact Nat.lt_succ_of_lt hid)
          rw [hlenA, hrk1] at hinvR
          have hnewcnt : (InternalNode.new (NodeIndex.internal id) : InternalNode K).cnt
              = 1 := rfl
          obtain ⟨nr2, hins, hnr2cnt, hnr2sons⟩ :=
            InternalNode.insert_child_total (InternalNode.new (NodeIndex.internal id))
              1 lm (NodeIndex.internal t.i.length) (by rw [hnewcnt, hdeg]; omega)
              (le_refl 1) (by rw [hnewcnt])
          have hnr2cnt2 : nr2.cnt = 2 := hnr2cnt
          have hinv2 : ArenaInv (((t.i.set id left ++ [right]) ++
              [InternalNode.new (NodeIndex.internal id)]).set (t.i.length + 1) nr2)
              t.l (setIdx (setIdx HI t.i.length (HI id)) (t.i.length + 1) (HI id + 1)) := by
            refine ArenaInv.father_insert hinvR hrootget (by rw [hnewcnt, hdeg]; omega)
              (le_refl 1) (by rw [hnewcnt]) hins (fun li h => absurd h (by simp)) ?_ ?_
            · intro ii h
              simp only [NodeIndex.internal.injEq] at h
              subst h
              simp only [List.length_append, List.length_set, List.length_cons,
                List.length_nil]
              omega
            · show hRank _ (NodeIndex.internal t.i.length) < _
              simp only [hRank, setIdx_ne _ _ _ _ (by omega : t.i.length ≠ t.i.length + 1),
                setIdx_eq]
              omega
          set id2 := if lm < k then t.i.length else id with hid2def
          have hnd2 : (((t.i.set id left ++ [right]) ++
              [InternalNode.new (NodeIndex.internal id)]).set (t.i.length + 1) nr2).get?
              id2 = some (if lm < k then right else left) := by
            by_cases hc : lm < k
            · simp only [hid2def, if_pos hc]
              rw [List.get?_set_ne _ _ (by omega : t.i.length + 1 ≠ t.i.length),
                List.get?_append (by omega)]
              exact get?_set_append_new t.i id left right
            · simp only [hid2def, if_neg hc]
              rw [List.get?_set_ne _ _ (by omega : t.i.length + 1 ≠ id),
                List.get?_append (by omega)]
              exact get?_set_append_at t.i id left right hid
          set nd2 := if lm < k then right else left with hnd2def
          have hnd2cnt : nd2.cnt = 16 := by
            by_cases hc : lm < k <;> simp [hnd2def, hc, hlcnt, hrcnt]
          have hlkup : nd2.lookup k = some
              (lower_bound nd2.keys (nd2.cnt - 1) k,
               nd2.sons (lower_bound nd2.keys (nd2.cnt - 1) k)) := by
            simp only [InternalNode.lookup, if_pos (by omega : 1 ≤ nd2.cnt ∧
              nd2.cnt - 1 ≤ NODE_DEG - 1)]
          set i2 := lower_bound nd2.keys (nd2.cnt - 1) k with hi2def
          have hi2 : i2 < nd2.cnt := by
            have := lower_bound_le nd2.keys (nd2.cnt - 1) k
            omega
          set t4 : BTree K V :=
            { i := ((t.i.set id left ++ [right]) ++
                [InternalNode.new (NodeIndex.internal id)]).set (t.i.length + 1) nr2
              l := t.l
              root := NodeIndex.internal (t.i.length + 1) } with ht4def
          have hstep : BTree.insertGo k v (fuel + 1) t (NodeIndex.internal id)
              none fsi = BTree.insertGo k v fuel t4 (nd2.sons i2) (some id2) i2 := by
            rw [BTree.insertGo_internal_full_root k v fuel t id fsi nd left right
              lm nr2 hnd hfull hsplit hrootget hins]
            rw [hnd2]
            simp only [Option.pure_def, Option.bind_eq_bind, Option.some_bind, hlkup]
          have hlen4i : t4.i.length = t.i.length + 2 := by
            simp [ht4def, List.length_set]
          have hlen4l : t4.l.length = t.l.length := rfl
          have hHIid2 : setIdx (setIdx HI t.i.length (HI id)) (t.i.length + 1)
              (HI id + 1) id2 = HI id := by
            by_cases hc : lm < k
            · simp only [hid2def, if_pos hc,
                setIdx_ne _ _ _ _ (by omega : t.i.length ≠ t.i.length + 1), setIdx_eq]
            · simp only [hid2def, if_neg hc,
                setIdx_ne _ _ _ _ (by omega : id ≠ t.i.length + 1),
                setIdx_ne _ _ _ _ (by omega : id ≠ t.i.length)]
          have hrank2 := hinv2.sons_rank id2 nd2 hnd2 i2 hi2
          rw [hHIid2] at hrank2
          have hfr : hRank HI (NodeIndex.internal id) = HI id + 1 := rfl
          obtain ⟨r, t2, HI2, heqrec, hinv2r, hroot2, hli2, hll2⟩ :=
            ih t4 (nd2.sons i2) (some id2) i2
              (setIdx (setIdx HI t.i.length (HI id)) (t.i.length + 1) (HI id + 1))
              hinv2
              (by
                show HandleOK t4 (NodeIndex.internal (t.i.length + 1))
                show t.i.length + 1 < t4.i.length
                omega)
              (by
                cases hx : nd2.sons i2 with
                | leaf li => exact hinv2.sons_leaf id2 nd2 hnd2 i2 hi2 li hx
                | internal ii => exact hinv2.sons_int id2 nd2 hnd2 i2 hi2 ii hx)
              (by
                rw [hfr] at hrank
                omega)
              (by
                intro f2 hf2
                obtain rfl : f2 = id2 := (Option.some_inj.mp hf2).symm
                exact ⟨nd2, hnd2, by omega, hi2,
                  hinv2.sons_rank id2 nd2 hnd2 i2 hi2⟩)
          exact ⟨r, t2, HI2, hstep.trans heqrec, hinv2r, hroot2,
            by omega, by omega⟩
      · -- internal node not full: plain descent
        have hfullf : nd.full = false := by
          simpa using hfull
        have hnf : nd.cnt < NODE_DEG := by
          have : ¬ (nd.cnt = NODE_DEG) := by
            simpa [InternalNode.full] using hfull
          omega
        have hlkup : nd.lookup k = some
            (lower_bound nd.keys (nd.cnt - 1) k,
             nd.sons (lower_bound nd.keys (nd.cnt - 1) k)) := by
          simp only [InternalNode.lookup, if_pos (by omega : 1 ≤ nd.cnt ∧
            nd.cnt - 1 ≤ NODE_DEG - 1)]
        set i2 := lower_bound nd.keys (nd.cnt - 1) k with hi2def
        have hi2 : i2 < nd.cnt := by
          have := lower_bound_le nd.keys (nd.cnt - 1) k
          omega
        have hstep : BTree.insertGo k v (fuel + 1) t (NodeIndex.internal id)
            father fsi = BTree.insertGo k v fuel t (nd.sons i2) (some id) i2 := by
          rw [BTree.insertGo_internal_notfull k v fuel t id father fsi nd hnd hfullf]
          simp only [hlkup, Option.some_bind]
        have hrankson := hinv.sons_rank id nd hnd i2 hi2
        obtain ⟨r, t2, HI2, heqrec, hinv2r, hroot2, hli2, hll2⟩ :=
          ih t (nd.sons i2) (some id) i2 HI hinv hroot
            (by
              cases hx : nd.sons i2 with
              | leaf li => exact hinv.sons_leaf id nd hnd i2 hi2 li hx
              | internal ii => exact hinv.sons_int id nd hnd i2 hi2 ii hx)
            (by
              have hfr : hRank HI (NodeIndex.internal id) = HI id + 1 := rfl
              rw [hfr] at hrank
              omega)
            (by
              intro f2 hf2
              obtain rfl : f2 = id := (Option.some_inj.mp hf2).symm
              exact ⟨nd, hnd, hnf, hi2, hrankson⟩)
        exact ⟨r, t2, HI2, hstep.trans heqrec, hinv2r, hroot2, hli2, hll2⟩
    | leaf id =>
      have hid : id < t.l.length := hcur
      obtain ⟨nd, hnd⟩ := exists_get?_of_lt t.l id hid
      have hcnt2 : nd.cnt ≤ NODE_DEG := hinv.leaf_cnt _ _ hnd
      by_cases hfull : nd.full = true
      · -- full leaf: split first, then insert into the proper half
        have hcnt : nd.cnt = NODE_DEG := by
          simpa [LeafNode.full] using hfull
        obtain ⟨lm, left, right, hsplit, hlc, hrc, hlk, hlv, hrkv, hsep⟩ :=
          LeafNode.split_halves nd (by omega) (by omega)
        have hlcnt : left.cnt = 16 := by omega
        have hrcnt : right.cnt = 16 := by omega
        have hinv1 := ArenaInv.leaf_split hinv hnd hcnt hsplit
        have hlenL : ((t.l.set id left) ++ [right]).length = t.l.length + 1 := by
          simp [List.length_set]
        set id2 := if lm < k then t.l.length else id with hid2def
        have hnd2 : ((t.l.set id left) ++ [right]).get? id2 =
            some (if lm < k then right else left) := by
          by_cases hc : lm < k
          · simp only [hid2def, if_pos hc]
            exact get?_set_append_new t.l id left right
          · simp only [hid2def, if_neg hc]
            exact get?_set_append_at t.l id left right hid
        set nd2 := if lm < k then right else left with hnd2def
        have hnd2cnt : nd2.cnt = 16 := by
          by_cases hc : lm < k <;> simp [hnd2def, hc, hlcnt, hrcnt]
        obtain ⟨r2, nd3, hins2, hcnt3⟩ :=
          LeafNode.insert_nofault nd2 k v (by rw [hdeg]; omega)
        have hnd3cnt : nd3.cnt ≤ NODE_DEG := by rw [hdeg]; omega
        cases father with
        | some f =>
          obtain ⟨fa, hfa, hfanf, hfsi, _⟩ := hfather f rfl
          obtain ⟨fa2, hins, hfa2cnt, hfa2sons⟩ :=
            InternalNode.insert_child_total fa (fsi + 1) lm
              (NodeIndex.leaf t.l.length) hfanf (by omega) (by omega)
          have hinv2 : ArenaInv (t.i.set f fa2) ((t.l.set id left) ++ [right]) HI := by
            refine ArenaInv.father_insert hinv1 hfa hfanf (by omega) (by omega)
              hins ?_ (fun ii h => absurd h (by simp)) ?_
            · intro li h
              simp only [NodeIndex.leaf.injEq] at h
              subst h
              rw [hlenL]
              omega
            · show hRank HI (NodeIndex.leaf t.l.length) < HI f + 1
              simp [hRank]
          set t5 : BTree K V := { t with
            i := t.i.set f fa2
            l := ((t.l.set id left) ++ [right]).set id2 nd3 } with ht5def
          have hstep : BTree.insertGo k v (fuel + 1) t (NodeIndex.leaf id)
              (some f) fsi = some (r2, t5) := by
            rw [BTree.insertGo_leaf_full_father k v fuel t id f fsi nd left right
              lm fa fa2 hnd hfull hsplit hfa hins]
            rw [hnd2]
            simp only [Option.pure_def, Option.bind_eq_bind, Option.some_bind, hins2]
          have hinv3 : ArenaInv t5.i t5.l HI :=
            ArenaInv.leaf_update hinv2 hnd3cnt
          have hlen5i : t5.i.length = t.i.length := by
            simp [ht5def, List.length_set]
          have hlen5l : t5.l.length = t.l.length + 1 := by
            simp [ht5def, List.length_set]
          refine ⟨r2, t5, HI, hstep, hinv3, ?_, by omega, by omega⟩
          have hroot5 : t5.root = t.root := rfl
          rw [hroot5]
          exact HandleOK.mono hroot (by omega) (by omega)
        | none =>
          have hrootget : (t.i ++ [InternalNode.new (NodeIndex.leaf id)]).get?
              t.i.length = some (InternalNode.new (NodeIndex.leaf id)) :=
            List.get?_concat_length t.i _
          have hinvR := ArenaInv.new_root (NodeIndex.leaf id) hinv1
            (fun li h => by
              simp only [NodeIndex.leaf.injEq] at h
              subst h
              rw [hlenL]
              omega)
            (fun ii h => absurd h (by simp))
          have hrk0 : hRank HI (NodeIndex.leaf id) = 0 := rfl
          rw [hrk0] at hinvR
          have hnewcnt : (InternalNode.new (NodeIndex.leaf id) : InternalNode K).cnt
              = 1 := rfl
          obtain ⟨nr2, hins, hnr2cnt, hnr2sons⟩ :=
            InternalNode.insert_child_total (InternalNode.new (NodeIndex.leaf id))
              1 lm (NodeIndex.leaf t.l.length) (by rw [hnewcnt, hdeg]; omega)
              (le_refl 1) (by rw [hnewcnt])
          have hinv2 : ArenaInv ((t.i ++ [InternalNode.new (NodeIndex.leaf id)]).set
              t.i.length nr2) ((t.l.set id left) ++ [right])
              (setIdx HI t.i.length 0) := by
            refine ArenaInv.father_insert hinvR hrootget (by rw [hnewcnt, hdeg]; omega)
              (le_refl 1) (by rw [hnewcnt]) hins ?_ (fun ii h => absurd h (by simp)) ?_
            · intro li h
              simp only [NodeIndex.leaf.injEq] at h
              subst h
              rw [hlenL]
              omega
            · show hRank _ (NodeIndex.leaf t.l.length) < _
              simp [hRank]
          set t5 : BTree K V :=
            { i := (t.i ++ [InternalNode.new (NodeIndex.leaf id)]).set t.i.length nr2
              l := ((t.l.set id left) ++ [right]).set id2 nd3
              root := NodeIndex.internal t.i.length } with ht5def
          have hstep : BTree.insertGo k v (fuel + 1) t (NodeIndex.leaf id)
              none fsi = some (r2, t5) := by
            rw [BTree.insertGo_leaf_full_root k v fuel t id fsi nd left right
              lm nr2 hnd hfull hsplit hrootget hins]
            rw [hnd2]
            simp only [Option.pure_def, Option.bind_eq_bind, Option.some_bind, hins2]
          have hinv3 : ArenaInv t5.i t5.l (setIdx HI t.i.length 0) :=
            ArenaInv.leaf_update hinv2 hnd3cnt
          have hlen5i : t5.i.length = t.i.length + 1 := by
            simp [ht5def, List.length_set]
          have hlen5l : t5.l.length = t.l.length + 1 := by
            simp [ht5def, List.length_set]
          refine ⟨r2, t5, setIdx HI t.i.length 0, hstep, hinv3, ?_, by omega, by omega⟩
          show t.i.length < t5.i.length
          omega
      · -- non-full leaf: terminal insert
        have hnf : nd.cnt < NODE_DEG := by
          have : ¬ (nd.cnt = NODE_DEG) := by
            simpa [LeafNode.full] using hfull
          omega
        have hfullf : nd.full = false := by simpa using hfull
        obtain ⟨r2, nd3, hins2, hcnt3⟩ := LeafNode.insert_nofault nd k v hnf
        have hstep : BTree.insertGo k v (fuel + 1) t (NodeIndex.leaf id)
            father fsi = some (r2, { t with l := t.l.set id nd3 }) := by
          rw [BTree.insertGo_leaf_notfull k v fuel t id father fsi nd hnd hfullf]
          simp only [hins2, Option.pure_def, Option.bind_eq_bind, Option.some_bind]
        refine ⟨r2, { t with l := t.l.set id nd3 }, HI, hstep,
          ArenaInv.leaf_update hinv (by omega), ?_, le_refl _, ?_⟩
        · exact HandleOK.mono hroot (le_refl _) (by rw [List.length_set])
        · rw [List.length_set]

theorem BTree.lookupGo_ok {K V : Type} [LinearOrder K] (k : K) :
    ∀ (fuel : Nat) (t : BTree K V) (cur : NodeIndex) (HI : Nat → Nat),
      ArenaInv t.i t.l HI → HandleOK t cur → hRank HI cur < fuel →
      ∃ r, BTree.lookupGo k fuel t cur = some r := by
  intro fuel
  induction fuel with
  | zero =>
    intro t cur HI _ _ hrank
    omega
  | succ fuel ih =>
    intro t cur HI hinv hcur hrank
    cases cur with
    | leaf id =>
      obtain ⟨nd, hnd⟩ := exists_get?_of_lt t.l id hcur
      exact ⟨nd.lookup k, BTree.lookupGo_leaf k fuel t id nd hnd⟩
    | internal id =>
      obtain ⟨nd, hnd⟩ := exists_get?_of_lt t.i id hcur
      have hcnt1 : 1 ≤ nd.cnt := hinv.int_cnt1 _ _ hnd
      have hcnt2 : nd.cnt ≤ NODE_DEG := hinv.int_cnt2 _ _ hnd
      have hlkup : nd.lookup k = some
          (lower_bound nd.keys (nd.cnt - 1) k,
           nd.sons (lower_bound nd.keys (nd.cnt - 1) k)) := by
        simp only [InternalNode.lookup, if_pos (by omega : 1 ≤ nd.cnt ∧
          nd.cnt - 1 ≤ NODE_DEG - 1)]
      have hi2 : lower_bound nd.keys (nd.cnt - 1) k < nd.cnt := by
        have := lower_bound_le nd.keys (nd.cnt - 1) k
        omega
      have hrankson := hinv.sons_rank id nd hnd _ hi2
      have hfr : hRank HI (NodeIndex.internal id) = HI id + 1 := rfl
      obtain ⟨r, hr⟩ := ih t (nd.sons (lower_bound nd.keys (nd.cnt - 1) k)) HI hinv
        (by
          cases hx : nd.sons (lower_bound nd.keys (nd.cnt - 1) k) with
          | leaf li => exact hinv.sons_leaf id nd hnd _ hi2 li hx
          | internal ii => exact hinv.sons_int id nd hnd _ hi2 ii hx)
        (by rw [hfr] at hrank; omega)
      refine ⟨r, ?_⟩
      rw [BTree.lookupGo_internal k fuel t id nd hnd]
      simp only [hlkup, Option.some_bind]
      exact hr

/-- The whole-tree structural invariant: some rank assignment makes the
arena invariant hold, and the root handle is valid. -/
def TreeInv {K V : Type} (t : BTree K V) : Prop :=
  ∃ HI, ArenaInv t.i t.l HI ∧ HandleOK t t.root

theorem TreeInv.of_new {K V : Type} [Inhabited K] [Inhabited V] :
    TreeInv (BTree.new : BTree K V) := by
  refine ⟨fun _ => 0, ⟨?_, ?_, ?_, ?_, ?_, ?_, ?_⟩, ?_⟩
  · intro id nd h
    cases id with
    | zero =>
      have : nd = LeafNode.new := by
        simpa [BTree.new] using h.symm
      subst this
      show (0 : Nat) ≤ NODE_DEG
      omega
    | succ n => simp [BTree.new, List.get?] at h
  · intro id nd h; simp [BTree.new] at h
  · intro id nd h; simp [BTree.new] at h
  · intro id nd h; simp [BTree.new] at h
  · intro id nd h; simp [BTree.new] at h
  · intro id nd h; simp [BTree.new] at h
  · intro id h; simp [BTree.new] at h
  · show (0 : Nat) < 1
    omega

/-- On any tree satisfying the invariant, the public `BTree::insert` (with
its canonical fuel) succeeds and preserves the invariant. -/
theorem BTree.insert_ok {K V : Type} [LinearOrder K] [Inhabited K] [Inhabited V]
    (t : BTree K V) (hinv : TreeInv t) (k : K) (v : V) :
    ∃ r t2, t.insert k v = some (r, t2) ∧ TreeInv t2 ∧
      t.i.length ≤ t2.i.length ∧ t.l.length ≤ t2.l.length := by
  obtain ⟨HI, hA, hroot⟩ := hinv
  have hrank : hRank HI t.root < t.i.length + t.l.length + 2 := by
    cases hx : t.root with
    | leaf li =>
      show 0 < t.i.length + t.l.length + 2
      omega
    | internal ii =>
      show HI ii + 1 < t.i.length + t.l.length + 2
      have hii : ii < t.i.length := by
        have := hroot
        rwa [hx] at this
      have := hA.hi_bound ii hii
      omega
  obtain ⟨r, t2, HI2, heq, hA2, hroot2, hli, hll⟩ :=
    BTree.insertGo_ok k v (t.i.length + t.l.length + 2) t t.root none 0 HI hA
      hroot hroot hrank (fun f h => absurd h (by simp))
  exact ⟨r, t2, heq, ⟨HI2, hA2, hroot2⟩, hli, hll⟩

/-- On any tree satisfying the invariant, the public `BTree::lookup` (with
its canonical fuel) returns a result. -/
theorem BTree.lookup_ok {K V : Type} [LinearOrder K]
    (t : BTree K V) (hinv : TreeInv t) (k : K) :
    ∃ r, t.lookup k = some r := by
  obtain ⟨HI, hA, hroot⟩ := hinv
  have hrank : hRank HI t.root < t.i.length + t.l.length + 2 := by
    cases hx : t.root with
    | leaf li =>
      show 0 < t.i.length + t.l.length + 2
      omega
    | internal ii =>
      show HI ii + 1 < t.i.length + t.l.length + 2
      have hii : ii < t.i.length := by
        have := hroot
        rwa [hx] at this
      have := hA.hi_bound ii hii
      omega
  exact BTree.lookupGo_ok k (t.i.length + t.l.length + 2) t t.root HI hA hroot hrank

/-- Every reachable tree satisfies the structural invariant. -/
theorem BTree.Reachable.inv {K V : Type} [LinearOrder K] [Inhabited K] [Inhabited V]
    {t : BTree K V} (h : BTree.Reachable t) : TreeInv t := by
  induction h with
  | new => exact TreeInv.of_new
  | step hr heq ih =>
    rename_i t0 k v r t2
    obtain ⟨r2, t3, heq2, hinv2, _, _⟩ := BTree.insert_ok t0 ih k v
    rw [heq] at heq2
    have h3 : t3 = t2 := congrArg Prod.snd (Option.some_inj.mp heq2.symm)
    rw [← h3]
    exact hinv2

/-! ## Claim C9: handle validity on reachable trees -/

/-- C9: in every BTree state reachable from `new()` by insert/lookup
sequences, the root handle and every handle stored in `sons[0..cnt)` of
every allocated internal node refer to an already-allocated slot of the
corresponding arena, so every arena indexing performed by `lookup` and
`insert` is in bounds (in the model: the public operations never return the
out-of-bounds `none`). -/
theorem reachable_handles_valid {K V : Type} [LinearOrder K] [Inhabited K]
    [Inhabited V] (t : BTree K V) (h : BTree.Reachable t) :
    HandleOK t t.root ∧
    (∀ id nd, t.i.get? id = some nd → ∀ j, j < nd.cnt → HandleOK t (nd.sons j)) ∧
    (∀ k, ∃ r, t.lookup k = some r) ∧
    (∀ k v, ∃ r t2, t.insert k v = some (r, t2)) := by
  obtain ⟨HI, hA, hroot⟩ := h.inv
  refine ⟨hroot, ?_, BTree.lookup_ok t ⟨HI, hA, hroot⟩, fun k v => ?_⟩
  · intro id nd hnd j hj
    cases hx : nd.sons j with
    | leaf li => exact hA.sons_leaf id nd hnd j hj li hx
    | internal ii => exact hA.sons_int id nd hnd j hj ii hx
  · obtain ⟨r, t2, heq, _, _, _⟩ := BTree.insert_ok t ⟨HI, hA, hroot⟩ k v
    exact ⟨r, t2, heq⟩

/-- Witness for C9 at the freshly constructed tree. -/
theorem reachable_handles_valid_witness :
    BTree.Reachable (BTree.new : BTree Nat Nat) ∧
    (HandleOK (BTree.new : BTree Nat Nat) (BTree.new : BTree Nat Nat).root ∧
    (∀ id nd, (BTree.new : BTree Nat Nat).i.get? id = some nd →
      ∀ j, j < nd.cnt → HandleOK (BTree.new : BTree Nat Nat) (nd.sons j)) ∧
    (∀ k, ∃ r, (BTree.new : BTree Nat Nat).lookup k = some r) ∧
    (∀ k v, ∃ r t2, (BTree.new : BTree Nat Nat).insert k v = some (r, t2))) :=
  ⟨BTree.Reachable.new, reachable_handles_valid BTree.new BTree.Reachable.new⟩

/-! ## Claim C10: termination of the descent loops -/

/-- C10: on every reachable tree the descent loops of `BTree::lookup` and
`BTree::insert` reach a leaf and return after finitely many iterations: some
finite fuel (and any larger fuel) makes the fuelled loops return. -/
theorem reachable_descent_terminates {K V : Type} [LinearOrder K] [Inhabited K]
    [Inhabited V] (t : BTree K V) (h : BTree.Reachable t) :
    ∃ fuel, ∀ fuel2, fuel ≤ fuel2 →
      (∀ k, ∃ r, BTree.lookupGo k fuel2 t t.root = some r) ∧
      (∀ k v, ∃ r t2, BTree.insertGo k v fuel2 t t.root none 0 = some (r, t2)) := by
  obtain ⟨HI, hA, hroot⟩ := h.inv
  have hrank : hRank HI t.root < t.i.length + t.l.length + 2 := by
    cases hx : t.root with
    | leaf li =>
      show 0 < t.i.length + t.l.length + 2
      omega
    | internal ii =>
      show HI ii + 1 < t.i.length + t.l.length + 2
      have hii : ii < t.i.length := by
        have := hroot
        rwa [hx] at this
      have := hA.hi_bound ii hii
      omega
  refine ⟨t.i.length + t.l.length + 2, fun fuel2 hf2 => ⟨fun k => ?_, fun k v => ?_⟩⟩
  · exact BTree.lookupGo_ok k fuel2 t t.root HI hA hroot (by omega)
  · obtain ⟨r, t2, HI2, heq, _, _, _, _⟩ :=
      BTree.insertGo_ok k v fuel2 t t.root none 0 HI hA hroot hroot (by omega)
        (fun f hf => absurd hf (by simp))
    exact ⟨r, t2, heq⟩

/-- Witness for C10 at the freshly constructed tree. -/
theorem reachable_descent_terminates_witness :
    BTree.Reachable (BTree.new : BTree Nat Nat) ∧
    (∃ fuel, ∀ fuel2, fuel ≤ fuel2 →
      (∀ k, ∃ r, BTree.lookupGo k fuel2 (BTree.new : BTree Nat Nat)
        (BTree.new : BTree Nat Nat).root = some r) ∧
      (∀ k v, ∃ r t2, BTree.insertGo k v fuel2 (BTree.new : BTree Nat Nat)
        (BTree.new : BTree Nat Nat).root none 0 = some (r, t2))) :=
  ⟨BTree.Reachable.new, reachable_descent_terminates BTree.new BTree.Reachable.new⟩

/-! ## Claim C3: behaviour of node-level insert on full nodes -/

/-- C3 counterexample: invoking `InternalNode::insert` on an already-full
node is NOT signaled as a fault — at position 5 every checked index
operation passes and the function proceeds (in the source the unchecked
`ptr::copy` then writes out of the arrays' bounds: undefined behaviour, not
a signaled assertion).  Only `LeafNode::insert` has the `assert!`. -/
theorem internal_insert_on_full_proceeds :
    (cexFullInternal.insert 5 99 (NodeIndex.leaf 40)).isSome = true := by decide

/-- C3 amended: `LeafNode::insert` on a full node faults via its
`assert!(!self.full())`; `InternalNode::insert` performs no fullness check
and proceeds without any signaled fault on a full node for every position
`1 ≤ pos ≤ NODE_DEG - 2` (its unchecked copies then write out of bounds in
the source); and under the driver's pre-emptive-split protocol no
node-level fault is ever reached: a driver-level insert on any reachable
tree completes without a fault. -/
theorem node_insert_full_fault {K V : Type} [LinearOrder K] [Inhabited K]
    [Inhabited V] :
    (∀ (nd : LeafNode K V) (k : K) (v : V), nd.full = true → nd.insert k v = none) ∧
    (∀ (nd : InternalNode K) (pos : Nat) (lm : K) (r : NodeIndex),
      nd.cnt = NODE_DEG → 1 ≤ pos → pos ≤ NODE_DEG - 2 →
      (nd.insert pos lm r).isSome = true) ∧
    (∀ (t : BTree K V), BTree.Reachable t → ∀ (k : K) (v : V),
      ∃ r t2, t.insert k v = some (r, t2)) := by
  refine ⟨?_, ?_, ?_⟩
  · intro nd k v h
    simp [LeafNode.insert, h]
  · intro nd pos lm r hc h1 h2
    have hdeg : NODE_DEG = 32 := rfl
    simp only [InternalNode.insert, if_pos (by omega : pos < nd.cnt),
      if_pos (by omega : 1 ≤ pos ∧ pos - 1 < NODE_DEG - 1 ∧ pos < NODE_DEG - 1 ∧
        pos < NODE_DEG ∧ pos + 1 < NODE_DEG), Option.isSome_some]
  · intro t h k v
    obtain ⟨r, t2, heq, _, _, _⟩ := BTree.insert_ok t h.inv k v
    exact ⟨r, t2, heq⟩

/-- Witness for C3 (amended) at a concrete full leaf, a concrete full
internal node and the freshly constructed tree. -/
theorem node_insert_full_fault_witness :
    ((cexFullLeaf.full = true ∧ cexFullLeaf.insert 7 7 = none) ∧
     (cexFullInternal.cnt = NODE_DEG ∧
       (cexFullInternal.insert 5 99 (NodeIndex.leaf 40)).isSome = true) ∧
     BTree.Reachable (BTree.new : BTree Nat Nat) ∧
     (∃ r t2, (BTree.new : BTree Nat Nat).insert 7 7 = some (r, t2))) := by
  obtain ⟨h1, h2, h3⟩ := @node_insert_full_fault Nat Nat _ _ _
  refine ⟨⟨by decide, h1 cexFullLeaf 7 7 (by decide)⟩,
    ⟨rfl, h2 cexFullInternal 5 99 (NodeIndex.leaf 40) rfl (by decide) (by decide)⟩,
    BTree.Reachable.new, h3 BTree.new BTree.Reachable.new 7 7⟩

/-- C8: during `BTree::insert`, a full current node is split before the key
is consulted; the new right sibling is inserted into the parent at
parent-child-index + 1 (after allocating a new internal root first when the
split node had no parent); and descent is redirected to the newly created
right node exactly when the query key is strictly greater than the returned
separator (`left_max < k`), else it continues in the original left node.
Each conjunct equates the loop on the full node with the loop re-entered,
after the split and parent fix-up, at the redirected node. -/
theorem insert_preemptive_split_behaviour {K V : Type} [LinearOrder K] [Inhabited K]
    [Inhabited V] (k : K) (v : V) (fuel : Nat) (t : BTree K V) :
    (∀ id f fsi nd fa, t.i.get? id = some nd → nd.full = true →
      t.i.get? f = some fa → f ≠ id → fa.cnt < NODE_DEG → fsi < fa.cnt →
      ∃ lm left right fa2, nd.split = some (lm, left, right) ∧
        fa.insert (fsi + 1) lm (NodeIndex.internal t.i.length) = some fa2 ∧
        BTree.insertGo k v (fuel + 1) t (NodeIndex.internal id) (some f) fsi =
          BTree.insertGo k v (fuel + 1)
            { t with i := ((t.i.set id left) ++ [right]).set f fa2 }
            (NodeIndex.internal (if lm < k then t.i.length else id)) (some f) fsi) ∧
    (∀ id fsi nd, t.i.get? id = some nd → nd.full = true →
      ∃ lm left right nr2, nd.split = some (lm, left, right) ∧
        (InternalNode.new (NodeIndex.internal id) : InternalNode K).insert 1 lm
          (NodeIndex.internal t.i.length) = some nr2 ∧
        BTree.insertGo k v (fuel + 1) t (NodeIndex.internal id) none fsi =
          BTree.insertGo k v (fuel + 1)
            { i := ((t.i.set id left ++ [right]) ++
                [InternalNode.new (NodeIndex.internal id)]).set (t.i.length + 1) nr2
              l := t.l
              root := NodeIndex.internal (t.i.length + 1) }
            (NodeIndex.internal (if lm < k then t.i.length else id))
            (some (t.i.length + 1)) 0) ∧
    (∀ id f fsi nd fa, t.l.get? id = some nd → nd.full = true →
      t.i.get? f = some fa → fa.cnt < NODE_DEG → fsi < fa.cnt →
      ∃ lm left right fa2, nd.split = some (lm, left, right) ∧
        fa.insert (fsi + 1) lm (NodeIndex.leaf t.l.length) = some fa2 ∧
        BTree.insertGo k v (fuel + 1) t (NodeIndex.leaf id) (some f) fsi =
          BTree.insertGo k v (fuel + 1)
            { t with i := t.i.set f fa2, l := (t.l.set id left) ++ [right] }
            (NodeIndex.leaf (if lm < k then t.l.length else id)) (some f) fsi) ∧
    (∀ id fsi nd, t.l.get? id = some nd → nd.full = true →
      ∃ lm left right nr2, nd.split = some (lm, left, right) ∧
        (InternalNode.new (NodeIndex.leaf id) : InternalNode K).insert 1 lm
          (NodeIndex.leaf t.l.length) = some nr2 ∧
        BTree.insertGo k v (fuel + 1) t (NodeIndex.leaf id) none fsi =
          BTree.insertGo k v (fuel + 1)
            { i := (t.i ++ [InternalNode.new (NodeIndex.leaf id)]).set t.i.length nr2
              l := (t.l.set id left) ++ [right]
              root := NodeIndex.internal t.i.length }
            (NodeIndex.leaf (if lm < k then t.l.length else id))
            (some t.i.length) 0) := by
  have hdeg : NODE_DEG = 32 := rfl
  refine ⟨?_, ?_, ?_, ?_⟩
  · intro id f fsi nd fa hnd hfull hfa hfne hfanf hfsi
    have hcnt : nd.cnt = NODE_DEG := by simpa [InternalNode.full] using hfull
    obtain ⟨lm, left, right, hsplit, hlc, hrc, _, _, _, _, _⟩ :=
      InternalNode.split_consumes_mid nd (by omega) (by omega)
    obtain ⟨fa2, hins, _, _⟩ :=
      InternalNode.insert_child_total fa (fsi + 1) lm
        (NodeIndex.internal t.i.length) hfanf (by omega) (by omega)
    have hid : id < t.i.length := lt_of_get?_some hnd
    have hfid : f < t.i.length := lt_of_get?_some hfa
    have hfa2 : ((t.i.set id left) ++ [right]).get? f = some fa := by
      rw [get?_set_append_old t.i id f left right hfid hfne]
      exact hfa
    refine ⟨lm, left, right, fa2, hsplit, hins, ?_⟩
    have hnd2 : ((((t.i.set id left) ++ [right]).set f fa2)).get?
        (if lm < k then t.i.length else id) =
        some (if lm < k then right else left) := by
      by_cases hc : lm < k
      · simp only [if_pos hc]
        rw [List.get?_set_ne _ _ (by omega : f ≠ t.i.length)]
        exact get?_set_append_new t.i id left right
      · simp only [if_neg hc]
        rw [List.get?_set_ne _ _ hfne]
        exact get?_set_append_at t.i id left right hid
    have hnd2full : (if lm < k then right else left).full = false := by
      by_cases hc : lm < k <;>
        simp [hc, InternalNode.full, hlc, hrc, hcnt, hdeg]
    have hrhs := BTree.insertGo_internal_notfull k v fuel
      { t with i := ((t.i.set id left) ++ [right]).set f fa2 }
      (if lm < k then t.i.length else id) (some f) fsi
      (if lm < k then right else left) hnd2 hnd2full
    rw [BTree.insertGo_internal_full_father k v fuel t id f fsi nd left right
      lm fa fa2 hnd hfull hsplit hfa2 hins, hnd2]
    simp only [Option.pure_def, Option.bind_eq_bind, Option.some_bind]
    exact hrhs.symm
  · intro id fsi nd hnd hfull
    have hcnt : nd.cnt = NODE_DEG := by simpa [InternalNode.full] using hfull
    obtain ⟨lm, left, right, hsplit, hlc, hrc, _, _, _, _, _⟩ :=
      InternalNode.split_consumes_mid nd (by omega) (by omega)
    have hnewcnt : (InternalNode.new (NodeIndex.internal id) : InternalNode K).cnt
        = 1 := rfl
    obtain ⟨nr2, hins, _, _⟩ :=
      InternalNode.insert_child_total (InternalNode.new (NodeIndex.internal id))
        1 lm (NodeIndex.internal t.i.length) (by rw [hnewcnt, hdeg]; omega)
        (le_refl 1) (by rw [hnewcnt])
    have hid : id < t.i.length := lt_of_get?_some hnd
    have hlenA : ((t.i.set id left) ++ [right]).length = t.i.length + 1 := by
      simp [List.length_set]
    have hrootget : ((t.i.set id left ++ [right]) ++
        [InternalNode.new (NodeIndex.internal id)]).get? (t.i.length + 1) =
        some (InternalNode.new (NodeIndex.internal id)) := by
      have h := List.get?_concat_length ((t.i.set id left) ++ [right])
        (InternalNode.new (NodeIndex.internal id) : InternalNode K)
      rwa [hlenA] at h
    refine ⟨lm, left, right, nr2, hsplit, hins, ?_⟩
    have hnd2 : (((t.i.set id left ++ [right]) ++
        [InternalNode.new (NodeIndex.internal id)]).set (t.i.length + 1) nr2).get?
        (if lm < k then t.i.length else id) =
        some (if lm < k then right else left) := by
      by_cases hc : lm < k
      · simp only [if_pos hc]
        rw [List.get?_set_ne _ _ (by omega : t.i.length + 1 ≠ t.i.length),
          List.get?_append (by omega)]
        exact get?_set_append_new t.i id left right
      · simp only [if_neg hc]
        rw [List.get?_set_ne _ _ (by omega : t.i.length + 1 ≠ id),
          List.get?_append (by omega)]
        exact get?_set_append_at t.i id left right hid
    have hnd2full : (if lm < k then right else left).full = false := by
      by_cases hc : lm < k <;>
        simp [hc, InternalNode.full, hlc, hrc, hcnt, hdeg]
    have hrhs := BTree.insertGo_internal_notfull k v fuel
      { i := ((t.i.set id left ++ [right]) ++
          [InternalNode.new (NodeIndex.internal id)]).set (t.i.length + 1) nr2
        l := t.l
        root := NodeIndex.internal (t.i.length + 1) }
      (if lm < k then t.i.length else id) (some (t.i.length + 1)) 0
      (if lm < k then right else left) hnd2 hnd2full
    rw [BTree.insertGo_internal_full_root k v fuel t id fsi nd left right
      lm nr2 hnd hfull hsplit hrootget hins, hnd2]
    simp only [Option.pure_def, Option.bind_eq_bind, Option.some_bind]
    exact hrhs.symm
  · intro id f fsi nd fa hnd hfull hfa hfanf hfsi
    have hcnt : nd.cnt = NODE_DEG := by simpa [LeafNode.full] using hfull
    obtain ⟨lm, left, right, hsplit, hlc, hrc, _, _, _, _⟩ :=
      LeafNode.split_halves nd (by omega) (by omega)
    obtain ⟨fa2, hins, _, _⟩ :=
      InternalNode.insert_child_total fa (fsi + 1) lm
        (NodeIndex.leaf t.l.length) hfanf (by omega) (by omega)
    have hid : id < t.l.length := lt_of_get?_some hnd
    refine ⟨lm, left, right, fa2, hsplit, hins, ?_⟩
    have hnd2 : ((t.l.set id left) ++ [right]).get?
        (if lm < k then t.l.length else id) =
        some (if lm < k then right else left) := by
      by_cases hc : lm < k
      · simp only [if_pos hc]
        exact get?_set_append_new t.l id left right
      · simp only [if_neg hc]
        exact get?_set_append_at t.l id left right hid
    have hnd2full : (if lm < k then right else left).full = false := by
      by_cases hc : lm < k <;>
        simp [hc, LeafNode.full, hlc, hrc, hcnt, hdeg]
    have hrhs := BTree.insertGo_leaf_notfull k v fuel
      { t with i := t.i.set f fa2, l := (t.l.set id left) ++ [right] }
      (if lm < k then t.l.length else id) (some f) fsi
      (if lm < k then right else left) hnd2 hnd2full
    rw [BTree.insertGo_leaf_full_father k v fuel t id f fsi nd left right
      lm fa fa2 hnd hfull hsplit hfa hins, hnd2]
    simp only [Option.pure_def, Option.bind_eq_bind, Option.some_bind]
    exact hrhs.symm
  · intro id fsi nd hnd hfull
    have hcnt : nd.cnt = NODE_DEG := by simpa [LeafNode.full] using hfull
    obtain ⟨lm, left, right, hsplit, hlc, hrc, _, _, _, _⟩ :=
      LeafNode.split_halves nd (by omega) (by omega)
    have hnewcnt : (InternalNode.new (NodeIndex.leaf id) : InternalNode K).cnt
        = 1 := rfl
    obtain ⟨nr2, hins, _, _⟩ :=
      InternalNode.insert_child_total (InternalNode.new (NodeIndex.leaf id))
        1 lm (NodeIndex.leaf t.l.length) (by rw [hnewcnt, hdeg]; omega)
        (le_refl 1) (by rw [hnewcnt])
    have hid : id < t.l.length := lt_of_get?_some hnd
    have hrootget : (t.i ++ [InternalNode.new (NodeIndex.leaf id)]).get?
        t.i.length = some (InternalNode.new (NodeIndex.leaf id)) :=
      List.get?_concat_length t.i _
    refine ⟨lm, left, right, nr2, hsplit, hins, ?_⟩
    have hnd2 : ((t.l.set id left) ++ [right]).get?
        (if lm < k then t.l.length else id) =
        some (if lm < k then right else left) := by
      by_cases hc : lm < k
      · simp only [if_pos hc]
        exact get?_set_append_new t.l id left right
      · simp only [if_neg hc]
        exact get?_set_append_at t.l id left right hid
    have hnd2full : (if lm < k then right else left).full = false := by
      by_cases hc : lm < k <;>
        simp [hc, LeafNode.full, hlc, hrc, hcnt, hdeg]
    have hrhs := BTree.insertGo_leaf_notfull k v fuel
      { i := (t.i ++ [InternalNode.new (NodeIndex.leaf id)]).set t.i.length nr2
        l := (t.l.set id left) ++ [right]
        root := NodeIndex.internal t.i.length }
      (if lm < k then t.l.length else id) (some t.i.length) 0
      (if lm < k then right else left) hnd2 hnd2full
    rw [BTree.insertGo_leaf_full_root k v fuel t id fsi nd left right
      lm nr2 hnd hfull hsplit hrootget hins, hnd2]
    simp only [Option.pure_def, Option.bind_eq_bind, Option.some_bind]
    exact hrhs.symm

/-- Witness for C8: a tree whose root is a single full leaf. -/
def cexFullLeafTree : BTree Nat Nat :=
  { i := [], l := [cexFullLeaf], root := NodeIndex.leaf 0 }

/-- Witness for C8, instantiating the full-leaf-at-root conjunct on
`cexFullLeafTree`. -/
theorem insert_preemptive_split_behaviour_witness :
    (cexFullLeafTree.l.get? 0 = some cexFullLeaf ∧ cexFullLeaf.full = true) ∧
    (∃ lm left right nr2, cexFullLeaf.split = some (lm, left, right) ∧
      (InternalNode.new (NodeIndex.leaf 0) : InternalNode Nat).insert 1 lm
        (NodeIndex.leaf cexFullLeafTree.l.length) = some nr2 ∧
      BTree.insertGo 40 40 (5 + 1) cexFullLeafTree (NodeIndex.leaf 0) none 0 =
        BTree.insertGo 40 40 (5 + 1)
          { i := (cexFullLeafTree.i ++ [InternalNode.new (NodeIndex.leaf 0)]).set
              cexFullLeafTree.i.length nr2
            l := (cexFullLeafTree.l.set 0 left) ++ [right]
            root := NodeIndex.internal cexFullLeafTree.i.length }
          (NodeIndex.leaf (if lm < 40 then cexFullLeafTree.l.length else 0))
          (some cexFullLeafTree.i.length) 0) :=
  ⟨⟨rfl, by decide⟩,
    (insert_preemptive_split_behaviour 40 40 5 cexFullLeafTree).2.2.2 0 0
      cexFullLeaf rfl (by decide)⟩

/-! ## Refinement to a reference ordered map (C1)

`Rep iA lA h cur m lo hi SI SL` states that the subtree rooted at handle
`cur` (of uniform height `h`) over the arenas `iA`/`lA` represents the
partial map `m`, that all its keys lie in the half-open interval
`(lo, hi]` (`none` meaning unbounded), and that it occupies exactly the
internal-arena slots `SI` and leaf-arena slots `SL` (all distinct — the
node graph restricted to the subtree is a tree). -/

/-- `lo < k` with `lo : Option K` (`none` = −∞). -/
def loLt {K : Type} [LinearOrder K] (lo : Option K) (k : K) : Prop :=
  ∀ a, lo = some a → a < k

/-- `k ≤ hi` with `hi : Option K` (`none` = +∞). -/
def leHi {K : Type} [LinearOrder K] (k : K) (hi : Option K) : Prop :=
  ∀ b, hi = some b → k ≤ b

/-- `k < hi` with `hi : Option K` (`none` = +∞). -/
def ltHi {K : Type} [LinearOrder K] (k : K) (hi : Option K) : Prop :=
  ∀ b, hi = some b → k < b

/-- Lower bound of the key range of child `j` of an internal node. -/
def childLo {K : Type} (lo : Option K) (keys : Nat → K) (j : Nat) : Option K :=
  if j = 0 then lo else some (keys (j - 1))

/-- Upper bound of the key range of child `j` of an internal node with
`cnt` children. -/
def childHi {K : Type} (hi : Option K) (keys : Nat → K) (cnt j : Nat) : Option K :=
  if j = cnt - 1 then hi else some (keys j)

/-- Pointwise update of a reference map (the spec-level `insert`). -/
def mUpd {K V : Type} [DecidableEq K] (m : K → Option V) (k : K) (v : V) :
    K → Option V :=
  fun k2 => if k2 = k then some v else m k2

def NodeRep {K V : Type} [LinearOrder K] (iA : List (InternalNode K))
    (lA : List (LeafNode K V)) :
    Nat → NodeIndex → (K → Option V) → Option K → Option K →
    Finset Nat → Finset Nat → Prop
  | 0, NodeIndex.leaf id, m, lo, hi, SI, SL =>
      SI = ∅ ∧ SL = {id} ∧
      ∃ nd, lA.get? id = some nd ∧ nd.cnt ≤ NODE_DEG ∧
        (∀ i j, i < j → j < nd.cnt → nd.keys i < nd.keys j) ∧
        (∀ j, j < nd.cnt → loLt lo (nd.keys j) ∧ leHi (nd.keys j) hi) ∧
        (∀ k, m k = nd.lookup k)
  | h + 1, NodeIndex.internal id, m, lo, hi, SI, SL =>
      ∃ nd, iA.get? id = some nd ∧ 1 ≤ nd.cnt ∧ nd.cnt ≤ NODE_DEG ∧
        (∀ i j, i < j → j < nd.cnt - 1 → nd.keys i < nd.keys j) ∧
        (∀ j, j < nd.cnt - 1 → loLt lo (nd.keys j) ∧ ltHi (nd.keys j) hi) ∧
        ∃ ms : Nat → (K → Option V), ∃ SIs SLs : Nat → Finset Nat,
          (∀ j, j < nd.cnt → NodeRep iA lA h (nd.sons j) (ms j)
            (childLo lo nd.keys j) (childHi hi nd.keys nd.cnt j) (SIs j) (SLs j)) ∧
          (∀ j1 j2, j1 < j2 → j2 < nd.cnt →
            Disjoint (SIs j1) (SIs j2) ∧ Disjoint (SLs j1) (SLs j2)) ∧
          (∀ j, j < nd.cnt → id ∉ SIs j) ∧
          SI = insert id (Finset.biUnion (Finset.range nd.cnt) SIs) ∧
          SL = Finset.biUnion (Finset.range nd.cnt) SLs ∧
          (∀ k, m k = ms (lower_bound nd.keys (nd.cnt - 1) k) k)
  | 0, NodeIndex.internal _, _, _, _, _, _ => False
  | _ + 1, NodeIndex.leaf _, _, _, _, _, _ => False

/-- The whole tree represents the map `m`: its root subtree does, with
unbounded key range, at some uniform height. -/
def TreeRep {K V : Type} [LinearOrder K] (t : BTree K V) (m : K → Option V) : Prop :=
  ∃ h SI SL, NodeRep t.i t.l h t.root m none none SI SL

/-- Unfolding of `NodeRep` at height 0 on a leaf handle. -/
theorem NodeRep_leaf {K V : Type} [LinearOrder K] {iA : List (InternalNode K)}
    {lA : List (LeafNode K V)} {id : Nat} {m : K → Option V} {lo hi : Option K}
    {SI SL : Finset Nat} :
    NodeRep iA lA 0 (NodeIndex.leaf id) m lo hi SI SL ↔
      (SI = ∅ ∧ SL = {id} ∧
      ∃ nd, lA.get? id = some nd ∧ nd.cnt ≤ NODE_DEG ∧
        (∀ i j, i < j → j < nd.cnt → nd.keys i < nd.keys j) ∧
        (∀ j, j < nd.cnt → loLt lo (nd.keys j) ∧ leHi (nd.keys j) hi) ∧
        (∀ k, m k = nd.lookup k)) := Iff.rfl

/-- Unfolding of `NodeRep` at height `h+1` on an internal handle. -/
theorem NodeRep_internal {K V : Type} [LinearOrder K] {iA : List (InternalNode K)}
    {lA : List (LeafNode K V)} {h id : Nat} {m : K → Option V} {lo hi : Option K}
    {SI SL : Finset Nat} :
    NodeRep iA lA (h + 1) (NodeIndex.internal id) m lo hi SI SL ↔
      (∃ nd, iA.get? id = some nd ∧ 1 ≤ nd.cnt ∧ nd.cnt ≤ NODE_DEG ∧
        (∀ i j, i < j → j < nd.cnt - 1 → nd.keys i < nd.keys j) ∧
        (∀ j, j < nd.cnt - 1 → loLt lo (nd.keys j) ∧ ltHi (nd.keys j) hi) ∧
        ∃ ms : Nat → (K → Option V), ∃ SIs SLs : Nat → Finset Nat,
          (∀ j, j < nd.cnt → NodeRep iA lA h (nd.sons j) (ms j)
            (childLo lo nd.keys j) (childHi hi nd.keys nd.cnt j) (SIs j) (SLs j)) ∧
          (∀ j1 j2, j1 < j2 → j2 < nd.cnt →
            Disjoint (SIs j1) (SIs j2) ∧ Disjoint (SLs j1) (SLs j2)) ∧
          (∀ j, j < nd.cnt → id ∉ SIs j) ∧
          SI = insert id (Finset.biUnion (Finset.range nd.cnt) SIs) ∧
          SL = Finset.biUnion (Finset.range nd.cnt) SLs ∧
          (∀ k, m k = ms (lower_bound nd.keys (nd.cnt - 1) k) k)) := Iff.rfl

/-- A successful leaf lookup means the key is stored in the leaf. -/
theorem LeafNode.lookup_ne_none {K V : Type} [LinearOrder K] {nd : LeafNode K V} {k : K}
    (h : nd.lookup k ≠ none) :
    ∃ j, j < nd.cnt ∧ nd.keys j = k := by
  simp only [LeafNode.lookup] at h
  by_cases h1 : lower_bound nd.keys nd.cnt k = nd.cnt
  · simp [h1] at h
  · by_cases h2 : nd.keys (lower_bound nd.keys nd.cnt k) = k
    · exact ⟨_, by have := lower_bound_le nd.keys nd.cnt k; omega, h2⟩
    · simp [h1, h2] at h

/-- `NodeRep` only mentions the arena slots in its footprint: any pair of
arenas agreeing there carries the same representation. -/
theorem NodeRep.frame {K V : Type} [LinearOrder K]
    {iA iA2 : List (InternalNode K)} {lA lA2 : List (LeafNode K V)} (h : Nat) :
    ∀ (cur : NodeIndex) (m : K → Option V) (lo hi : Option K) (SI SL : Finset Nat),
      NodeRep iA lA h cur m lo hi SI SL →
      (∀ j, j ∈ SI → iA2.get? j = iA.get? j) →
      (∀ j, j ∈ SL → lA2.get? j = lA.get? j) →
      NodeRep iA2 lA2 h cur m lo hi SI SL := by
  induction h with
  | zero =>
    intro cur m lo hi SI SL hrep hfi hfl
    cases cur with
    | leaf id =>
      obtain ⟨hSI, hSL, nd, hget, rest⟩ := NodeRep_leaf.mp hrep
      refine NodeRep_leaf.mpr ⟨hSI, hSL, nd, ?_, rest⟩
      rw [hfl id (by rw [hSL]; exact Finset.mem_singleton_self id)]
      exact hget
    | internal id => exact hrep
  | succ h ih =>
    intro cur m lo hi SI SL hrep hfi hfl
    cases cur with
    | leaf id => exact hrep
    | internal id =>
      obtain ⟨nd, hget, h1, h2, hsort, hbnd, ms, SIs, SLs, hch, hdisj, hnid, hSI, hSL, hm⟩ :=
        NodeRep_internal.mp hrep
      refine NodeRep_internal.mpr
        ⟨nd, ?_, h1, h2, hsort, hbnd, ms, SIs, SLs, ?_, hdisj, hnid, hSI, hSL, hm⟩
      · rw [hfi id (by rw [hSI]; exact Finset.mem_insert_self _ _)]
        exact hget
      · intro j hj
        refine ih _ _ _ _ _ _ (hch j hj) ?_ ?_
        · intro x hx
          apply hfi
          rw [hSI]
          exact Finset.mem_insert_of_mem
            (Finset.mem_biUnion.mpr ⟨j, Finset.mem_range.mpr hj, hx⟩)
        · intro x hx
          apply hfl
          rw [hSL]
          exact Finset.mem_biUnion.mpr ⟨j, Finset.mem_range.mpr hj, hx⟩

/-- The footprint of a represented subtree consists of allocated slots. -/
theorem NodeRep.footprint_lt {K V : Type} [LinearOrder K]
    {iA : List (InternalNode K)} {lA : List (LeafNode K V)} (h : Nat) :
    ∀ (cur : NodeIndex) (m : K → Option V) (lo hi : Option K) (SI SL : Finset Nat),
      NodeRep iA lA h cur m lo hi SI SL →
      (∀ x, x ∈ SI → x < iA.length) ∧ (∀ x, x ∈ SL → x < lA.length) := by
  induction h with
  | zero =>
    intro cur m lo hi SI SL hrep
    cases cur with
    | leaf id =>
      obtain ⟨hSI, hSL, nd, hget, _⟩ := NodeRep_leaf.mp hrep
      constructor
      · intro x hx; rw [hSI] at hx; exact absurd hx (Finset.not_mem_empty x)
      · intro x hx
        rw [hSL, Finset.mem_singleton] at hx
        subst hx
        exact lt_of_get?_some hget
    | internal id => exact hrep.elim
  | succ h ih =>
    intro cur m lo hi SI SL hrep
    cases cur with
    | leaf id => exact hrep.elim
    | internal id =>
      obtain ⟨nd, hget, h1, h2, hsort, hbnd, ms, SIs, SLs, hch, hdisj, hnid, hSI, hSL, hm⟩ :=
        NodeRep_internal.mp hrep
      constructor
      · intro x hx
        rw [hSI, Finset.mem_insert] at hx
        rcases hx with hx | hx
        · subst hx; exact lt_of_get?_some hget
        · obtain ⟨j, hj, hx⟩ := Finset.mem_biUnion.mp hx
          exact (ih _ _ _ _ _ _ (hch j (Finset.mem_range.mp hj))).1 x hx
      · intro x hx
        rw [hSL] at hx
        obtain ⟨j, hj, hx⟩ := Finset.mem_biUnion.mp hx
        exact (ih _ _ _ _ _ _ (hch j (Finset.mem_range.mp hj))).2 x hx

/-- Every key present in a represented subtree's map lies in its interval
`(lo, hi]`. -/
theorem NodeRep.mem_bounds {K V : Type} [LinearOrder K]
    {iA : List (InternalNode K)} {lA : List (LeafNode K V)} (h : Nat) :
    ∀ (cur : NodeIndex) (m : K → Option V) (lo hi : Option K) (SI SL : Finset Nat),
      NodeRep iA lA h cur m lo hi SI SL →
      ∀ k, m k ≠ none → loLt lo k ∧ leHi k hi := by
  induction h with
  | zero =>
    intro cur m lo hi SI SL hrep k hk
    cases cur with
    | leaf id =>
      obtain ⟨hSI, hSL, nd, hget, hcnt, hsort, hbnd, hm⟩ := NodeRep_leaf.mp hrep
      rw [hm k] at hk
      obtain ⟨j, hj, hkey⟩ := LeafNode.lookup_ne_none hk
      rw [← hkey]
      exact hbnd j hj
    | internal id => exact hrep.elim
  | succ h ih =>
    intro cur m lo hi SI SL hrep k hk
    cases cur with
    | leaf id => exact hrep.elim
    | internal id =>
      obtain ⟨nd, hget, h1, h2, hsort, hbnd, ms, SIs, SLs, hch, hdisj, hnid, hSI, hSL, hm⟩ :=
        NodeRep_internal.mp hrep
      rw [hm k] at hk
      have hj0 : lower_bound nd.keys (nd.cnt - 1) k < nd.cnt := by
        have := lower_bound_le nd.keys (nd.cnt - 1) k
        omega
      obtain ⟨hlo, hhi⟩ := ih _ _ _ _ _ _ (hch _ hj0) k hk
      constructor
      · intro a ha
        by_cases hz : lower_bound nd.keys (nd.cnt - 1) k = 0
        · apply hlo; rw [childLo, if_pos hz, ha]
        · have hsep : nd.keys (lower_bound nd.keys (nd.cnt - 1) k - 1) < k := by
            apply hlo
            rw [childLo, if_neg hz]
          have hlosep : a < nd.keys (lower_bound nd.keys (nd.cnt - 1) k - 1) := by
            have := (hbnd (lower_bound nd.keys (nd.cnt - 1) k - 1) (by omega)).1
            exact this a ha
          exact lt_trans hlosep hsep
      · intro b hb
        by_cases hz : lower_bound nd.keys (nd.cnt - 1) k = nd.cnt - 1
        · apply hhi; rw [childHi, if_pos hz, hb]
        · have hksep : k ≤ nd.keys (lower_bound nd.keys (nd.cnt - 1) k) := by
            apply hhi
            rw [childHi, if_neg hz]
          have hsephi : nd.keys (lower_bound nd.keys (nd.cnt - 1) k) < b := by
            have := (hbnd (lower_bound nd.keys (nd.cnt - 1) k) (by omega)).2
            exact this b hb
          exact le_of_lt (lt_of_le_of_lt hksep hsephi)

/-- The height of a represented subtree is bounded by the number of internal
slots it occupies. -/
theorem NodeRep.height_le {K V : Type} [LinearOrder K]
    {iA : List (InternalNode K)} {lA : List (LeafNode K V)} (h : Nat) :
    ∀ (cur : NodeIndex) (m : K → Option V) (lo hi : Option K) (SI SL : Finset Nat),
      NodeRep iA lA h cur m lo hi SI SL → h ≤ SI.card := by
  induction h with
  | zero => intro cur m lo hi SI SL _; exact Nat.zero_le _
  | succ h ih =>
    intro cur m lo hi SI SL hrep
    cases cur with
    | leaf id => exact hrep.elim
    | internal id =>
      obtain ⟨nd, hget, h1, h2, hsort, hbnd, ms, SIs, SLs, hch, hdisj, hnid, hSI, hSL, hm⟩ :=
        NodeRep_internal.mp hrep
      have hsub : SIs 0 ⊆ Finset.biUnion (Finset.range nd.cnt) SIs := by
        intro x hx
        exact Finset.mem_biUnion.mpr ⟨0, Finset.mem_range.mpr (by omega), hx⟩
      have hidnot : id ∉ Finset.biUnion (Finset.range nd.cnt) SIs := by
        intro hcon
        obtain ⟨j, hj, hx⟩ := Finset.mem_biUnion.mp hcon
        exact hnid j (Finset.mem_range.mp hj) hx
      have hc1 : h ≤ (SIs 0).card := ih _ _ _ _ _ _ (hch 0 (by omega))
      have hc2 : (SIs 0).card ≤ (Finset.biUnion (Finset.range nd.cnt) SIs).card :=
        Finset.card_le_card hsub
      rw [hSI, Finset.card_insert_of_not_mem hidnot]
      omega

/-- Non-strict sortedness from strict sortedness. -/
theorem sorted_of_strict {K : Type} [LinearOrder K] {a : Nat → K} {len : Nat}
    (h : ∀ i j, i < j → j < len → a i < a j) :
    ∀ i j, i ≤ j → j < len → a i ≤ a j := by
  intro i j hij hj
  rcases Nat.lt_or_ge i j with hlt | hge
  · exact le_of_lt (h i j hlt hj)
  · have hij2 : i = j := by omega
    rw [hij2]

/-- A slice is sorted as soon as adjacent entries are ordered. -/
theorem sorted_of_adjacent {K : Type} [LinearOrder K] {a : Nat → K} {len : Nat}
    (h : ∀ j, j + 1 < len → a j ≤ a (j + 1)) :
    ∀ i j, i ≤ j → j < len → a i ≤ a j := by
  intro i j
  induction j with
  | zero =>
    intro hij _
    have hi0 : i = 0 := by omega
    rw [hi0]
  | succ j ih =>
    intro hij hj
    rcases Nat.lt_or_ge i (j + 1) with hlt | hge
    · exact le_trans (ih (by omega) (by omega)) (h j hj)
    · have hie : i = j + 1 := by omega
      rw [hie]

/-- Two slices agreeing on `[0, len)` have the same lower bound. -/
theorem lower_bound_congr {K : Type} [LinearOrder K] {a b : Nat → K} {len : Nat} (v : K)
    (hsort : ∀ i j, i ≤ j → j < len → a i ≤ a j)
    (hagree : ∀ j, j < len → b j = a j) :
    lower_bound b len v = lower_bound a len v := by
  have hsb : ∀ i j, i ≤ j → j < len → b i ≤ b j := by
    intro i j hij hj
    rw [hagree i (by omega), hagree j hj]
    exact hsort i j hij hj
  obtain ⟨h1, h2, h3⟩ := lower_bound_spec a len v hsort
  refine lower_bound_eq_of b len v hsb _ h1 ?_ ?_
  · intro j hj
    rw [hagree j (by omega)]
    exact h2 j hj
  · intro hlt
    rw [hagree _ hlt]
    exact h3 hlt

/-- The lower bound in a sorted slice is computed by any prefix whose last
entry already bounds the query. -/
theorem lower_bound_prefix {K : Type} [LinearOrder K] {a : Nat → K} {n m : Nat} (v : K)
    (hsort : ∀ i j, i ≤ j → j < n → a i ≤ a j)
    (hm : m < n) (hv : v ≤ a m) :
    lower_bound a n v = lower_bound a m v := by
  obtain ⟨h1, h2, h3⟩ := lower_bound_spec a n v hsort
  have hsm : ∀ i j, i ≤ j → j < m → a i ≤ a j := fun i j hij hj => hsort i j hij (by omega)
  have hle : lower_bound a n v ≤ m := by
    by_contra hc
    exact absurd hv (not_le.mpr (h2 m (by omega)))
  exact (lower_bound_eq_of a m v hsm _ hle (fun j hj => h2 j hj)
    (fun hlt => h3 (by omega))).symm

/-- The lower bound of a query past a prefix is the shifted lower bound of
the suffix. -/
theorem lower_bound_shift {K : Type} [LinearOrder K] {a : Nat → K} {n m : Nat} (v : K)
    (hsort : ∀ i j, i ≤ j → j < n → a i ≤ a j)
    (hm1 : 1 ≤ m) (hmn : m ≤ n) (hv : a (m - 1) < v) :
    lower_bound a n v = m + lower_bound (fun j => a (m + j)) (n - m) v := by
  have hss : ∀ i j, i ≤ j → j < n - m → a (m + i) ≤ a (m + j) := by
    intro i j hij hj
    exact hsort (m + i) (m + j) (by omega) (by omega)
  obtain ⟨g1, g2, g3⟩ := lower_bound_spec (fun j => a (m + j)) (n - m) v hss
  refine lower_bound_eq_of a n v hsort _ (by omega) ?_ ?_
  · intro j hj
    rcases Nat.lt_or_ge j m with hlt | hge
    · exact lt_of_le_of_lt (hsort j (m - 1) (by omega) (by omega)) hv
    · have hg := g2 (j - m) (by omega)
      have hje : m + (j - m) = j := by omega
      rw [hje] at hg
      exact hg
  · intro hlt
    exact g3 (by omega)

/-- Sortedness of a slice obtained by inserting a separator `sep` at key
slot `p` of a sorted slice, when `sep` lies strictly between its
neighbours. -/
theorem sorted_insert_sep {K : Type} [LinearOrder K] {s s2 : Nat → K} {c p : Nat}
    {sep : K}
    (hsort : ∀ i j, i ≤ j → j < c → s i ≤ s j) (hp : p ≤ c)
    (hpre : ∀ j, j < p → s2 j = s j) (hmid : s2 p = sep)
    (hpost : ∀ j, p ≤ j → j < c → s2 (j + 1) = s j)
    (hlo : 1 ≤ p → s (p - 1) < sep) (hhi : p < c → sep < s p) :
    ∀ i j, i ≤ j → j < c + 1 → s2 i ≤ s2 j := by
  apply sorted_of_adjacent
  intro j hj
  rcases Nat.lt_trichotomy (j + 1) p with hc | hc | hc
  · rw [hpre j (by omega), hpre (j + 1) hc]
    exact hsort j (j + 1) (by omega) (by omega)
  · rw [hpre j (by omega), hc, hmid]
    have hj1 : j = p - 1 := by omega
    rw [hj1]
    exact le_of_lt (hlo (by omega))
  · rcases Nat.lt_or_ge p j with hc2 | hc2
    · have h1 : s2 j = s (j - 1) := by
        have := hpost (j - 1) (by omega) (by omega)
        have hje : j - 1 + 1 = j := by omega
        rw [hje] at this
        exact this
      rw [h1, hpost j (by omega) (by omega)]
      exact hsort (j - 1) j (by omega) (by omega)
    · have hjp : j = p := by omega
      rw [hjp, hmid, hpost p (le_refl p) (by omega)]
      exact le_of_lt (hhi (by omega))

/-- Re-routing after a separator is inserted at key slot `p` of a sorted
separator slice: queries bounded by `sep` route as before (capped at the
left half), queries past `sep` shift one slot right. -/
theorem lower_bound_insert_sep {K : Type} [LinearOrder K] {s s2 : Nat → K} {c p : Nat}
    {sep : K} (v : K)
    (hsort : ∀ i j, i ≤ j → j < c → s i ≤ s j) (hp : p ≤ c)
    (hpre : ∀ j, j < p → s2 j = s j) (hmid : s2 p = sep)
    (hpost : ∀ j, p ≤ j → j < c → s2 (j + 1) = s j)
    (hlo : 1 ≤ p → s (p - 1) < sep) (hhi : p < c → sep < s p) :
    (lower_bound s c v < p → lower_bound s2 (c + 1) v = lower_bound s c v) ∧
    (lower_bound s c v = p → v ≤ sep → lower_bound s2 (c + 1) v = p) ∧
    (lower_bound s c v = p → sep < v → lower_bound s2 (c + 1) v = p + 1) ∧
    (p < lower_bound s c v → lower_bound s2 (c + 1) v = lower_bound s c v + 1) := by
  have hs2 := sorted_insert_sep hsort hp hpre hmid hpost hlo hhi
  obtain ⟨h1, h2, h3⟩ := lower_bound_spec s c v hsort
  refine ⟨?_, ?_, ?_, ?_⟩
  · intro hcase
    refine lower_bound_eq_of s2 (c + 1) v hs2 _ (by omega) ?_ ?_
    · intro j hj
      rw [hpre j (by omega)]
      exact h2 j hj
    · intro hlt
      rw [hpre _ hcase]
      exact h3 (by omega)
  · intro hcase hv
    refine lower_bound_eq_of s2 (c + 1) v hs2 _ (by omega) ?_ ?_
    · intro j hj
      rw [hpre j hj]
      exact h2 j (by omega)
    · intro _
      rw [hmid]
      exact hv
  · intro hcase hv
    refine lower_bound_eq_of s2 (c + 1) v hs2 _ (by omega) ?_ ?_
    · intro j hj
      rcases Nat.lt_or_ge j p with hc2 | hc2
      · rw [hpre j hc2]
        exact h2 j (by omega)
      · have hjp : j = p := by omega
        rw [hjp, hmid]
        exact hv
    · intro hlt
      rw [hpost p (le_refl p) (by omega)]
      have hv3 := h3 (by omega)
      rw [hcase] at hv3
      exact hv3
  · intro hcase
    refine lower_bound_eq_of s2 (c + 1) v hs2 _ (by omega) ?_ ?_
    · intro j hj
      rcases Nat.lt_trichotomy j p with hc2 | hc2 | hc2
      · rw [hpre j hc2]
        exact h2 j (by omega)
      · rw [hc2, hmid]
        have hsp : s p < v := h2 p (by omega)
        exact lt_trans (hhi (by omega)) hsp
      · have h4 : s2 j = s (j - 1) := by
          have := hpost (j - 1) (by omega) (by omega)
          have hje : j - 1 + 1 = j := by omega
          rw [hje] at this
          exact this
        rw [h4]
        exact h2 (j - 1) (by omega)
    · intro hlt
      rw [hpost (lower_bound s c v) (by omega) (by omega)]
      exact h3 (by omega)

/-- Strict analogue of `sorted_of_adjacent`. -/
theorem sorted_of_adjacent_strict {K : Type} [LinearOrder K] {a : Nat → K} {len : Nat}
    (h : ∀ j, j + 1 < len → a j < a (j + 1)) :
    ∀ i j, i < j → j < len → a i < a j := by
  intro i j
  induction j with
  | zero =>
    intro hij _
    omega
  | succ j ih =>
    intro hij hj
    rcases Nat.lt_or_ge i j with hlt | hge
    · exact lt_trans (ih hlt (by omega)) (h j hj)
    · have hie : i = j := by omega
      rw [hie]
      exact h j hj

/-- Strict analogue of `sorted_insert_sep`. -/
theorem sorted_insert_sep_strict {K : Type} [LinearOrder K] {s s2 : Nat → K} {c p : Nat}
    {sep : K}
    (hsort : ∀ i j, i < j → j < c → s i < s j) (hp : p ≤ c)
    (hpre : ∀ j, j < p → s2 j = s j) (hmid : s2 p = sep)
    (hpost : ∀ j, p ≤ j → j < c → s2 (j + 1) = s j)
    (hlo : 1 ≤ p → s (p - 1) < sep) (hhi : p < c → sep < s p) :
    ∀ i j, i < j → j < c + 1 → s2 i < s2 j := by
  apply sorted_of_adjacent_strict
  intro j hj
  rcases Nat.lt_trichotomy (j + 1) p with hc | hc | hc
  · rw [hpre j (by omega), hpre (j + 1) hc]
    exact hsort j (j + 1) (by omega) (by omega)
  · rw [hpre j (by omega), hc, hmid]
    have hj1 : j = p - 1 := by omega
    rw [hj1]
    exact hlo (by omega)
  · rcases Nat.lt_or_ge p j with hc2 | hc2
    · have h1 : s2 j = s (j - 1) := by
        have := hpost (j - 1) (by omega) (by omega)
        have hje : j - 1 + 1 = j := by omega
        rw [hje] at this
        exact this
      rw [h1, hpost j (by omega) (by omega)]
      exact hsort (j - 1) j (by omega) (by omega)
    · have hjp : j = p := by omega
      rw [hjp, hmid, hpost p (le_refl p) (by omega)]
      exact hhi (by omega)

/-- On a strictly sorted leaf, looking up a stored key returns its value. -/
theorem LeafNode.lookup_eq_some {K V : Type} [LinearOrder K] (nd : LeafNode K V)
    (hsort : ∀ i j, i < j → j < nd.cnt → nd.keys i < nd.keys j)
    (j : Nat) {k : K} (hj : j < nd.cnt) (hk : nd.keys j = k) :
    nd.lookup k = some (nd.values j) := by
  have hlb : lower_bound nd.keys nd.cnt k = j := by
    refine lower_bound_eq_of nd.keys nd.cnt k (sorted_of_strict hsort) j (by omega) ?_ ?_
    · intro j2 hj2
      rw [← hk]
      exact hsort j2 j hj2 hj
    · intro _
      rw [hk]
  simp only [LeafNode.lookup]
  rw [hlb, if_neg (by omega : ¬ j = nd.cnt), hk, if_pos rfl]

/-- Looking up a key not stored in a leaf returns `none`. -/
theorem LeafNode.lookup_eq_none {K V : Type} [LinearOrder K] (nd : LeafNode K V)
    {k : K} (hk : ∀ j, j < nd.cnt → nd.keys j ≠ k) :
    nd.lookup k = none := by
  simp only [LeafNode.lookup]
  by_cases h1 : lower_bound nd.keys nd.cnt k = nd.cnt
  · rw [if_pos h1]
  · rw [if_neg h1, if_neg (hk _ (by have := lower_bound_le nd.keys nd.cnt k; omega))]

/-- A successful leaf lookup pinpoints the slot holding the key. -/
theorem LeafNode.lookup_some_elim {K V : Type} [LinearOrder K] {nd : LeafNode K V}
    {k : K} {w : V} (h : nd.lookup k = some w) :
    ∃ j, j < nd.cnt ∧ nd.keys j = k ∧ nd.values j = w := by
  simp only [LeafNode.lookup] at h
  by_cases h1 : lower_bound nd.keys nd.cnt k = nd.cnt
  · rw [if_pos h1] at h
    exact absurd h (by simp)
  · rw [if_neg h1] at h
    by_cases h2 : nd.keys (lower_bound nd.keys nd.cnt k) = k
    · rw [if_pos h2] at h
      exact ⟨_, by have := lower_bound_le nd.keys nd.cnt k; omega, h2,
        Option.some_inj.mp h⟩
    · rw [if_neg h2] at h
      exact absurd h (by simp)

/-- `LeafNode::insert` on a sorted non-full leaf implements the reference
map upsert: it returns the previous binding, updates the pointwise lookup
function, preserves strict sortedness, and every key of the result is the
inserted key or an original key. -/
theorem LeafNode.insert_map {K V : Type} [LinearOrder K] (nd : LeafNode K V)
    (k : K) (v : V) (hnf : nd.cnt < NODE_DEG)
    (hsort : ∀ i j, i < j → j < nd.cnt → nd.keys i < nd.keys j) :
    ∃ nd', nd.insert k v = some (nd.lookup k, nd') ∧
      nd.cnt ≤ nd'.cnt ∧ nd'.cnt ≤ nd.cnt + 1 ∧
      (∀ i j, i < j → j < nd'.cnt → nd'.keys i < nd'.keys j) ∧
      (∀ j, j < nd'.cnt → nd'.keys j = k ∨ ∃ j2, j2 < nd.cnt ∧ nd'.keys j = nd.keys j2) ∧
      (∀ k2, nd'.lookup k2 = mUpd (fun x => nd.lookup x) k v k2) := by
  obtain ⟨hle, hltv, hgev⟩ := lower_bound_spec nd.keys nd.cnt k (sorted_of_strict hsort)
  obtain ⟨hc1, hc2, hc3⟩ := LeafNode.upsert_desc nd k v hnf hsort
  by_cases hi : lower_bound nd.keys nd.cnt k = nd.cnt
  · obtain ⟨nd', heq, hcnt, hold, hkcnt, hvcnt⟩ := hc1 hi
    have hlk : nd.lookup k = none :=
      LeafNode.lookup_eq_none nd (fun j hj => ne_of_lt (hltv j (by omega)))
    have hsort' : ∀ i j, i < j → j < nd'.cnt → nd'.keys i < nd'.keys j := by
      rw [hcnt]
      exact sorted_insert_sep_strict hsort (le_refl nd.cnt)
        (fun j hj => (hold j hj).1) hkcnt (fun j hj1 hj2 => absurd hj2 (by omega))
        (fun h1 => hltv (nd.cnt - 1) (by omega)) (fun h1 => absurd h1 (lt_irrefl _))
    refine ⟨nd', by rw [hlk]; exact heq, by omega, by omega, hsort', ?_, ?_⟩
    · intro j hj
      rw [hcnt] at hj
      rcases Nat.lt_or_ge j nd.cnt with hlt | hge
      · exact Or.inr ⟨j, hlt, (hold j hlt).1⟩
      · have hje : j = nd.cnt := by omega
        rw [hje, hkcnt]
        exact Or.inl rfl
    · intro k2
      simp only [mUpd]
      by_cases hk2 : k2 = k
      · subst hk2
        rw [if_pos rfl,
          LeafNode.lookup_eq_some nd' hsort' nd.cnt (by omega) hkcnt, hvcnt]
      · rw [if_neg hk2]
        cases hv2 : nd.lookup k2 with
        | none =>
          refine LeafNode.lookup_eq_none nd' (fun j hj hcon => ?_)
          rw [hcnt] at hj
          rcases Nat.lt_or_ge j nd.cnt with hlt | hge
          · rw [(hold j hlt).1] at hcon
            rw [LeafNode.lookup_eq_some nd hsort j hlt hcon] at hv2
            exact absurd hv2 (by simp)
          · have hje : j = nd.cnt := by omega
            rw [hje, hkcnt] at hcon
            exact hk2 hcon.symm
        | some w =>
          obtain ⟨j, hj, hkj, hvj⟩ := LeafNode.lookup_some_elim hv2
          rw [LeafNode.lookup_eq_some nd' hsort' j (by omega)
            (by rw [(hold j hj).1]; exact hkj), (hold j hj).2, hvj]
  · have hilt : lower_bound nd.keys nd.cnt k < nd.cnt := by omega
    by_cases hkeq : nd.keys (lower_bound nd.keys nd.cnt k) = k
    · obtain ⟨nd', heq, hcnt, hkeys, hvi, hvother⟩ := hc2 hilt hkeq
      have hlk : nd.lookup k = some (nd.values (lower_bound nd.keys nd.cnt k)) :=
        LeafNode.lookup_eq_some nd hsort _ hilt hkeq
      have hsort' : ∀ i j, i < j → j < nd'.cnt → nd'.keys i < nd'.keys j := by
        intro a b hab hb
        rw [hkeys a, hkeys b]
        exact hsort a b hab (by omega)
      refine ⟨nd', by rw [hlk]; exact heq, by omega, by omega, hsort', ?_, ?_⟩
      · intro j hj
        exact Or.inr ⟨j, by omega, hkeys j⟩
      · intro k2
        simp only [mUpd]
        by_cases hk2 : k2 = k
        · rw [if_pos hk2, hk2,
            LeafNode.lookup_eq_some nd' hsort' (lower_bound nd.keys nd.cnt k)
              (by omega) (by rw [hkeys]; exact hkeq), hvi]
        · rw [if_neg hk2]
          cases hv2 : nd.lookup k2 with
          | none =>
            refine LeafNode.lookup_eq_none nd' (fun j hj hcon => ?_)
            rw [hkeys j] at hcon
            rw [LeafNode.lookup_eq_some nd hsort j (by omega) hcon] at hv2
            exact absurd hv2 (by simp)
          | some w =>
            obtain ⟨j, hj, hkj, hvj⟩ := LeafNode.lookup_some_elim hv2
            have hjne : j ≠ lower_bound nd.keys nd.cnt k := by
              intro hcon
              rw [hcon, hkeq] at hkj
              exact hk2 hkj.symm
            rw [LeafNode.lookup_eq_some nd' hsort' j (by omega)
              (by rw [hkeys]; exact hkj), hvother j hjne, hvj]
    · obtain ⟨nd', heq, hcnt, hold, hki, hvi, hshift⟩ := hc3 hilt hkeq
      have hklti : k < nd.keys (lower_bound nd.keys nd.cnt k) :=
        lt_of_le_of_ne (hgev hilt) (fun hcon => hkeq hcon.symm)
      have hlk : nd.lookup k = none := by
        refine LeafNode.lookup_eq_none nd (fun j hj hcon => ?_)
        rcases Nat.lt_trichotomy j (lower_bound nd.keys nd.cnt k) with hc | hc | hc
        · exact absurd hcon (ne_of_lt (hltv j hc))
        · rw [hc] at hcon
          exact hkeq hcon
        · exact absurd hcon (ne_of_gt (lt_trans hklti (hsort _ j hc hj)))
      have hsort' : ∀ i j, i < j → j < nd'.cnt → nd'.keys i < nd'.keys j := by
        rw [hcnt]
        exact sorted_insert_sep_strict hsort (by omega)
          (fun j hj => (hold j hj).1) hki (fun j hj1 hj2 => (hshift j hj1 hj2).1)
          (fun h1 => hltv _ (by omega)) (fun h1 => hklti)
      refine ⟨nd', by rw [hlk]; exact heq, by omega, by omega, hsort', ?_, ?_⟩
      · intro j hj
        rw [hcnt] at hj
        rcases Nat.lt_trichotomy j (lower_bound nd.keys nd.cnt k) with hc | hc | hc
        · exact Or.inr ⟨j, by omega, (hold j hc).1⟩
        · rw [hc, hki]
          exact Or.inl rfl
        · refine Or.inr ⟨j - 1, by omega, ?_⟩
          have hsh := (hshift (j - 1) (by omega) (by omega)).1
          rw [show j - 1 + 1 = j from by omega] at hsh
          exact hsh
      · intro k2
        simp only [mUpd]
        by_cases hk2 : k2 = k
        · rw [if_pos hk2, hk2,
            LeafNode.lookup_eq_some nd' hsort' (lower_bound nd.keys nd.cnt k)
              (by omega) hki, hvi]
        · rw [if_neg hk2]
          cases hv2 : nd.lookup k2 with
          | none =>
            refine LeafNode.lookup_eq_none nd' (fun j hj hcon => ?_)
            rw [hcnt] at hj
            rcases Nat.lt_trichotomy j (lower_bound nd.keys nd.cnt k) with hc | hc | hc
            · rw [(hold j hc).1] at hcon
              rw [LeafNode.lookup_eq_some nd hsort j (by omega) hcon] at hv2
              exact absurd hv2 (by simp)
            · rw [hc, hki] at hcon
              exact hk2 hcon.symm
            · have hsh := (hshift (j - 1) (by omega) (by omega)).1
              rw [show j - 1 + 1 = j from by omega] at hsh
              rw [hsh] at hcon
              rw [LeafNode.lookup_eq_some nd hsort (j - 1) (by omega) hcon] at hv2
              exact absurd hv2 (by simp)
          | some w =>
            obtain ⟨j, hj, hkj, hvj⟩ := LeafNode.lookup_some_elim hv2
            rcases Nat.lt_or_ge j (lower_bound nd.keys nd.cnt k) with hc | hc
            · rw [LeafNode.lookup_eq_some nd' hsort' j (by omega)
                (by rw [(hold j hc).1]; exact hkj), (hold j hc).2, hvj]
            · have hsh := hshift j hc hj
              rw [LeafNode.lookup_eq_some nd' hsort' (j + 1) (by omega)
                (by rw [hsh.1]; exact hkj), hsh.2, hvj]

/-- `LeafNode::split` on a sorted full leaf partitions its map at the
separator: the left half answers queries `≤ sep`, the right half queries
`> sep`, and each half is sorted with keys drawn from the original. -/
theorem LeafNode.split_map {K V : Type} [LinearOrder K] [Inhabited K] [Inhabited V]
    (nd : LeafNode K V) (hcnt : nd.cnt = NODE_DEG)
    (hsort : ∀ i j, i < j → j < nd.cnt → nd.keys i < nd.keys j) :
    ∃ sep left right, nd.split = some (sep, left, right) ∧
      left.cnt = NODE_DEG / 2 ∧ right.cnt = NODE_DEG - NODE_DEG / 2 ∧
      (∀ i j, i < j → j < left.cnt → left.keys i < left.keys j) ∧
      (∀ i j, i < j → j < right.cnt → right.keys i < right.keys j) ∧
      (∀ j, j < left.cnt →
        left.keys j ≤ sep ∧ ∃ j2, j2 < nd.cnt ∧ left.keys j = nd.keys j2) ∧
      (∀ j, j < right.cnt →
        sep < right.keys j ∧ ∃ j2, j2 < nd.cnt ∧ right.keys j = nd.keys j2) ∧
      (∀ k, k ≤ sep → left.lookup k = nd.lookup k ∧ right.lookup k = none) ∧
      (∀ k, sep < k → right.lookup k = nd.lookup k ∧ left.lookup k = none) := by
  have hdeg : NODE_DEG = 32 := rfl
  obtain ⟨sep, left, right, heq, hlc, hrc, hlk, hlv, hrkv, hsep⟩ :=
    LeafNode.split_halves nd (by omega) (by omega)
  have hsortl : ∀ i j, i < j → j < left.cnt → left.keys i < left.keys j := by
    intro i j hij hj
    rw [hlk i, hlk j]
    exact hsort i j hij (by omega)
  have hsortr : ∀ i j, i < j → j < right.cnt → right.keys i < right.keys j := by
    intro i j hij hj
    rw [(hrkv i (by omega)).1, (hrkv j (by omega)).1]
    exact hsort _ _ (by omega) (by omega)
  have hsepj : ∀ j, j < left.cnt → left.keys j ≤ sep := by
    intro j hj
    rw [hlk j, hsep]
    exact sorted_of_strict hsort j (nd.cnt / 2 - 1) (by omega) (by omega)
  have hrgt : ∀ j, j < right.cnt → sep < right.keys j := by
    intro j hj
    rw [(hrkv j (by omega)).1, hsep]
    exact hsort (nd.cnt / 2 - 1) (nd.cnt / 2 + j) (by omega) (by omega)
  refine ⟨sep, left, right, heq, by omega, by omega, hsortl, hsortr, ?_, ?_, ?_, ?_⟩
  · exact fun j hj => ⟨hsepj j hj, j, by omega, hlk j⟩
  · exact fun j hj => ⟨hrgt j hj, nd.cnt / 2 + j, by omega, (hrkv j (by omega)).1⟩
  · intro k hk
    constructor
    · cases hv : nd.lookup k with
      | none =>
        refine LeafNode.lookup_eq_none left (fun j hj hcon => ?_)
        rw [hlk j] at hcon
        rw [LeafNode.lookup_eq_some nd hsort j (by omega) hcon] at hv
        exact absurd hv (by simp)
      | some w =>
        obtain ⟨j, hj, hkj, hvj⟩ := LeafNode.lookup_some_elim hv
        have hjlt : j < left.cnt := by
          by_contra hcon
          have hgt : sep < nd.keys j := by
            rw [hsep]
            exact hsort (nd.cnt / 2 - 1) j (by omega) hj
          rw [hkj] at hgt
          exact absurd hk (not_le.mpr hgt)
        rw [LeafNode.lookup_eq_some left hsortl j hjlt (by rw [hlk j]; exact hkj),
          hlv j, hvj]
    · refine LeafNode.lookup_eq_none right (fun j hj hcon => ?_)
      have hgt := hrgt j hj
      rw [hcon] at hgt
      exact absurd hk (not_le.mpr hgt)
  · intro k hk
    constructor
    · cases hv : nd.lookup k with
      | none =>
        refine LeafNode.lookup_eq_none right (fun j hj hcon => ?_)
        rw [(hrkv j (by omega)).1] at hcon
        rw [LeafNode.lookup_eq_some nd hsort _ (by omega) hcon] at hv
        exact absurd hv (by simp)
      | some w =>
        obtain ⟨j, hj, hkj, hvj⟩ := LeafNode.lookup_some_elim hv
        have hjge : nd.cnt / 2 ≤ j := by
          by_contra hcon
          have hle2 : nd.keys j ≤ sep := by
            rw [hsep]
            exact sorted_of_strict hsort j (nd.cnt / 2 - 1) (by omega) (by omega)
          rw [hkj] at hle2
          exact absurd hle2 (not_le.mpr hk)
        have hkeq2 : right.keys (j - nd.cnt / 2) = k := by
          rw [(hrkv _ (by omega)).1,
            show nd.cnt / 2 + (j - nd.cnt / 2) = j from by omega]
          exact hkj
        rw [LeafNode.lookup_eq_some right hsortr (j - nd.cnt / 2) (by omega) hkeq2,
          (hrkv _ (by omega)).2,
          show nd.cnt / 2 + (j - nd.cnt / 2) = j from by omega, hvj]
    · refine LeafNode.lookup_eq_none left (fun j hj hcon => ?_)
      have hle2 := hsepj j hj
      rw [hcon] at hle2
      exact absurd hle2 (not_le.mpr hk)

/-- Routing a query key in an internal node: the lower-bound child index is
in range and the key lies in that child's interval. -/
theorem NodeRep.route {K : Type} [LinearOrder K] (nd : InternalNode K) (k : K)
    (lo hi : Option K)
    (hsort : ∀ i j, i < j → j < nd.cnt - 1 → nd.keys i < nd.keys j)
    (h1 : 1 ≤ nd.cnt) (hlo : loLt lo k) (hhi : leHi k hi) :
    lower_bound nd.keys (nd.cnt - 1) k < nd.cnt ∧
    loLt (childLo lo nd.keys (lower_bound nd.keys (nd.cnt - 1) k)) k ∧
    leHi k (childHi hi nd.keys nd.cnt (lower_bound nd.keys (nd.cnt - 1) k)) := by
  obtain ⟨hle, hltv, hgev⟩ :=
    lower_bound_spec nd.keys (nd.cnt - 1) k (sorted_of_strict hsort)
  refine ⟨by omega, ?_, ?_⟩
  · intro a ha
    rw [childLo] at ha
    by_cases hz : lower_bound nd.keys (nd.cnt - 1) k = 0
    · rw [if_pos hz] at ha
      exact hlo a ha
    · rw [if_neg hz] at ha
      have := hltv (lower_bound nd.keys (nd.cnt - 1) k - 1) (by omega)
      rw [Option.some_inj.mp ha] at this
      exact this
  · intro b hb
    rw [childHi] at hb
    by_cases hz : lower_bound nd.keys (nd.cnt - 1) k = nd.cnt - 1
    · rw [if_pos hz] at hb
      exact hhi b hb
    · rw [if_neg hz] at hb
      rw [← Option.some_inj.mp hb]
      exact hgev (by omega)

/-- Splitting a full represented internal node yields two represented
halves whose maps partition the original map at the separator. -/
theorem NodeRep.split_build {K V : Type} [LinearOrder K] [Inhabited K]
    {iA iA2 : List (InternalNode K)} {lA lA2 : List (LeafNode K V)}
    (h : Nat) (X : InternalNode K) (ms : Nat → K → Option V)
    (SIs SLs : Nat → Finset Nat) (m : K → Option V) (lo hi : Option K)
    (idl idr : Nat) (sep : K) (left right : InternalNode K)
    (hfull : X.cnt = NODE_DEG)
    (hsort : ∀ i j, i < j → j < X.cnt - 1 → X.keys i < X.keys j)
    (hbnd : ∀ j, j < X.cnt - 1 → loLt lo (X.keys j) ∧ ltHi (X.keys j) hi)
    (hch : ∀ j, j < X.cnt → NodeRep iA lA h (X.sons j) (ms j)
      (childLo lo X.keys j) (childHi hi X.keys X.cnt j) (SIs j) (SLs j))
    (hdisj : ∀ j1 j2, j1 < j2 → j2 < X.cnt →
      Disjoint (SIs j1) (SIs j2) ∧ Disjoint (SLs j1) (SLs j2))
    (hm : ∀ k2, m k2 = ms (lower_bound X.keys (X.cnt - 1) k2) k2)
    (hsplit : X.split = some (sep, left, right))
    (hleft : iA2.get? idl = some left)
    (hright : iA2.get? idr = some right)
    (hagree_i : ∀ j, j < X.cnt → ∀ x, x ∈ SIs j → iA2.get? x = iA.get? x)
    (hagree_l : ∀ j, j < X.cnt → ∀ x, x ∈ SLs j → lA2.get? x = lA.get? x)
    (hnl : ∀ j, j < X.cnt → idl ∉ SIs j)
    (hnr : ∀ j, j < X.cnt → idr ∉ SIs j)
    (hlr : idl ≠ idr) :
    ∃ m1 m2 SI1 SL1 SI2 SL2,
      NodeRep iA2 lA2 (h + 1) (NodeIndex.internal idl) m1 lo (some sep) SI1 SL1 ∧
      NodeRep iA2 lA2 (h + 1) (NodeIndex.internal idr) m2 (some sep) hi SI2 SL2 ∧
      loLt lo sep ∧ ltHi sep hi ∧
      (∀ k2, m k2 = if k2 ≤ sep then m1 k2 else m2 k2) ∧
      Disjoint SI1 SI2 ∧ Disjoint SL1 SL2 ∧
      (∀ x, x ∈ SI1 → x = idl ∨ ∃ j, j < X.cnt ∧ x ∈ SIs j) ∧
      (∀ x, x ∈ SI2 → x = idr ∨ ∃ j, j < X.cnt ∧ x ∈ SIs j) ∧
      (∀ x, x ∈ SL1 → ∃ j, j < X.cnt ∧ x ∈ SLs j) ∧
      (∀ x, x ∈ SL2 → ∃ j, j < X.cnt ∧ x ∈ SLs j) := by
  have hdeg : NODE_DEG = 32 := rfl
  obtain ⟨sep0, left0, right0, heq0, hlc, hrc, hlk, hls, hrk, hrs, hsep0⟩ :=
    InternalNode.split_consumes_mid X (by omega) (by omega)
  rw [hsplit] at heq0
  obtain ⟨hsepe, hlefte, hrighte⟩ := some_triple_inj heq0
  subst hsepe
  subst hlefte
  subst hrighte
  have hH : X.cnt / 2 = 16 := by omega
  have hsepk : sep = X.keys 15 := by rw [hsep0, hH]
  have hkeysl : left.keys = X.keys := funext hlk
  have hsonsl : left.sons = X.sons := funext hls
  have hlosep : loLt lo sep := by
    rw [hsepk]
    exact (hbnd 15 (by omega)).1
  have hhisep : ltHi sep hi := by
    rw [hsepk]
    exact (hbnd 15 (by omega)).2
  -- the left half as a represented node
  have hrepl : NodeRep iA2 lA2 (h + 1) (NodeIndex.internal idl)
      (fun k2 => ms (lower_bound left.keys (left.cnt - 1) k2) k2) lo (some sep)
      (insert idl (Finset.biUnion (Finset.range 16) SIs))
      (Finset.biUnion (Finset.range 16) SLs) := by
    refine NodeRep_internal.mpr ⟨left, hleft, by omega, by omega, ?_, ?_,
      (fun j => ms j), SIs, SLs, ?_, ?_, ?_, by rw [hlc, hH], by rw [hlc, hH],
      fun k2 => rfl⟩
    · intro i j hij hj
      rw [hkeysl]
      exact hsort i j hij (by omega)
    · intro j hj
      rw [hkeysl]
      refine ⟨(hbnd j (by omega)).1, ?_⟩
      intro b hb
      rw [← Option.some_inj.mp hb, hsepk]
      exact hsort j 15 (by omega) (by omega)
    · intro j hj
      have hj32 : j < X.cnt := by omega
      have hcl : childLo lo left.keys j = childLo lo X.keys j := by rw [hkeysl]
      have hchi : childHi (some sep) left.keys left.cnt j =
          childHi hi X.keys X.cnt j := by
        rw [hkeysl, childHi, childHi]
        by_cases hje : j = left.cnt - 1
        · rw [if_pos hje, if_neg (by omega), hje, hsepk, hlc, hH]
        · rw [if_neg hje, if_neg (by omega)]
      rw [hsonsl, hcl, hchi]
      exact NodeRep.frame h _ _ _ _ _ _ (hch j hj32)
        (hagree_i j hj32) (hagree_l j hj32)
    · intro j1 j2 hj12 hj2
      exact hdisj j1 j2 hj12 (by omega)
    · intro j hj
      exact hnl j (by omega)
  -- the right half as a represented node
  have hrk16 : ∀ j, j < 15 → right.keys j = X.keys (16 + j) := by
    intro j hj
    rw [hrk j (by omega), hH]
  have hrs16 : ∀ j, j < 16 → right.sons j = X.sons (16 + j) := by
    intro j hj
    rw [hrs j (by omega), hH]
  have hrc16 : right.cnt = 16 := by omega
  have hrepr : NodeRep iA2 lA2 (h + 1) (NodeIndex.internal idr)
      (fun k2 => ms (16 + lower_bound right.keys (right.cnt - 1) k2) k2) (some sep) hi
      (insert idr (Finset.biUnion (Finset.range 16) (fun j => SIs (16 + j))))
      (Finset.biUnion (Finset.range 16) (fun j => SLs (16 + j))) := by
    refine NodeRep_internal.mpr ⟨right, hright, by omega, by omega, ?_, ?_,
      (fun j => ms (16 + j)), (fun j => SIs (16 + j)), (fun j => SLs (16 + j)),
      ?_, ?_, ?_, by rw [hrc16], by rw [hrc16], ?_⟩
    · intro i j hij hj
      rw [hrk16 i (by omega), hrk16 j (by omega)]
      exact hsort _ _ (by omega) (by omega)
    · intro j hj
      rw [hrk16 j (by omega)]
      constructor
      · intro a ha
        rw [← Option.some_inj.mp ha, hsepk]
        exact hsort 15 (16 + j) (by omega) (by omega)
      · exact (hbnd (16 + j) (by omega)).2
    · intro j hj
      have hj32 : 16 + j < X.cnt := by omega
      have hcl : childLo (some sep) right.keys j = childLo lo X.keys (16 + j) := by
        rw [childLo, childLo]
        by_cases hje : j = 0
        · rw [if_pos hje, if_neg (by omega), hje, hsepk]
        · rw [if_neg hje, if_neg (by omega), hrk16 (j - 1) (by omega),
            show 16 + (j - 1) = 16 + j - 1 from by omega]
      have hchi : childHi hi right.keys right.cnt j =
          childHi hi X.keys X.cnt (16 + j) := by
        rw [childHi, childHi]
        by_cases hje : j = right.cnt - 1
        · rw [if_pos hje, if_pos (by omega)]
        · rw [if_neg hje, if_neg (by omega), hrk16 j (by omega)]
      rw [hrs16 j (by omega), hcl, hchi]
      exact NodeRep.frame h _ _ _ _ _ _ (hch (16 + j) hj32)
        (hagree_i _ hj32) (hagree_l _ hj32)
    · intro j1 j2 hj12 hj2
      exact hdisj (16 + j1) (16 + j2) (by omega) (by omega)
    · intro j hj
      exact hnr (16 + j) (by omega)
    · intro k2
      rw [hrc16]
  refine ⟨_, _, _, _, _, _, hrepl, hrepr, hlosep, hhisep, ?_, ?_, ?_, ?_, ?_, ?_, ?_⟩
  · -- the map splits at the separator
    intro k2
    by_cases hk2 : k2 ≤ sep
    · rw [if_pos hk2, hm k2]
      have hpre : lower_bound X.keys (X.cnt - 1) k2 = lower_bound X.keys 15 k2 := by
        refine lower_bound_prefix k2 (sorted_of_strict hsort) (by omega) ?_
        rw [← hsepk]
        exact hk2
      have hcongr : lower_bound left.keys (left.cnt - 1) k2 =
          lower_bound X.keys 15 k2 := by
        rw [hkeysl, hlc, hH]
      rw [hpre, hcongr]
    · rw [if_neg hk2, hm k2]
      have hshift : lower_bound X.keys (X.cnt - 1) k2 =
          16 + lower_bound (fun j => X.keys (16 + j)) (X.cnt - 1 - 16) k2 := by
        refine lower_bound_shift k2 (sorted_of_strict hsort) (by omega) (by omega) ?_
        rw [show (16 : Nat) - 1 = 15 from rfl, ← hsepk]
        exact not_le.mp hk2
      have hcongr : lower_bound right.keys (right.cnt - 1) k2 =
          lower_bound (fun j => X.keys (16 + j)) 15 k2 := by
        rw [hrc16]
        refine lower_bound_congr k2 ?_ ?_
        · intro i j hij hj
          rcases Nat.lt_or_ge i j with hlt | hge
          · exact le_of_lt (hsort (16 + i) (16 + j) (by omega) (by omega))
          · have hije : i = j := by omega
            rw [hije]
        · intro j hj
          exact hrk16 j hj
      rw [hshift, hcongr, show X.cnt - 1 - 16 = 15 from by omega]
  · -- internal footprints disjoint
    rw [Finset.disjoint_left]
    intro x hx1 hx2
    rw [Finset.mem_insert] at hx1 hx2
    rcases hx1 with hx1 | hx1 <;> rcases hx2 with hx2 | hx2
    · exact hlr (hx1 ▸ hx2 ▸ rfl)
    · obtain ⟨j, hj, hx2⟩ := Finset.mem_biUnion.mp hx2
      rw [hx1] at hx2
      exact hnl (16 + j) (by have := Finset.mem_range.mp hj; omega) hx2
    · obtain ⟨j, hj, hx1⟩ := Finset.mem_biUnion.mp hx1
      rw [hx2] at hx1
      exact hnr j (by have := Finset.mem_range.mp hj; omega) hx1
    · obtain ⟨j1, hj1, hx1⟩ := Finset.mem_biUnion.mp hx1
      obtain ⟨j2, hj2, hx2⟩ := Finset.mem_biUnion.mp hx2
      have hj1r := Finset.mem_range.mp hj1
      have hj2r := Finset.mem_range.mp hj2
      exact Finset.disjoint_left.mp
        (hdisj j1 (16 + j2) (by omega) (by omega)).1 hx1 hx2
  · -- leaf footprints disjoint
    rw [Finset.disjoint_left]
    intro x hx1 hx2
    obtain ⟨j1, hj1, hx1⟩ := Finset.mem_biUnion.mp hx1
    obtain ⟨j2, hj2, hx2⟩ := Finset.mem_biUnion.mp hx2
    have hj1r := Finset.mem_range.mp hj1
    have hj2r := Finset.mem_range.mp hj2
    exact Finset.disjoint_left.mp
      (hdisj j1 (16 + j2) (by omega) (by omega)).2 hx1 hx2
  · intro x hx
    rw [Finset.mem_insert] at hx
    rcases hx with hx | hx
    · exact Or.inl hx
    · obtain ⟨j, hj, hx⟩ := Finset.mem_biUnion.mp hx
      exact Or.inr ⟨j, by have := Finset.mem_range.mp hj; omega, hx⟩
  · intro x hx
    rw [Finset.mem_insert] at hx
    rcases hx with hx | hx
    · exact Or.inl hx
    · obtain ⟨j, hj, hx⟩ := Finset.mem_biUnion.mp hx
      exact Or.inr ⟨16 + j, by have := Finset.mem_range.mp hj; omega, hx⟩
  · intro x hx
    obtain ⟨j, hj, hx⟩ := Finset.mem_biUnion.mp hx
    exact ⟨j, by have := Finset.mem_range.mp hj; omega, hx⟩
  · intro x hx
    obtain ⟨j, hj, hx⟩ := Finset.mem_biUnion.mp hx
    exact ⟨16 + j, by have := Finset.mem_range.mp hj; omega, hx⟩

/-- Absorbing a child update without a child split: if the routed child of a
represented internal node now represents the upserted child map in the new
state, and everything else in the node's footprint is untouched, the node
represents the upserted map. -/
theorem NodeRep.absorb_nosplit {K V : Type} [LinearOrder K]
    {iA : List (InternalNode K)} {lA : List (LeafNode K V)}
    (h : Nat) (idx : Nat) (X : InternalNode K) (ms : Nat → K → Option V)
    (SIs SLs : Nat → Finset Nat) (m : K → Option V) (lo hi : Option K)
    (k : K) (v : V) (t2 : BTree K V)
    (hcnt1 : 1 ≤ X.cnt) (hcnt2 : X.cnt ≤ NODE_DEG)
    (hsort : ∀ i j, i < j → j < X.cnt - 1 → X.keys i < X.keys j)
    (hbnd : ∀ j, j < X.cnt - 1 → loLt lo (X.keys j) ∧ ltHi (X.keys j) hi)
    (hch : ∀ j, j < X.cnt → NodeRep iA lA h (X.sons j) (ms j)
      (childLo lo X.keys j) (childHi hi X.keys X.cnt j) (SIs j) (SLs j))
    (hdisj : ∀ j1 j2, j1 < j2 → j2 < X.cnt →
      Disjoint (SIs j1) (SIs j2) ∧ Disjoint (SLs j1) (SLs j2))
    (hnid : ∀ j, j < X.cnt → idx ∉ SIs j)
    (hm : ∀ k2, m k2 = ms (lower_bound X.keys (X.cnt - 1) k2) k2)
    (hXpost : t2.i.get? idx = some X)
    (hframe_i : ∀ x, x < iA.length → x ∉ SIs (lower_bound X.keys (X.cnt - 1) k) →
      x ≠ idx → t2.i.get? x = iA.get? x)
    (hframe_l : ∀ x, x < lA.length → x ∉ SLs (lower_bound X.keys (X.cnt - 1) k) →
      t2.l.get? x = lA.get? x)
    (SI2 SL2 : Finset Nat)
    (hrep2 : NodeRep t2.i t2.l h (X.sons (lower_bound X.keys (X.cnt - 1) k))
      (mUpd (ms (lower_bound X.keys (X.cnt - 1) k)) k v)
      (childLo lo X.keys (lower_bound X.keys (X.cnt - 1) k))
      (childHi hi X.keys X.cnt (lower_bound X.keys (X.cnt - 1) k)) SI2 SL2)
    (hgrow2_i : ∀ x, x ∈ SI2 →
      x ∈ SIs (lower_bound X.keys (X.cnt - 1) k) ∨ iA.length ≤ x)
    (hgrow2_l : ∀ x, x ∈ SL2 →
      x ∈ SLs (lower_bound X.keys (X.cnt - 1) k) ∨ lA.length ≤ x)
    (hnid2 : idx ∉ SI2) :
    ∃ SI' SL',
      NodeRep t2.i t2.l (h + 1) (NodeIndex.internal idx) (mUpd m k v) lo hi SI' SL' ∧
      (∀ x, x ∈ SI' → x = idx ∨ (∃ j, j < X.cnt ∧ x ∈ SIs j) ∨ iA.length ≤ x) ∧
      (∀ x, x ∈ SL' → (∃ j, j < X.cnt ∧ x ∈ SLs j) ∨ lA.length ≤ x) := by
  set j0 : Nat := lower_bound X.keys (X.cnt - 1) k with hj0
  have hj0lt : j0 < X.cnt := by
    have := lower_bound_le X.keys (X.cnt - 1) k
    omega
  have hdisj_any : ∀ j1 j2, j1 ≠ j2 → j1 < X.cnt → j2 < X.cnt →
      Disjoint (SIs j1) (SIs j2) ∧ Disjoint (SLs j1) (SLs j2) := by
    intro j1 j2 hne h1 h2
    rcases Nat.lt_or_ge j1 j2 with hlt | hge
    · exact hdisj j1 j2 hlt h2
    · have hd := hdisj j2 j1 (by omega) h1
      exact ⟨hd.1.symm, hd.2.symm⟩
  have hchT : ∀ j, j < X.cnt → j ≠ j0 → NodeRep t2.i t2.l h (X.sons j) (ms j)
      (childLo lo X.keys j) (childHi hi X.keys X.cnt j) (SIs j) (SLs j) := by
    intro j hj hne
    obtain ⟨hfp_i, hfp_l⟩ := NodeRep.footprint_lt h _ _ _ _ _ _ (hch j hj)
    refine NodeRep.frame h _ _ _ _ _ _ (hch j hj) ?_ ?_
    · intro x hx
      refine hframe_i x (hfp_i x hx)
        (Finset.disjoint_left.mp (hdisj_any j j0 hne hj hj0lt).1 hx) ?_
      intro hc
      exact hnid j hj (hc ▸ hx)
    · intro x hx
      exact hframe_l x (hfp_l x hx)
        (Finset.disjoint_left.mp (hdisj_any j j0 hne hj hj0lt).2 hx)
  refine ⟨insert idx (Finset.biUnion (Finset.range X.cnt)
      (Function.update SIs j0 SI2)),
    Finset.biUnion (Finset.range X.cnt) (Function.update SLs j0 SL2), ?_, ?_, ?_⟩
  · refine NodeRep_internal.mpr ⟨X, hXpost, hcnt1, hcnt2, hsort, hbnd,
      Function.update ms j0 (mUpd (ms j0) k v),
      Function.update SIs j0 SI2, Function.update SLs j0 SL2,
      ?_, ?_, ?_, rfl, rfl, ?_⟩
    · intro j hj
      by_cases hje : j = j0
      · subst hje
        rw [Function.update_same, Function.update_same, Function.update_same]
        exact hrep2
      · rw [Function.update_noteq hje, Function.update_noteq hje,
          Function.update_noteq hje]
        exact hchT j hj hje
    · intro j1 j2 hj12 hj2
      by_cases he1 : j1 = j0
      · subst he1
        rw [Function.update_same, Function.update_same,
          Function.update_noteq (by omega), Function.update_noteq (by omega)]
        constructor
        · rw [Finset.disjoint_left]
          intro x hx1 hx2
          rcases hgrow2_i x hx1 with hx | hx
          · exact Finset.disjoint_left.mp
              (hdisj_any j0 j2 (by omega) hj0lt hj2).1 hx hx2
          · have := (NodeRep.footprint_lt h _ _ _ _ _ _ (hch j2 hj2)).1 x hx2
            omega
        · rw [Finset.disjoint_left]
          intro x hx1 hx2
          rcases hgrow2_l x hx1 with hx | hx
          · exact Finset.disjoint_left.mp
              (hdisj_any j0 j2 (by omega) hj0lt hj2).2 hx hx2
          · have := (NodeRep.footprint_lt h _ _ _ _ _ _ (hch j2 hj2)).2 x hx2
            omega
      · by_cases he2 : j2 = j0
        · subst he2
          rw [Function.update_same, Function.update_same,
            Function.update_noteq he1, Function.update_noteq he1]
          constructor
          · rw [Finset.disjoint_left]
            intro x hx1 hx2
            rcases hgrow2_i x hx2 with hx | hx
            · exact Finset.disjoint_left.mp
                (hdisj_any j1 j0 (by omega) (by omega) hj0lt).1 hx1 hx
            · have := (NodeRep.footprint_lt h _ _ _ _ _ _ (hch j1 (by omega))).1 x hx1
              omega
          · rw [Finset.disjoint_left]
            intro x hx1 hx2
            rcases hgrow2_l x hx2 with hx | hx
            · exact Finset.disjoint_left.mp
                (hdisj_any j1 j0 (by omega) (by omega) hj0lt).2 hx1 hx
            · have := (NodeRep.footprint_lt h _ _ _ _ _ _ (hch j1 (by omega))).2 x hx1
              omega
        · rw [Function.update_noteq he1, Function.update_noteq he2,
            Function.update_noteq he1, Function.update_noteq he2]
          exact hdisj j1 j2 hj12 hj2
    · intro j hj
      by_cases hje : j = j0
      · subst hje
        rw [Function.update_same]
        exact hnid2
      · rw [Function.update_noteq hje]
        exact hnid j hj
    · intro k2
      by_cases hr : lower_bound X.keys (X.cnt - 1) k2 = j0
      · rw [hr, Function.update_same]
        by_cases hk2 : k2 = k
        · simp only [mUpd, if_pos hk2]
        · simp only [mUpd, if_neg hk2]
          rw [hm k2, hr]
      · rw [Function.update_noteq hr]
        have hk2 : k2 ≠ k := by
          intro hc
          rw [hc] at hr
          exact hr hj0.symm
        simp only [mUpd, if_neg hk2]
        exact hm k2
  · intro x hx
    rw [Finset.mem_insert] at hx
    rcases hx with hx | hx
    · exact Or.inl hx
    · obtain ⟨j, hj, hx⟩ := Finset.mem_biUnion.mp hx
      have hjr := Finset.mem_range.mp hj
      by_cases hje : j = j0
      · subst hje
        rw [Function.update_same] at hx
        rcases hgrow2_i x hx with hx | hx
        · exact Or.inr (Or.inl ⟨j0, hj0lt, hx⟩)
        · exact Or.inr (Or.inr hx)
      · rw [Function.update_noteq hje] at hx
        exact Or.inr (Or.inl ⟨j, hjr, hx⟩)
  · intro x hx
    obtain ⟨j, hj, hx⟩ := Finset.mem_biUnion.mp hx
    have hjr := Finset.mem_range.mp hj
    by_cases hje : j = j0
    · subst hje
      rw [Function.update_same] at hx
      rcases hgrow2_l x hx with hx | hx
      · exact Or.inl ⟨j0, hj0lt, hx⟩
      · exact Or.inr hx
    · rw [Function.update_noteq hje] at hx
      exact Or.inl ⟨j, hjr, hx⟩

/-- Splice two replacements `a, b` in place of entry `p` of an indexed
family, shifting the entries after `p` one slot up (the child-index shift
performed by `InternalNode::insert`). -/
def splice {α : Type} (f : Nat → α) (p : Nat) (a b : α) : Nat → α :=
  fun jj => if jj = p then a else if jj = p + 1 then b else
    if jj < p then f jj else f (jj - 1)

theorem splice_lt {α : Type} (f : Nat → α) (p : Nat) (a b : α) (j : Nat)
    (h : j < p) : splice f p a b j = f j := by
  simp only [splice]
  rw [if_neg (by omega), if_neg (by omega), if_pos h]

theorem splice_at {α : Type} (f : Nat → α) (p : Nat) (a b : α) :
    splice f p a b p = a := by
  simp [splice]

theorem splice_succ {α : Type} (f : Nat → α) (p : Nat) (a b : α) :
    splice f p a b (p + 1) = b := by
  simp [splice]

theorem splice_gt {α : Type} (f : Nat → α) (p : Nat) (a b : α) (j : Nat)
    (h : p + 1 < j) : splice f p a b j = f (j - 1) := by
  simp only [splice]
  rw [if_neg (by omega), if_neg (by omega), if_neg (by omega)]

/-- Absorbing a child split: the routed child of a represented non-full
internal node split into two represented halves and the separator was
inserted into the node at the child index plus one; the node then
represents the upserted map with one more child. -/
theorem NodeRep.absorb_split {K V : Type} [LinearOrder K]
    {iA : List (InternalNode K)} {lA : List (LeafNode K V)}
    (h : Nat) (idx : Nat) (X : InternalNode K) (ms : Nat → K → Option V)
    (SIs SLs : Nat → Finset Nat) (m : K → Option V) (lo hi : Option K)
    (k : K) (v : V) (t2 : BTree K V)
    (hcnt1 : 1 ≤ X.cnt) (hcnt2 : X.cnt < NODE_DEG)
    (hsort : ∀ i j, i < j → j < X.cnt - 1 → X.keys i < X.keys j)
    (hbnd : ∀ j, j < X.cnt - 1 → loLt lo (X.keys j) ∧ ltHi (X.keys j) hi)
    (hch : ∀ j, j < X.cnt → NodeRep iA lA h (X.sons j) (ms j)
      (childLo lo X.keys j) (childHi hi X.keys X.cnt j) (SIs j) (SLs j))
    (hdisj : ∀ j1 j2, j1 < j2 → j2 < X.cnt →
      Disjoint (SIs j1) (SIs j2) ∧ Disjoint (SLs j1) (SLs j2))
    (hnid : ∀ j, j < X.cnt → idx ∉ SIs j)
    (hm : ∀ k2, m k2 = ms (lower_bound X.keys (X.cnt - 1) k2) k2)
    (sep : K) (rid : NodeIndex) (X2 : InternalNode K)
    (hins : X.insert (lower_bound X.keys (X.cnt - 1) k + 1) sep rid = some X2)
    (hX2post : t2.i.get? idx = some X2)
    (hseplo : loLt (childLo lo X.keys (lower_bound X.keys (X.cnt - 1) k)) sep)
    (hsephi : ltHi sep (childHi hi X.keys X.cnt (lower_bound X.keys (X.cnt - 1) k)))
    (hframe_i : ∀ x, x < iA.length → x ∉ SIs (lower_bound X.keys (X.cnt - 1) k) →
      x ≠ idx → t2.i.get? x = iA.get? x)
    (hframe_l : ∀ x, x < lA.length → x ∉ SLs (lower_bound X.keys (X.cnt - 1) k) →
      t2.l.get? x = lA.get? x)
    (m1 m2 : K → Option V) (SI21 SL21 SI22 SL22 : Finset Nat)
    (hrep21 : NodeRep t2.i t2.l h (X.sons (lower_bound X.keys (X.cnt - 1) k)) m1
      (childLo lo X.keys (lower_bound X.keys (X.cnt - 1) k)) (some sep) SI21 SL21)
    (hrep22 : NodeRep t2.i t2.l h rid m2 (some sep)
      (childHi hi X.keys X.cnt (lower_bound X.keys (X.cnt - 1) k)) SI22 SL22)
    (hmsplit : ∀ k2, mUpd (ms (lower_bound X.keys (X.cnt - 1) k)) k v k2 =
      if k2 ≤ sep then m1 k2 else m2 k2)
    (hdisj12_i : Disjoint SI21 SI22) (hdisj12_l : Disjoint SL21 SL22)
    (hgrow21_i : ∀ x, x ∈ SI21 →
      x ∈ SIs (lower_bound X.keys (X.cnt - 1) k) ∨ iA.length ≤ x)
    (hgrow22_i : ∀ x, x ∈ SI22 →
      x ∈ SIs (lower_bound X.keys (X.cnt - 1) k) ∨ iA.length ≤ x)
    (hgrow21_l : ∀ x, x ∈ SL21 →
      x ∈ SLs (lower_bound X.keys (X.cnt - 1) k) ∨ lA.length ≤ x)
    (hgrow22_l : ∀ x, x ∈ SL22 →
      x ∈ SLs (lower_bound X.keys (X.cnt - 1) k) ∨ lA.length ≤ x)
    (hnid21 : idx ∉ SI21) (hnid22 : idx ∉ SI22) :
    ∃ SI' SL',
      NodeRep t2.i t2.l (h + 1) (NodeIndex.internal idx) (mUpd m k v) lo hi SI' SL' ∧
      (∀ x, x ∈ SI' → x = idx ∨ (∃ j, j < X.cnt ∧ x ∈ SIs j) ∨ iA.length ≤ x) ∧
      (∀ x, x ∈ SL' → (∃ j, j < X.cnt ∧ x ∈ SLs j) ∨ lA.length ≤ x) := by
  set j0 : Nat := lower_bound X.keys (X.cnt - 1) k with hj0
  have hj0lt : j0 < X.cnt := by
    have := lower_bound_le X.keys (X.cnt - 1) k
    omega
  have hdisj_any : ∀ j1 j2, j1 ≠ j2 → j1 < X.cnt → j2 < X.cnt →
      Disjoint (SIs j1) (SIs j2) ∧ Disjoint (SLs j1) (SLs j2) := by
    intro j1 j2 hne h1 h2
    rcases Nat.lt_or_ge j1 j2 with hlt | hge
    · exact hdisj j1 j2 hlt h2
    · have hd := hdisj j2 j1 (by omega) h1
      exact ⟨hd.1.symm, hd.2.symm⟩
  have hchT : ∀ j, j < X.cnt → j ≠ j0 → NodeRep t2.i t2.l h (X.sons j) (ms j)
      (childLo lo X.keys j) (childHi hi X.keys X.cnt j) (SIs j) (SLs j) := by
    intro j hj hne
    obtain ⟨hfp_i, hfp_l⟩ := NodeRep.footprint_lt h _ _ _ _ _ _ (hch j hj)
    refine NodeRep.frame h _ _ _ _ _ _ (hch j hj) ?_ ?_
    · intro x hx
      refine hframe_i x (hfp_i x hx)
        (Finset.disjoint_left.mp (hdisj_any j j0 hne hj hj0lt).1 hx) ?_
      intro hc
      exact hnid j hj (hc ▸ hx)
    · intro x hx
      exact hframe_l x (hfp_l x hx)
        (Finset.disjoint_left.mp (hdisj_any j j0 hne hj hj0lt).2 hx)
  obtain ⟨nd', hins', hXc, hkpre, hkmid, hkpost, hspre, hsmid, hspost⟩ :=
    InternalNode.child_insert_desc X (j0 + 1) sep rid hcnt2 (by omega) (by omega)
  rw [hins] at hins'
  have hnde : nd' = X2 := Option.some_inj.mp hins'.symm
  rw [hnde] at hXc hkpre hkmid hkpost hspre hsmid hspost
  simp only [Nat.add_sub_cancel] at hkpre hkmid hkpost
  have hc1e : X2.cnt - 1 = X.cnt := by omega
  have hlo2 : 1 ≤ j0 → X.keys (j0 - 1) < sep := by
    intro h1
    exact hseplo _ (by rw [childLo, if_neg (by omega)])
  have hhi2 : j0 < X.cnt - 1 → sep < X.keys j0 := by
    intro h1
    exact hsephi _ (by rw [childHi, if_neg (by omega)])
  have hsort2 : ∀ i j, i < j → j < X2.cnt - 1 → X2.keys i < X2.keys j := by
    rw [hc1e]
    have hs := sorted_insert_sep_strict hsort (show j0 ≤ X.cnt - 1 from by omega)
      hkpre hkmid hkpost hlo2 hhi2
    rw [show X.cnt - 1 + 1 = X.cnt from by omega] at hs
    exact hs
  have hbnd2 : ∀ j, j < X2.cnt - 1 → loLt lo (X2.keys j) ∧ ltHi (X2.keys j) hi := by
    intro j hj
    rw [hc1e] at hj
    rcases Nat.lt_trichotomy j j0 with hc | hc | hc
    · rw [hkpre j hc]
      exact hbnd j (by omega)
    · rw [hc, hkmid]
      constructor
      · intro a ha
        by_cases hz : j0 = 0
        · exact hseplo a (by rw [childLo, if_pos hz]; exact ha)
        · exact lt_trans ((hbnd (j0 - 1) (by omega)).1 a ha) (hlo2 (by omega))
      · intro b hb
        by_cases hz : j0 = X.cnt - 1
        · exact hsephi b (by rw [childHi, if_pos hz]; exact hb)
        · exact lt_trans (hhi2 (by omega)) ((hbnd j0 (by omega)).2 b hb)
    · have hj1 : X2.keys j = X.keys (j - 1) := by
        have hk := hkpost (j - 1) (by omega) (by omega)
        rw [show j - 1 + 1 = j from by omega] at hk
        exact hk
      rw [hj1]
      exact hbnd (j - 1) (by omega)
  have hfpch : ∀ j, j < X.cnt →
      (∀ x, x ∈ SIs j → x < iA.length) ∧ (∀ x, x ∈ SLs j → x < lA.length) :=
    fun j hj => NodeRep.footprint_lt h _ _ _ _ _ _ (hch j hj)
  have hd21 : ∀ jo, jo < X.cnt → jo ≠ j0 → ∀ x, x ∈ SIs jo → x ∈ SI21 → False := by
    intro jo hjo hne x hxa hxb
    rcases hgrow21_i x hxb with h2 | h2
    · exact Finset.disjoint_left.mp (hdisj_any jo j0 hne hjo hj0lt).1 hxa h2
    · have := (hfpch jo hjo).1 x hxa
      omega
  have hd22 : ∀ jo, jo < X.cnt → jo ≠ j0 → ∀ x, x ∈ SIs jo → x ∈ SI22 → False := by
    intro jo hjo hne x hxa hxb
    rcases hgrow22_i x hxb with h2 | h2
    · exact Finset.disjoint_left.mp (hdisj_any jo j0 hne hjo hj0lt).1 hxa h2
    · have := (hfpch jo hjo).1 x hxa
      omega
  have hd21l : ∀ jo, jo < X.cnt → jo ≠ j0 → ∀ x, x ∈ SLs jo → x ∈ SL21 → False := by
    intro jo hjo hne x hxa hxb
    rcases hgrow21_l x hxb with h2 | h2
    · exact Finset.disjoint_left.mp (hdisj_any jo j0 hne hjo hj0lt).2 hxa h2
    · have := (hfpch jo hjo).2 x hxa
      omega
  have hd22l : ∀ jo, jo < X.cnt → jo ≠ j0 → ∀ x, x ∈ SLs jo → x ∈ SL22 → False := by
    intro jo hjo hne x hxa hxb
    rcases hgrow22_l x hxb with h2 | h2
    · exact Finset.disjoint_left.mp (hdisj_any jo j0 hne hjo hj0lt).2 hxa h2
    · have := (hfpch jo hjo).2 x hxa
      omega
  have hcases_i : ∀ jj x, x ∈ splice SIs j0 SI21 SI22 jj →
      (jj < j0 ∧ x ∈ SIs jj) ∨ (jj = j0 ∧ x ∈ SI21) ∨ (jj = j0 + 1 ∧ x ∈ SI22) ∨
      (j0 + 1 < jj ∧ x ∈ SIs (jj - 1)) := by
    intro jj x hx
    rcases Nat.lt_trichotomy jj j0 with hc | hc | hc
    · rw [splice_lt SIs j0 SI21 SI22 jj hc] at hx
      exact Or.inl ⟨hc, hx⟩
    · rw [hc, splice_at] at hx
      exact Or.inr (Or.inl ⟨hc, hx⟩)
    · by_cases hc2 : jj = j0 + 1
      · rw [hc2, splice_succ] at hx
        exact Or.inr (Or.inr (Or.inl ⟨hc2, hx⟩))
      · rw [splice_gt SIs j0 SI21 SI22 jj (by omega)] at hx
        exact Or.inr (Or.inr (Or.inr ⟨by omega, hx⟩))
  have hcases_l : ∀ jj x, x ∈ splice SLs j0 SL21 SL22 jj →
      (jj < j0 ∧ x ∈ SLs jj) ∨ (jj = j0 ∧ x ∈ SL21) ∨ (jj = j0 + 1 ∧ x ∈ SL22) ∨
      (j0 + 1 < jj ∧ x ∈ SLs (jj - 1)) := by
    intro jj x hx
    rcases Nat.lt_trichotomy jj j0 with hc | hc | hc
    · rw [splice_lt SLs j0 SL21 SL22 jj hc] at hx
      exact Or.inl ⟨hc, hx⟩
    · rw [hc, splice_at] at hx
      exact Or.inr (Or.inl ⟨hc, hx⟩)
    · by_cases hc2 : jj = j0 + 1
      · rw [hc2, splice_succ] at hx
        exact Or.inr (Or.inr (Or.inl ⟨hc2, hx⟩))
      · rw [splice_gt SLs j0 SL21 SL22 jj (by omega)] at hx
        exact Or.inr (Or.inr (Or.inr ⟨by omega, hx⟩))
  refine ⟨insert idx ((Finset.range X2.cnt).biUnion (splice SIs j0 SI21 SI22)),
    (Finset.range X2.cnt).biUnion (splice SLs j0 SL21 SL22), ?_, ?_, ?_⟩
  · refine NodeRep_internal.mpr ⟨X2, hX2post, by omega, by omega, hsort2, hbnd2,
      splice ms j0 m1 m2, splice SIs j0 SI21 SI22, splice SLs j0 SL21 SL22,
      ?_, ?_, ?_, rfl, rfl, ?_⟩
    · -- children
      intro jj hj
      rw [hXc] at hj
      rcases Nat.lt_trichotomy jj j0 with hc | hc | hc
      · have hsons : X2.sons jj = X.sons jj := hspre jj (by omega)
        have hclo : childLo lo X2.keys jj = childLo lo X.keys jj := by
          rw [childLo, childLo]
          by_cases hz : jj = 0
          · rw [if_pos hz, if_pos hz]
          · rw [if_neg hz, if_neg hz, hkpre (jj - 1) (by omega)]
        have hchi : childHi hi X2.keys X2.cnt jj = childHi hi X.keys X.cnt jj := by
          rw [childHi, childHi, if_neg (by omega), if_neg (by omega),
            hkpre jj (by omega)]
        rw [hsons, hclo, hchi, splice_lt ms j0 m1 m2 jj hc,
          splice_lt SIs j0 SI21 SI22 jj hc, splice_lt SLs j0 SL21 SL22 jj hc]
        exact hchT jj (by omega) (by omega)
      · have hsons : X2.sons jj = X.sons j0 := by
          rw [hc]
          exact hspre j0 (by omega)
        have hclo : childLo lo X2.keys jj = childLo lo X.keys j0 := by
          rw [hc, childLo, childLo]
          by_cases hz : j0 = 0
          · rw [if_pos hz, if_pos hz]
          · rw [if_neg hz, if_neg hz, hkpre (j0 - 1) (by omega)]
        have hchi : childHi hi X2.keys X2.cnt jj = some sep := by
          rw [hc, childHi, if_neg (by omega), hkmid]
        rw [hsons, hclo, hchi, hc, splice_at, splice_at, splice_at]
        exact hrep21
      · by_cases hc2 : jj = j0 + 1
        · have hsons : X2.sons jj = rid := by rw [hc2]; exact hsmid
          have hclo : childLo lo X2.keys jj = some sep := by
            rw [hc2, childLo, if_neg (by omega), Nat.add_sub_cancel, hkmid]
          have hchi : childHi hi X2.keys X2.cnt jj =
              childHi hi X.keys X.cnt j0 := by
            rw [hc2, childHi, childHi]
            by_cases hz : j0 = X.cnt - 1
            · rw [if_pos (by omega), if_pos hz]
            · rw [if_neg (by omega), if_neg hz, hkpost j0 (le_refl j0) (by omega)]
          rw [hsons, hclo, hchi, hc2, splice_succ, splice_succ, splice_succ]
          exact hrep22
        · have hgt : j0 + 1 < jj := by omega
          have hsons : X2.sons jj = X.sons (jj - 1) := by
            have hs := hspost (jj - 1) (by omega) (by omega)
            rw [show jj - 1 + 1 = jj from by omega] at hs
            exact hs
          have hclo : childLo lo X2.keys jj = childLo lo X.keys (jj - 1) := by
            rw [childLo, childLo, if_neg (by omega), if_neg (by omega)]
            have hk := hkpost (jj - 2) (by omega) (by omega)
            rw [show jj - 2 + 1 = jj - 1 from by omega] at hk
            rw [hk, show jj - 2 = jj - 1 - 1 from by omega]
          have hchi : childHi hi X2.keys X2.cnt jj =
              childHi hi X.keys X.cnt (jj - 1) := by
            rw [childHi, childHi]
            by_cases hz : jj = X2.cnt - 1
            · rw [if_pos hz, if_pos (by omega)]
            · rw [if_neg hz, if_neg (by omega)]
              have hk := hkpost (jj - 1) (by omega) (by omega)
              rw [show jj - 1 + 1 = jj from by omega] at hk
              rw [hk]
          rw [hsons, hclo, hchi, splice_gt ms j0 m1 m2 jj hgt,
            splice_gt SIs j0 SI21 SI22 jj hgt, splice_gt SLs j0 SL21 SL22 jj hgt]
          exact hchT (jj - 1) (by omega) (by omega)
    · -- pairwise disjointness
      intro jj1 jj2 h12 hj2
      constructor
      · rw [Finset.disjoint_left]
        intro x hx1 hx2
        rcases hcases_i jj1 x hx1 with ⟨hj, hx⟩ | ⟨hj, hx⟩ | ⟨hj, hx⟩ | ⟨hj, hx⟩ <;>
          rcases hcases_i jj2 x hx2 with ⟨hj', hx'⟩ | ⟨hj', hx'⟩ | ⟨hj', hx'⟩ |
            ⟨hj', hx'⟩
        · exact Finset.disjoint_left.mp
            (hdisj_any jj1 jj2 (by omega) (by omega) (by omega)).1 hx hx'
        · exact hd21 jj1 (by omega) (by omega) x hx hx'
        · exact hd22 jj1 (by omega) (by omega) x hx hx'
        · exact Finset.disjoint_left.mp
            (hdisj_any jj1 (jj2 - 1) (by omega) (by omega) (by omega)).1 hx hx'
        · exact hd21 jj2 (by omega) (by omega) x hx' hx
        · omega
        · exact Finset.disjoint_left.mp hdisj12_i hx hx'
        · exact hd21 (jj2 - 1) (by omega) (by omega) x hx' hx
        · exact hd22 jj2 (by omega) (by omega) x hx' hx
        · omega
        · omega
        · exact hd22 (jj2 - 1) (by omega) (by omega) x hx' hx
        · exact Finset.disjoint_left.mp
            (hdisj_any (jj1 - 1) jj2 (by omega) (by omega) (by omega)).1 hx hx'
        · omega
        · omega
        · exact Finset.disjoint_left.mp
            (hdisj_any (jj1 - 1) (jj2 - 1) (by omega) (by omega) (by omega)).1 hx hx'
      · rw [Finset.disjoint_left]
        intro x hx1 hx2
        rcases hcases_l jj1 x hx1 with ⟨hj, hx⟩ | ⟨hj, hx⟩ | ⟨hj, hx⟩ | ⟨hj, hx⟩ <;>
          rcases hcases_l jj2 x hx2 with ⟨hj', hx'⟩ | ⟨hj', hx'⟩ | ⟨hj', hx'⟩ |
            ⟨hj', hx'⟩
        · exact Finset.disjoint_left.mp
            (hdisj_any jj1 jj2 (by omega) (by omega) (by omega)).2 hx hx'
        · exact hd21l jj1 (by omega) (by omega) x hx hx'
        · exact hd22l jj1 (by omega) (by omega) x hx hx'
        · exact Finset.disjoint_left.mp
            (hdisj_any jj1 (jj2 - 1) (by omega) (by omega) (by omega)).2 hx hx'
        · exact hd21l jj2 (by omega) (by omega) x hx' hx
        · omega
        · exact Finset.disjoint_left.mp hdisj12_l hx hx'
        · exact hd21l (jj2 - 1) (by omega) (by omega) x hx' hx
        · exact hd22l jj2 (by omega) (by omega) x hx' hx
        · omega
        · omega
        · exact hd22l (jj2 - 1) (by omega) (by omega) x hx' hx
        · exact Finset.disjoint_left.mp
            (hdisj_any (jj1 - 1) jj2 (by omega) (by omega) (by omega)).2 hx hx'
        · omega
        · omega
        · exact Finset.disjoint_left.mp
            (hdisj_any (jj1 - 1) (jj2 - 1) (by omega) (by omega) (by omega)).2 hx hx'
    · -- the node id is in no child footprint
      intro jj hj x
      rcases hcases_i jj idx x with ⟨hj', hx⟩ | ⟨hj', hx⟩ | ⟨hj', hx⟩ | ⟨hj', hx⟩
      · exact hnid jj (by omega) hx
      · exact hnid21 hx
      · exact hnid22 hx
      · exact hnid (jj - 1) (by rw [hXc] at hj; omega) hx
    · -- the represented map routes through the new separator slice
      intro k2
      have hc1e2 : X2.cnt - 1 = X.cnt - 1 + 1 := by omega
      rw [hc1e2]
      obtain ⟨hA, hB, hC, hD⟩ := lower_bound_insert_sep k2 (sorted_of_strict hsort)
        (show j0 ≤ X.cnt - 1 from by omega) hkpre hkmid hkpost hlo2 hhi2
      rcases Nat.lt_trichotomy (lower_bound X.keys (X.cnt - 1) k2) j0 with hc | hc | hc
      · rw [hA hc, splice_lt ms j0 m1 m2 _ hc]
        have hk2 : k2 ≠ k := by
          intro he
          rw [he] at hc
          omega
        simp only [mUpd, if_neg hk2]
        exact hm k2
      · by_cases hks : k2 ≤ sep
        · rw [hB hc hks, splice_at]
          have hs := hmsplit k2
          rw [if_pos hks] at hs
          rw [← hs]
          by_cases hk2 : k2 = k
          · simp only [mUpd, if_pos hk2]
          · simp only [mUpd, if_neg hk2]
            rw [hm k2, hc]
        · rw [hC hc (not_le.mp hks), splice_succ]
          have hs := hmsplit k2
          rw [if_neg hks] at hs
          rw [← hs]
          by_cases hk2 : k2 = k
          · simp only [mUpd, if_pos hk2]
          · simp only [mUpd, if_neg hk2]
            rw [hm k2, hc]
      · rw [hD hc, splice_gt ms j0 m1 m2 _ (by omega), Nat.add_sub_cancel]
        have hk2 : k2 ≠ k := by
          intro he
          rw [he] at hc
          omega
        simp only [mUpd, if_neg hk2]
        exact hm k2
  · -- internal footprint growth
    intro x hx
    rw [Finset.mem_insert] at hx
    rcases hx with hx | hx
    · exact Or.inl hx
    · obtain ⟨jj, hjj, hx⟩ := Finset.mem_biUnion.mp hx
      have hjr := Finset.mem_range.mp hjj
      rw [hXc] at hjr
      rcases hcases_i jj x hx with ⟨hj', hx⟩ | ⟨hj', hx⟩ | ⟨hj', hx⟩ | ⟨hj', hx⟩
      · exact Or.inr (Or.inl ⟨jj, by omega, hx⟩)
      · rcases hgrow21_i x hx with h2 | h2
        · exact Or.inr (Or.inl ⟨j0, hj0lt, h2⟩)
        · exact Or.inr (Or.inr h2)
      · rcases hgrow22_i x hx with h2 | h2
        · exact Or.inr (Or.inl ⟨j0, hj0lt, h2⟩)
        · exact Or.inr (Or.inr h2)
      · exact Or.inr (Or.inl ⟨jj - 1, by omega, hx⟩)
  · -- leaf footprint growth
    intro x hx
    obtain ⟨jj, hjj, hx⟩ := Finset.mem_biUnion.mp hx
    have hjr := Finset.mem_range.mp hjj
    rw [hXc] at hjr
    rcases hcases_l jj x hx with ⟨hj', hx⟩ | ⟨hj', hx⟩ | ⟨hj', hx⟩ | ⟨hj', hx⟩
    · exact Or.inl ⟨jj, by omega, hx⟩
    · rcases hgrow21_l x hx with h2 | h2
      · exact Or.inl ⟨j0, hj0lt, h2⟩
      · exact Or.inr h2
    · rcases hgrow22_l x hx with h2 | h2
      · exact Or.inl ⟨j0, hj0lt, h2⟩
      · exact Or.inr h2
    · exact Or.inl ⟨jj - 1, by omega, hx⟩

/-- The refinement induction statement at height `hh`: running the insert
loop on a represented subtree (with a valid, non-full father holding the
subtree at child slot `fsi`) returns the previous binding of `k`, and
afterwards either the subtree represents the upserted map (its father slot
untouched), or the subtree split into two represented halves whose
separator was inserted into the father at `fsi + 1`; in both cases
everything outside the subtree footprint and the father slot is untouched
and new footprint slots are freshly allocated. -/
def InsertRefines {K V : Type} [LinearOrder K] [Inhabited K] [Inhabited V]
    (k : K) (v : V) (hh : Nat) : Prop :=
  ∀ (fuel : Nat) (t : BTree K V) (cur : NodeIndex) (f fsi : Nat)
    (m : K → Option V) (lo hi : Option K) (SI SL : Finset Nat)
    (fa : InternalNode K),
    hh < fuel →
    NodeRep t.i t.l hh cur m lo hi SI SL →
    loLt lo k → leHi k hi →
    t.i.get? f = some fa → fa.cnt < NODE_DEG → fsi < fa.cnt →
    f ∉ SI →
    ∃ t2, BTree.insertGo k v fuel t cur (some f) fsi = some (m k, t2) ∧
      t2.root = t.root ∧
      t.i.length ≤ t2.i.length ∧ t.l.length ≤ t2.l.length ∧
      (∀ x, x < t.i.length → x ∉ SI → x ≠ f → t2.i.get? x = t.i.get? x) ∧
      (∀ x, x < t.l.length → x ∉ SL → t2.l.get? x = t.l.get? x) ∧
      ((t2.i.get? f = some fa ∧
        ∃ SI2 SL2, NodeRep t2.i t2.l hh cur (mUpd m k v) lo hi SI2 SL2 ∧
          (∀ x, x ∈ SI2 → x ∈ SI ∨ t.i.length ≤ x) ∧
          (∀ x, x ∈ SL2 → x ∈ SL ∨ t.l.length ≤ x) ∧ f ∉ SI2) ∨
       (∃ sep rid fa2 m1 m2 SI1 SL1 SI2 SL2,
          fa.insert (fsi + 1) sep rid = some fa2 ∧
          t2.i.get? f = some fa2 ∧
          loLt lo sep ∧ ltHi sep hi ∧
          NodeRep t2.i t2.l hh cur m1 lo (some sep) SI1 SL1 ∧
          NodeRep t2.i t2.l hh rid m2 (some sep) hi SI2 SL2 ∧
          (∀ k2, mUpd m k v k2 = if k2 ≤ sep then m1 k2 else m2 k2) ∧
          Disjoint SI1 SI2 ∧ Disjoint SL1 SL2 ∧
          (∀ x, x ∈ SI1 → x ∈ SI ∨ t.i.length ≤ x) ∧
          (∀ x, x ∈ SI2 → x ∈ SI ∨ t.i.length ≤ x) ∧
          (∀ x, x ∈ SL1 → x ∈ SL ∨ t.l.length ≤ x) ∧
          (∀ x, x ∈ SL2 → x ∈ SL ∨ t.l.length ≤ x) ∧
          f ∉ SI1 ∧ f ∉ SI2))

/-- Descending from a represented non-full internal node: routing the key,
running the loop on the routed child with this node as father, and
absorbing the outcome yields the node representing the upserted map. -/
theorem BTree.descend_absorb {K V : Type} [LinearOrder K] [Inhabited K] [Inhabited V]
    (k : K) (v : V) (hh : Nat) (IH : InsertRefines k v hh)
    (fuel : Nat) (t : BTree K V) (idx : Nat) (X : InternalNode K)
    (mX : K → Option V) (loX hiX : Option K) (SIX SLX : Finset Nat)
    (hfuel : hh < fuel)
    (hrep : NodeRep t.i t.l (hh + 1) (NodeIndex.internal idx) mX loX hiX SIX SLX)
    (hX : t.i.get? idx = some X) (hXnf : X.cnt < NODE_DEG)
    (hklo : loLt loX k) (hkhi : leHi k hiX) :
    ∃ t2, ((X.lookup k).bind fun r =>
        BTree.insertGo k v fuel t r.2 (some idx) r.1) = some (mX k, t2) ∧
      t2.root = t.root ∧
      t.i.length ≤ t2.i.length ∧ t.l.length ≤ t2.l.length ∧
      (∀ x, x < t.i.length → x ∉ SIX → t2.i.get? x = t.i.get? x) ∧
      (∀ x, x < t.l.length → x ∉ SLX → t2.l.get? x = t.l.get? x) ∧
      ∃ SIX2 SLX2,
        NodeRep t2.i t2.l (hh + 1) (NodeIndex.internal idx) (mUpd mX k v)
          loX hiX SIX2 SLX2 ∧
        (∀ x, x ∈ SIX2 → x ∈ SIX ∨ t.i.length ≤ x) ∧
        (∀ x, x ∈ SLX2 → x ∈ SLX ∨ t.l.length ≤ x) := by
  obtain ⟨nd, hnd, h1, h2, hsort, hbnd, ms, SIs, SLs, hch, hdisj, hnid, hSIe, hSLe,
    hm⟩ := NodeRep_internal.mp hrep
  rw [hnd] at hX
  have hnde : nd = X := Option.some_inj.mp hX
  subst hnde
  have hdeg : NODE_DEG = 32 := rfl
  have hlkp : nd.lookup k = some (lower_bound nd.keys (nd.cnt - 1) k,
      nd.sons (lower_bound nd.keys (nd.cnt - 1) k)) := by
    simp only [InternalNode.lookup,
      if_pos (show 1 ≤ nd.cnt ∧ nd.cnt - 1 ≤ NODE_DEG - 1 from ⟨h1, by omega⟩)]
  obtain ⟨hroute_lt, hroute_lo, hroute_hi⟩ :=
    NodeRep.route nd k loX hiX hsort h1 hklo hkhi
  obtain ⟨t2, heq2, hroot2, hgi, hgl, hfi, hfl, hcase⟩ :=
    IH fuel t (nd.sons (lower_bound nd.keys (nd.cnt - 1) k)) idx
      (lower_bound nd.keys (nd.cnt - 1) k)
      (ms (lower_bound nd.keys (nd.cnt - 1) k))
      (childLo loX nd.keys (lower_bound nd.keys (nd.cnt - 1) k))
      (childHi hiX nd.keys nd.cnt (lower_bound nd.keys (nd.cnt - 1) k))
      (SIs (lower_bound nd.keys (nd.cnt - 1) k))
      (SLs (lower_bound nd.keys (nd.cnt - 1) k)) nd hfuel
      (hch _ hroute_lt) hroute_lo hroute_hi hnd hXnf hroute_lt (hnid _ hroute_lt)
  have hchildsub_i : ∀ x, x ∈ SIs (lower_bound nd.keys (nd.cnt - 1) k) → x ∈ SIX := by
    intro x hx
    rw [hSIe]
    exact Finset.mem_insert_of_mem
      (Finset.mem_biUnion.mpr ⟨_, Finset.mem_range.mpr hroute_lt, hx⟩)
  have hchildsub_l : ∀ x, x ∈ SLs (lower_bound nd.keys (nd.cnt - 1) k) → x ∈ SLX := by
    intro x hx
    rw [hSLe]
    exact Finset.mem_biUnion.mpr ⟨_, Finset.mem_range.mpr hroute_lt, hx⟩
  have hidxin : idx ∈ SIX := by
    rw [hSIe]
    exact Finset.mem_insert_self _ _
  refine ⟨t2, ?_, hroot2, hgi, hgl, ?_, ?_, ?_⟩
  · rw [hlkp]
    simp only [Option.some_bind]
    exact heq2.trans (by rw [hm k])
  · intro x hx hxSI
    refine hfi x hx (fun hc => hxSI (hchildsub_i x hc)) (fun hc => hxSI (hc ▸ hidxin))
  · intro x hx hxSL
    exact hfl x hx (fun hc => hxSL (hchildsub_l x hc))
  · rcases hcase with ⟨hfX, SI2, SL2, hrep2, hg2i, hg2l, hni2⟩ |
      ⟨sep, rid, fa2, m1, m2, SI1, SL1, SI2, SL2, hins, hfX2, hseplo, hsephi,
        hrep21, hrep22, hmsplit, hdI, hdL, hg1i, hg2i, hg1l, hg2l, hni1, hni2⟩
    · obtain ⟨SI', SL', habs, hgi', hgl'⟩ :=
        NodeRep.absorb_nosplit hh idx nd ms SIs SLs mX loX hiX k v t2 h1 h2
          hsort hbnd hch hdisj hnid hm hfX hfi hfl SI2 SL2 hrep2 hg2i hg2l hni2
      refine ⟨SI', SL', habs, ?_, ?_⟩
      · intro x hx
        rcases hgi' x hx with hx2 | hx2 | hx2
        · exact Or.inl (hx2 ▸ hidxin)
        · obtain ⟨j, hj, hx2⟩ := hx2
          refine Or.inl ?_
          rw [hSIe]
          exact Finset.mem_insert_of_mem
            (Finset.mem_biUnion.mpr ⟨j, Finset.mem_range.mpr hj, hx2⟩)
        · exact Or.inr hx2
      · intro x hx
        rcases hgl' x hx with hx2 | hx2
        · obtain ⟨j, hj, hx2⟩ := hx2
          refine Or.inl ?_
          rw [hSLe]
          exact Finset.mem_biUnion.mpr ⟨j, Finset.mem_range.mpr hj, hx2⟩
        · exact Or.inr hx2
    · obtain ⟨SI', SL', habs, hgi', hgl'⟩ :=
        NodeRep.absorb_split hh idx nd ms SIs SLs mX loX hiX k v t2 h1 hXnf
          hsort hbnd hch hdisj hnid hm sep rid fa2 hins hfX2 hseplo hsephi
          hfi hfl m1 m2 SI1 SL1 SI2 SL2 hrep21 hrep22 hmsplit hdI hdL
          hg1i hg2i hg1l hg2l hni1 hni2
      refine ⟨SI', SL', habs, ?_, ?_⟩
      · intro x hx
        rcases hgi' x hx with hx2 | hx2 | hx2
        · exact Or.inl (hx2 ▸ hidxin)
        · obtain ⟨j, hj, hx2⟩ := hx2
          refine Or.inl ?_
          rw [hSIe]
          exact Finset.mem_insert_of_mem
            (Finset.mem_biUnion.mpr ⟨j, Finset.mem_range.mpr hj, hx2⟩)
        · exact Or.inr hx2
      · intro x hx
        rcases hgl' x hx with hx2 | hx2
        · obtain ⟨j, hj, hx2⟩ := hx2
          refine Or.inl ?_
          rw [hSLe]
          exact Finset.mem_biUnion.mpr ⟨j, Finset.mem_range.mpr hj, hx2⟩
        · exact Or.inr hx2

/-- The insert loop refines the reference map at every height. -/
theorem BTree.insertGo_refines {K V : Type} [LinearOrder K] [Inhabited K]
    [Inhabited V] (k : K) (v : V) : ∀ hh, InsertRefines k v hh := by
  intro hh
  induction hh with
  | zero =>
    intro fuel t cur f fsi m lo hi SI SL fa hfuel hrep hklo hkhi hfa hfanf hfsi hfSI
    obtain ⟨fl, rfl⟩ : ∃ fl, fuel = fl + 1 := ⟨fuel - 1, by omega⟩
    cases cur with
    | internal id => exact hrep.elim
    | leaf id =>
      obtain ⟨hSIe, hSLe, nd, hnd, hcle, hsortl, hbndl, hml⟩ := NodeRep_leaf.mp hrep
      have hdeg : NODE_DEG = 32 := rfl
      have hidlt : id < t.l.length := lt_of_get?_some hnd
      have hflt : f < t.i.length := lt_of_get?_some hfa
      by_cases hfull : nd.cnt = NODE_DEG
      · -- full leaf: split; insert separator into the father; upsert the half
        have hfull' : nd.full = true := by
          simp only [LeafNode.full, decide_eq_true_eq]
          exact hfull
        obtain ⟨sep, left, right, hsplit, hlc, hrc, hsortL, hsortR, hlkeys, hrkeys,
          hlow, hhigh⟩ := LeafNode.split_map nd hfull hsortl
        obtain ⟨fa2, hins, hfc, hkpre, hkmid, hkpost, hspre, hsmid, hspost⟩ :=
          InternalNode.child_insert_desc fa (fsi + 1) sep (NodeIndex.leaf t.l.length)
            hfanf (by omega) (by omega)
        have hE := BTree.insertGo_leaf_full_father k v fl t id f fsi nd left right
          sep fa fa2 hnd hfull' hsplit hfa hins
        have hsep_lo : loLt lo sep := by
          intro a ha
          obtain ⟨hle0, j2, hj2, hkey⟩ := hlkeys 0 (by omega)
          have hb := (hbndl j2 hj2).1 a ha
          rw [← hkey] at hb
          exact lt_of_lt_of_le hb hle0
        have hsep_hi : ltHi sep hi := by
          intro b hb
          obtain ⟨hgt0, j2, hj2, hkey⟩ := hrkeys 0 (by omega)
          have hb2 := (hbndl j2 hj2).2 b hb
          rw [← hkey] at hb2
          exact lt_of_lt_of_le hgt0 hb2
        have hrepL : ∀ (lB : List (LeafNode K V)), lB.get? id = some left →
            NodeRep t.i lB 0 (NodeIndex.leaf id) (fun k2 => left.lookup k2)
              lo (some sep) ∅ {id} := by
          intro lB hget
          refine NodeRep_leaf.mpr ⟨rfl, rfl, left, hget, by omega, hsortL, ?_,
            fun k2 => rfl⟩
          intro j hj
          obtain ⟨hle0, j2, hj2, hkey⟩ := hlkeys j hj
          refine ⟨by rw [hkey]; exact (hbndl j2 hj2).1, ?_⟩
          intro b hb
          rw [← Option.some_inj.mp hb]
          exact hle0
        have hrepR : ∀ (lB : List (LeafNode K V)), lB.get? t.l.length = some right →
            NodeRep t.i lB 0 (NodeIndex.leaf t.l.length) (fun k2 => right.lookup k2)
              (some sep) hi ∅ {t.l.length} := by
          intro lB hget
          refine NodeRep_leaf.mpr ⟨rfl, rfl, right, hget, by omega, hsortR, ?_,
            fun k2 => rfl⟩
          intro j hj
          obtain ⟨hgt0, j2, hj2, hkey⟩ := hrkeys j hj
          refine ⟨?_, by rw [hkey]; exact (hbndl j2 hj2).2⟩
          intro a ha
          rw [← Option.some_inj.mp ha]
          exact hgt0
        by_cases hks : sep < k
        · -- upsert lands in the right half
          obtain ⟨nd', heqi, hc1, hc2, hsort', hprov, hlkp⟩ :=
            LeafNode.insert_map right k v (by omega) hsortR
          have hval : right.lookup k = m k :=
            ((hhigh k hks).1).trans (hml k).symm
          refine ⟨⟨t.i.set f fa2,
              ((t.l.set id left) ++ [right]).set t.l.length nd', t.root⟩, ?_,
            rfl, le_of_eq (List.length_set t.i f fa2).symm, ?_, ?_, ?_,
            Or.inr ⟨sep, NodeIndex.leaf t.l.length, fa2, (fun k2 => left.lookup k2),
              (fun k2 => nd'.lookup k2), ∅, {id}, ∅, {t.l.length}, hins, ?_,
              hsep_lo, hsep_hi, ?_, ?_, ?_, ?_, ?_, ?_, ?_, ?_, ?_, ?_, ?_⟩⟩
          · rw [hE, if_pos hks, get?_set_append_new t.l id left right]
            simp only [Option.pure_def, Option.bind_eq_bind, Option.some_bind]
            rw [heqi]
            simp only [Option.pure_def, Option.bind_eq_bind, Option.some_bind]
            rw [hval]
          · show t.l.length ≤ (((t.l.set id left) ++ [right]).set t.l.length nd').length
            simp only [List.length_set, List.length_append, List.length_cons,
              List.length_nil]
            omega
          · intro x hx hxSI hxf
            exact List.get?_set_ne _ _ (fun hc => hxf hc.symm)
          · intro x hx hxSL
            have hxid : x ≠ id := fun hc => hxSL (by
              rw [hSLe, hc]
              exact Finset.mem_singleton_self id)
            rw [List.get?_set_ne _ _ (fun hc => by omega),
              get?_set_append_old t.l id x left right hx hxid]
          · exact List.get?_set_eq_of_lt fa2 hflt
          · refine hrepL _ ?_
            rw [List.get?_set_ne _ _ (fun hc => by omega),
              get?_set_append_at t.l id left right hidlt]
          · refine NodeRep_leaf.mpr ⟨rfl, rfl, nd', ?_, by omega, hsort', ?_,
              fun k2 => rfl⟩
            · refine List.get?_set_eq_of_lt nd' ?_
              simp only [List.length_append, List.length_set, List.length_cons,
                List.length_nil]
              omega
            · intro j hj
              rcases hprov j hj with hk2 | ⟨j2, hj2, hk2⟩
              · rw [hk2]
                refine ⟨?_, hkhi⟩
                intro a ha
                rw [← Option.some_inj.mp ha]
                exact hks
              · rw [hk2]
                obtain ⟨hgt0, j3, hj3, hkey⟩ := hrkeys j2 hj2
                refine ⟨?_, by rw [hkey]; exact (hbndl j3 hj3).2⟩
                intro a ha
                rw [← Option.some_inj.mp ha]
                exact hgt0
          · intro k2
            dsimp only
            by_cases hk2s : k2 ≤ sep
            · rw [if_pos hk2s, (hlow k2 hk2s).1]
              have hk2 : k2 ≠ k := by
                intro hc
                rw [hc] at hk2s
                exact absurd hks (not_lt.mpr hk2s)
              simp only [mUpd, if_neg hk2]
              exact hml k2
            · rw [if_neg hk2s, hlkp k2]
              by_cases hk2 : k2 = k
              · simp only [mUpd, if_pos hk2]
              · simp only [mUpd, if_neg hk2]
                rw [(hhigh k2 (not_le.mp hk2s)).1]
                exact hml k2
          · simp
          · rw [Finset.disjoint_singleton]
            omega
          · simp
          · simp
          · intro x hx
            rw [Finset.mem_singleton] at hx
            rw [hSLe, hx]
            exact Or.inl (Finset.mem_singleton_self id)
          · intro x hx
            rw [Finset.mem_singleton] at hx
            rw [hx]
            exact Or.inr (le_refl _)
          · simp
          · simp
        · -- upsert lands in the left half
          obtain ⟨nd', heqi, hc1, hc2, hsort', hprov, hlkp⟩ :=
            LeafNode.insert_map left k v (by omega) hsortL
          have hval : left.lookup k = m k :=
            ((hlow k (not_lt.mp hks)).1).trans (hml k).symm
          refine ⟨⟨t.i.set f fa2,
              ((t.l.set id left) ++ [right]).set id nd', t.root⟩, ?_,
            rfl, le_of_eq (List.length_set t.i f fa2).symm, ?_, ?_, ?_,
            Or.inr ⟨sep, NodeIndex.leaf t.l.length, fa2, (fun k2 => nd'.lookup k2),
              (fun k2 => right.lookup k2), ∅, {id}, ∅, {t.l.length}, hins, ?_,
              hsep_lo, hsep_hi, ?_, ?_, ?_, ?_, ?_, ?_, ?_, ?_, ?_, ?_, ?_⟩⟩
          · rw [hE, if_neg hks, get?_set_append_at t.l id left right hidlt]
            simp only [Option.pure_def, Option.bind_eq_bind, Option.some_bind]
            rw [heqi]
            simp only [Option.pure_def, Option.bind_eq_bind, Option.some_bind]
            rw [hval]
          · show t.l.length ≤ (((t.l.set id left) ++ [right]).set id nd').length
            simp only [List.length_set, List.length_append, List.length_cons,
              List.length_nil]
            omega
          · intro x hx hxSI hxf
            exact List.get?_set_ne _ _ (fun hc => hxf hc.symm)
          · intro x hx hxSL
            have hxid : x ≠ id := fun hc => hxSL (by
              rw [hSLe, hc]
              exact Finset.mem_singleton_self id)
            rw [List.get?_set_ne _ _ (fun hc => hxid hc.symm),
              get?_set_append_old t.l id x left right hx hxid]
          · exact List.get?_set_eq_of_lt fa2 hflt
          · refine NodeRep_leaf.mpr ⟨rfl, rfl, nd', ?_, by omega, hsort', ?_,
              fun k2 => rfl⟩
            · refine List.get?_set_eq_of_lt nd' ?_
              simp only [List.length_append, List.length_set, List.length_cons,
                List.length_nil]
              omega
            · intro j hj
              rcases hprov j hj with hk2 | ⟨j2, hj2, hk2⟩
              · rw [hk2]
                refine ⟨hklo, ?_⟩
                intro b hb
                rw [← Option.some_inj.mp hb]
                exact not_lt.mp hks
              · rw [hk2]
                obtain ⟨hle0, j3, hj3, hkey⟩ := hlkeys j2 hj2
                refine ⟨by rw [hkey]; exact (hbndl j3 hj3).1, ?_⟩
                intro b hb
                rw [← Option.some_inj.mp hb]
                exact hle0
          · refine hrepR _ ?_
            rw [List.get?_set_ne _ _ (fun hc => by omega),
              get?_set_append_new t.l id left right]
          · intro k2
            dsimp only
            by_cases hk2s : k2 ≤ sep
            · rw [if_pos hk2s, hlkp k2]
              by_cases hk2 : k2 = k
              · simp only [mUpd, if_pos hk2]
              · simp only [mUpd, if_neg hk2]
                rw [(hlow k2 hk2s).1]
                exact hml k2
            · rw [if_neg hk2s, (hhigh k2 (not_le.mp hk2s)).1]
              have hk2 : k2 ≠ k := by
                intro hc
                rw [hc] at hk2s
                exact hk2s (not_lt.mp hks)
              simp only [mUpd, if_neg hk2]
              exact hml k2
          · simp
          · rw [Finset.disjoint_singleton]
            omega
          · simp
          · simp
          · intro x hx
            rw [Finset.mem_singleton] at hx
            rw [hSLe, hx]
            exact Or.inl (Finset.mem_singleton_self id)
          · intro x hx
            rw [Finset.mem_singleton] at hx
            rw [hx]
            exact Or.inr (le_refl _)
          · simp
          · simp
      · -- non-full leaf: plain upsert in place
        have hfull' : nd.full = false := by
          simp only [LeafNode.full, decide_eq_false_iff_not]
          omega
        obtain ⟨nd', heqi, hc1, hc2, hsort', hprov, hlkp⟩ :=
          LeafNode.insert_map nd k v (by omega) hsortl
        refine ⟨{ t with l := t.l.set id nd' }, ?_, rfl, le_refl _,
          le_of_eq (List.length_set t.l id nd').symm, ?_, ?_,
          Or.inl ⟨hfa, ∅, {id}, ?_, by simp, ?_, by simp⟩⟩
        · rw [BTree.insertGo_leaf_notfull k v fl t id (some f) fsi nd hnd hfull',
            heqi]
          simp only [Option.pure_def, Option.bind_eq_bind, Option.some_bind]
          rw [hml k]
        · intro x hx hxSI hxf
          rfl
        · intro x hx hxSL
          have hxid : x ≠ id := fun hc => hxSL (by
            rw [hSLe, hc]
            exact Finset.mem_singleton_self id)
          exact List.get?_set_ne _ _ (fun hc => hxid hc.symm)
        · refine NodeRep_leaf.mpr ⟨rfl, rfl, nd', List.get?_set_eq_of_lt nd' hidlt,
            by omega, hsort', ?_, ?_⟩
          · intro j hj
            rcases hprov j hj with hk2 | ⟨j2, hj2, hk2⟩
            · rw [hk2]
              exact ⟨hklo, hkhi⟩
            · rw [hk2]
              exact hbndl j2 hj2
          · intro k2
            rw [hlkp k2]
            by_cases hk2 : k2 = k
            · simp only [mUpd, if_pos hk2]
            · simp only [mUpd, if_neg hk2]
              exact hml k2
        · intro x hx
          rw [Finset.mem_singleton] at hx
          rw [hSLe, hx]
          exact Or.inl (Finset.mem_singleton_self id)
  | succ hh ih =>
    intro fuel t cur f fsi m lo hi SI SL fa hfuel hrep hklo hkhi hfa hfanf hfsi hfSI
    obtain ⟨fl, rfl⟩ : ∃ fl, fuel = fl + 1 := ⟨fuel - 1, by omega⟩
    cases cur with
    | leaf id => exact hrep.elim
    | internal id =>
      obtain ⟨nd, hnd, h1, h2, hsort, hbnd, ms, SIs, SLs, hch, hdisj, hnid, hSIe,
        hSLe, hm⟩ := NodeRep_internal.mp hrep
      have hdeg : NODE_DEG = 32 := rfl
      have hflt : f < t.i.length := lt_of_get?_some hfa
      have hidlt : id < t.i.length := lt_of_get?_some hnd
      have hfne : f ≠ id := by
        intro hc
        apply hfSI
        rw [hc, hSIe]
        exact Finset.mem_insert_self _ _
      have hfnotch : ∀ j, j < nd.cnt → f ∉ SIs j := by
        intro j hj hc
        apply hfSI
        rw [hSIe]
        exact Finset.mem_insert_of_mem
          (Finset.mem_biUnion.mpr ⟨j, Finset.mem_range.mpr hj, hc⟩)
      by_cases hfull : nd.cnt = NODE_DEG
      · -- full internal node: split, fix the father, descend into a half
        have hfull' : nd.full = true := by
          simp only [InternalNode.full, decide_eq_true_eq]
          exact hfull
        obtain ⟨sep0, left, right, hsplit, hlc, hrc, hlk, hls, hrk, hrs, hsepe⟩ :=
          InternalNode.split_consumes_mid nd (by omega) (by omega)
        obtain ⟨fa2, hins, hfc, hkpre, hkmid, hkpost, hspre, hsmid, hspost⟩ :=
          InternalNode.child_insert_desc fa (fsi + 1) sep0 (NodeIndex.internal t.i.length)
            hfanf (by omega) (by omega)
        have hfa4 : ((t.i.set id left) ++ [right]).get? f = some fa := by
          rw [get?_set_append_old t.i id f left right hflt hfne]
          exact hfa
        have hE := BTree.insertGo_internal_full_father k v fl t id f fsi nd left
          right sep0 fa fa2 hnd hfull' hsplit hfa4 hins
        set A4 : List (InternalNode K) := ((t.i.set id left) ++ [right]).set f fa2
          with hA4
        set t4 : BTree K V := { t with i := A4 } with ht4
        have hA4len : A4.length = t.i.length + 1 := by
          rw [hA4]
          simp only [List.length_set, List.length_append, List.length_cons,
            List.length_nil]
        have hgetl : A4.get? id = some left := by
          rw [hA4, List.get?_set_ne _ _ (fun hc => hfne hc),
            get?_set_append_at t.i id left right hidlt]
        have hgetr : A4.get? t.i.length = some right := by
          rw [hA4, List.get?_set_ne _ _ (fun hc => by omega),
            get?_set_append_new t.i id left right]
        have hfp : ∀ j, j < nd.cnt →
            (∀ x, x ∈ SIs j → x < t.i.length) ∧
            (∀ x, x ∈ SLs j → x < t.l.length) :=
          fun j hj => NodeRep.footprint_lt hh _ _ _ _ _ _ (hch j hj)
        have hagree_i : ∀ j, j < nd.cnt → ∀ x, x ∈ SIs j →
            A4.get? x = t.i.get? x := by
          intro j hj x hx
          have hxlt := (hfp j hj).1 x hx
          have hxf : x ≠ f := fun hc => hfnotch j hj (hc ▸ hx)
          have hxid : x ≠ id := fun hc => hnid j hj (hc ▸ hx)
          rw [hA4, List.get?_set_ne _ _ (fun hc => hxf hc.symm),
            get?_set_append_old t.i id x left right hxlt hxid]
        have hnr : ∀ j, j < nd.cnt → t.i.length ∉ SIs j := by
          intro j hj hc
          have := (hfp j hj).1 _ hc
          omega
        obtain ⟨m1, m2, SI1, SL1, SI2, SL2, hrep1, hrep2, hseplo, hsephi, hmsplit,
          hdI, hdL, hp1i, hp2i, hp1l, hp2l⟩ :=
          @NodeRep.split_build K V _ _ t.i A4 t.l t.l hh nd ms SIs SLs m lo hi
            id t.i.length sep0 left right hfull hsort hbnd hch hdisj hm hsplit
            hgetl hgetr hagree_i (fun j hj x hx => rfl) hnid hnr (by omega)
        have hfpS1 := NodeRep.footprint_lt (hh + 1) _ _ _ _ _ _ hrep1
        have hfpS2 := NodeRep.footprint_lt (hh + 1) _ _ _ _ _ _ hrep2
        have hlen4 : t4.i.length = t.i.length + 1 := hA4len
        have hlen4l : t4.l.length = t.l.length := rfl
        have hfpS1i : ∀ x, x ∈ SI1 → x < t4.i.length := fun x hx => hfpS1.1 x hx
        have hfpS2i : ∀ x, x ∈ SI2 → x < t4.i.length := fun x hx => hfpS2.1 x hx
        have hfnotSI1 : f ∉ SI1 := by
          intro hc
          rcases hp1i f hc with hc2 | ⟨j, hj, hc2⟩
          · exact hfne hc2
          · exact hfnotch j hj hc2
        have hfnotSI2 : f ∉ SI2 := by
          intro hc
          rcases hp2i f hc with hc2 | ⟨j, hj, hc2⟩
          · omega
          · exact hfnotch j hj hc2
        by_cases hks : sep0 < k
        · -- descend into the right half
          obtain ⟨t5, heq5, hroot5, hg5i, hg5l, hf5i, hf5l, SIX2, SLX2, habs,
            hgi2, hgl2⟩ :=
            BTree.descend_absorb k v hh ih fl t4 t.i.length right m2 (some sep0)
              hi SI2 SL2 (by omega) hrep2 hgetr (by omega)
              (fun a ha => by rw [← Option.some_inj.mp ha]; exact hks) hkhi
          have hmk : m k = m2 k := by
            have hs := hmsplit k
            rw [if_neg (not_le.mpr hks)] at hs
            exact hs
          have hf4 : t4.i.get? f = some fa2 := by
            show A4.get? f = some fa2
            rw [hA4]
            refine List.get?_set_eq_of_lt fa2 ?_
            simp only [List.length_append, List.length_set, List.length_cons,
              List.length_nil]
            omega
          have hxnotSI2 : ∀ x, x < t.i.length → x ∉ SI → x ∉ SI2 := by
            intro x hx hxSI hc
            rcases hp2i x hc with hc2 | ⟨j, hj, hc2⟩
            · omega
            · exact hxSI (by
                rw [hSIe]
                exact Finset.mem_insert_of_mem
                  (Finset.mem_biUnion.mpr ⟨j, Finset.mem_range.mpr hj, hc2⟩))
          have hxnotSL2 : ∀ x, x ∉ SL → x ∉ SL2 := by
            intro x hxSL hc
            obtain ⟨j, hj, hc2⟩ := hp2l x hc
            exact hxSL (by
              rw [hSLe]
              exact Finset.mem_biUnion.mpr ⟨j, Finset.mem_range.mpr hj, hc2⟩)
          refine ⟨t5, ?_, ?_, ?_, ?_, ?_, ?_,
            Or.inr ⟨sep0, NodeIndex.internal t.i.length, fa2, m1, mUpd m2 k v,
              SI1, SL1, SIX2, SLX2, hins, ?_, hseplo, hsephi, ?_, habs, ?_, ?_,
              ?_, ?_, ?_, ?_, ?_, hfnotSI1, ?_⟩⟩
          · rw [hE, if_pos hks, hgetr]
            simp only [Option.pure_def, Option.bind_eq_bind, Option.some_bind]
            exact heq5.trans (by rw [hmk])
          · exact hroot5
          · have : t4.i.length = t.i.length + 1 := hA4len
            omega
          · exact hg5l
          · intro x hx hxSI hxf
            have hstep1 : A4.get? x = t.i.get? x := by
              rw [hA4, List.get?_set_ne _ _ (fun hc => hxf hc.symm)]
              refine get?_set_append_old t.i id x left right hx ?_
              intro hc
              exact hxSI (by rw [hc, hSIe]; exact Finset.mem_insert_self _ _)
            have hstep2 : t5.i.get? x = t4.i.get? x := by
              refine hf5i x ?_ (hxnotSI2 x hx hxSI)
              have : t4.i.length = t.i.length + 1 := hA4len
              omega
            rw [hstep2]
            exact hstep1
          · intro x hx hxSL
            exact hf5l x hx (hxnotSL2 x hxSL)
          · -- the father slot now holds the updated node
            rw [hf5i f (by have : t4.i.length = t.i.length + 1 := hA4len; omega)
              (hxnotSI2 f hflt hfSI)]
            exact hf4
          · -- the untouched left half survives the recursion by framing
            refine NodeRep.frame (hh + 1) _ _ _ _ _ _ hrep1 ?_ ?_
            · intro x hx
              refine hf5i x (hfpS1i x hx) ?_
              intro hc
              exact Finset.disjoint_left.mp hdI hx hc
            · intro x hx
              refine hf5l x ((hfpS1.2 x hx)) ?_
              intro hc
              exact Finset.disjoint_left.mp hdL hx hc
          · intro k2
            by_cases hk2s : k2 ≤ sep0
            · rw [if_pos hk2s]
              have hk2 : k2 ≠ k := by
                intro hc
                rw [hc] at hk2s
                exact absurd hks (not_lt.mpr hk2s)
              have hs := hmsplit k2
              rw [if_pos hk2s] at hs
              simp only [mUpd, if_neg hk2]
              exact hs
            · rw [if_neg hk2s]
              by_cases hk2 : k2 = k
              · simp only [mUpd, if_pos hk2]
              · have hs := hmsplit k2
                rw [if_neg hk2s] at hs
                simp only [mUpd, if_neg hk2]
                exact hs
          · -- the halves' final footprints stay disjoint
            rw [Finset.disjoint_left]
            intro x hx1 hx2
            rcases hgi2 x hx2 with hc | hc
            · exact Finset.disjoint_left.mp hdI hx1 hc
            · have h3 := hfpS1i x hx1
              omega
          · rw [Finset.disjoint_left]
            intro x hx1 hx2
            rcases hgl2 x hx2 with hc | hc
            · exact Finset.disjoint_left.mp hdL hx1 hc
            · have h3 := hfpS1.2 x hx1
              omega
          · intro x hx
            rcases hp1i x hx with hc | ⟨j, hj, hc⟩
            · rw [hc]
              exact Or.inl (by rw [hSIe]; exact Finset.mem_insert_self _ _)
            · exact Or.inl (by
                rw [hSIe]
                exact Finset.mem_insert_of_mem
                  (Finset.mem_biUnion.mpr ⟨j, Finset.mem_range.mpr hj, hc⟩))
          · intro x hx
            rcases hgi2 x hx with hc | hc
            · rcases hp2i x hc with hc2 | ⟨j, hj, hc2⟩
              · exact Or.inr (by omega)
              · exact Or.inl (by
                  rw [hSIe]
                  exact Finset.mem_insert_of_mem
                    (Finset.mem_biUnion.mpr ⟨j, Finset.mem_range.mpr hj, hc2⟩))
            · exact Or.inr (by omega)
          · intro x hx
            obtain ⟨j, hj, hc⟩ := hp1l x hx
            exact Or.inl (by
              rw [hSLe]
              exact Finset.mem_biUnion.mpr ⟨j, Finset.mem_range.mpr hj, hc⟩)
          · intro x hx
            rcases hgl2 x hx with hc | hc
            · obtain ⟨j, hj, hc2⟩ := hp2l x hc
              exact Or.inl (by
                rw [hSLe]
                exact Finset.mem_biUnion.mpr ⟨j, Finset.mem_range.mpr hj, hc2⟩)
            · exact Or.inr hc
          · intro hc
            rcases hgi2 f hc with hc2 | hc2
            · exact hfnotSI2 hc2
            · omega
        · -- descend into the left half
          obtain ⟨t5, heq5, hroot5, hg5i, hg5l, hf5i, hf5l, SIX2, SLX2, habs,
            hgi2, hgl2⟩ :=
            BTree.descend_absorb k v hh ih fl t4 id left m1 lo (some sep0)
              SI1 SL1 (by omega) hrep1 hgetl (by omega) hklo
              (fun b hb => by rw [← Option.some_inj.mp hb]; exact not_lt.mp hks)
          have hmk : m k = m1 k := by
            have hs := hmsplit k
            rw [if_pos (not_lt.mp hks)] at hs
            exact hs
          have hf4 : t4.i.get? f = some fa2 := by
            show A4.get? f = some fa2
            rw [hA4]
            refine List.get?_set_eq_of_lt fa2 ?_
            simp only [List.length_append, List.length_set, List.length_cons,
              List.length_nil]
            omega
          have hxnotSI1 : ∀ x, x < t.i.length → x ∉ SI → x ∉ SI1 := by
            intro x hx hxSI hc
            rcases hp1i x hc with hc2 | ⟨j, hj, hc2⟩
            · exact hxSI (by rw [hc2, hSIe]; exact Finset.mem_insert_self _ _)
            · exact hxSI (by
                rw [hSIe]
                exact Finset.mem_insert_of_mem
                  (Finset.mem_biUnion.mpr ⟨j, Finset.mem_range.mpr hj, hc2⟩))
          have hxnotSL1 : ∀ x, x ∉ SL → x ∉ SL1 := by
            intro x hxSL hc
            obtain ⟨j, hj, hc2⟩ := hp1l x hc
            exact hxSL (by
              rw [hSLe]
              exact Finset.mem_biUnion.mpr ⟨j, Finset.mem_range.mpr hj, hc2⟩)
          refine ⟨t5, ?_, ?_, ?_, ?_, ?_, ?_,
            Or.inr ⟨sep0, NodeIndex.internal t.i.length, fa2, mUpd m1 k v, m2,
              SIX2, SLX2, SI2, SL2, hins, ?_, hseplo, hsephi, habs, ?_, ?_, ?_,
              ?_, ?_, ?_, ?_, ?_, ?_, hfnotSI2⟩⟩
          · rw [hE, if_neg hks, hgetl]
            simp only [Option.pure_def, Option.bind_eq_bind, Option.some_bind]
            exact heq5.trans (by rw [hmk])
          · exact hroot5
          · have : t4.i.length = t.i.length + 1 := hA4len
            omega
          · exact hg5l
          · intro x hx hxSI hxf
            have hstep1 : A4.get? x = t.i.get? x := by
              rw [hA4, List.get?_set_ne _ _ (fun hc => hxf hc.symm)]
              refine get?_set_append_old t.i id x left right hx ?_
              intro hc
              exact hxSI (by rw [hc, hSIe]; exact Finset.mem_insert_self _ _)
            have hstep2 : t5.i.get? x = t4.i.get? x := by
              refine hf5i x ?_ (hxnotSI1 x hx hxSI)
              have : t4.i.length = t.i.length + 1 := hA4len
              omega
            rw [hstep2]
            exact hstep1
          · intro x hx hxSL
            exact hf5l x hx (hxnotSL1 x hxSL)
          · rw [hf5i f (by have : t4.i.length = t.i.length + 1 := hA4len; omega)
              (hxnotSI1 f hflt hfSI)]
            exact hf4
          · -- the untouched right half survives the recursion by framing
            refine NodeRep.frame (hh + 1) _ _ _ _ _ _ hrep2 ?_ ?_
            · intro x hx
              refine hf5i x (hfpS2i x hx) ?_
              intro hc
              exact Finset.disjoint_left.mp hdI hc hx
            · intro x hx
              refine hf5l x ((hfpS2.2 x hx)) ?_
              intro hc
              exact Finset.disjoint_left.mp hdL hc hx
          · intro k2
            by_cases hk2s : k2 ≤ sep0
            · rw [if_pos hk2s]
              by_cases hk2 : k2 = k
              · simp only [mUpd, if_pos hk2]
              · have hs := hmsplit k2
                rw [if_pos hk2s] at hs
                simp only [mUpd, if_neg hk2]
                exact hs
            · rw [if_neg hk2s]
              have hk2 : k2 ≠ k := by
                intro hc
                rw [hc] at hk2s
                exact hk2s (not_lt.mp hks)
              have hs := hmsplit k2
              rw [if_neg hk2s] at hs
              simp only [mUpd, if_neg hk2]
              exact hs
          · rw [Finset.disjoint_left]
            intro x hx1 hx2
            rcases hgi2 x hx1 with hc | hc
            · exact Finset.disjoint_left.mp hdI hc hx2
            · have h3 := hfpS2i x hx2
              omega
          · rw [Finset.disjoint_left]
            intro x hx1 hx2
            rcases hgl2 x hx1 with hc | hc
            · exact Finset.disjoint_left.mp hdL hc hx2
            · have h3 := hfpS2.2 x hx2
              omega
          · intro x hx
            rcases hgi2 x hx with hc | hc
            · rcases hp1i x hc with hc2 | ⟨j, hj, hc2⟩
              · rw [hc2]
                exact Or.inl (by rw [hSIe]; exact Finset.mem_insert_self _ _)
              · exact Or.inl (by
                  rw [hSIe]
                  exact Finset.mem_insert_of_mem
                    (Finset.mem_biUnion.mpr ⟨j, Finset.mem_range.mpr hj, hc2⟩))
            · exact Or.inr (by omega)
          · intro x hx
            rcases hp2i x hx with hc | ⟨j, hj, hc⟩
            · exact Or.inr (by omega)
            · exact Or.inl (by
                rw [hSIe]
                exact Finset.mem_insert_of_mem
                  (Finset.mem_biUnion.mpr ⟨j, Finset.mem_range.mpr hj, hc⟩))
          · intro x hx
            rcases hgl2 x hx with hc | hc
            · obtain ⟨j, hj, hc2⟩ := hp1l x hc
              exact Or.inl (by
                rw [hSLe]
                exact Finset.mem_biUnion.mpr ⟨j, Finset.mem_range.mpr hj, hc2⟩)
            · exact Or.inr hc
          · intro x hx
            obtain ⟨j, hj, hc⟩ := hp2l x hx
            exact Or.inl (by
              rw [hSLe]
              exact Finset.mem_biUnion.mpr ⟨j, Finset.mem_range.mpr hj, hc⟩)
          · intro hc
            rcases hgi2 f hc with hc2 | hc2
            · exact hfnotSI1 hc2
            · omega
      · -- non-full internal node: route the key and descend
        have hfull' : nd.full = false := by
          simp only [InternalNode.full, decide_eq_false_iff_not]
          omega
        rw [BTree.insertGo_internal_notfull k v fl t id (some f) fsi nd hnd hfull']
        obtain ⟨t2, heq, hroot, hgi, hgl, hfi, hfl2, SIX2, SLX2, habs, hgi2,
          hgl2⟩ :=
          BTree.descend_absorb k v hh ih fl t id nd m lo hi SI SL (by omega)
            hrep hnd (by omega) hklo hkhi
        refine ⟨t2, heq, hroot, hgi, hgl, ?_, ?_,
          Or.inl ⟨?_, SIX2, SLX2, habs, hgi2, hgl2, ?_⟩⟩
        · intro x hx hxSI hxf
          exact hfi x hx hxSI
        · intro x hx hxSL
          exact hfl2 x hx hxSL
        · rw [hfi f hflt hfSI]
          exact hfa
        · intro hc
          rcases hgi2 f hc with hc2 | hc2
          · exact hfSI hc2
          · omega

/-- The lookup loop returns exactly the represented map's binding. -/
theorem BTree.lookupGo_refines {K V : Type} [LinearOrder K] (k : K) :
    ∀ (hh fuel : Nat) (t : BTree K V) (cur : NodeIndex) (m : K → Option V)
      (lo hi : Option K) (SI SL : Finset Nat),
      hh < fuel →
      NodeRep t.i t.l hh cur m lo hi SI SL →
      loLt lo k → leHi k hi →
      BTree.lookupGo k fuel t cur = some (m k) := by
  intro hh
  induction hh with
  | zero =>
    intro fuel t cur m lo hi SI SL hfuel hrep hklo hkhi
    obtain ⟨fl, rfl⟩ : ∃ fl, fuel = fl + 1 := ⟨fuel - 1, by omega⟩
    cases cur with
    | internal id => exact hrep.elim
    | leaf id =>
      obtain ⟨hSIe, hSLe, nd, hnd, hcle, hsortl, hbndl, hml⟩ := NodeRep_leaf.mp hrep
      rw [BTree.lookupGo_leaf k fl t id nd hnd, hml k]
  | succ hh ih =>
    intro fuel t cur m lo hi SI SL hfuel hrep hklo hkhi
    obtain ⟨fl, rfl⟩ : ∃ fl, fuel = fl + 1 := ⟨fuel - 1, by omega⟩
    cases cur with
    | leaf id => exact hrep.elim
    | internal id =>
      obtain ⟨nd, hnd, h1, h2, hsort, hbnd, ms, SIs, SLs, hch, hdisj, hnid, hSIe,
        hSLe, hm⟩ := NodeRep_internal.mp hrep
      have hdeg : NODE_DEG = 32 := rfl
      have hlkp : nd.lookup k = some (lower_bound nd.keys (nd.cnt - 1) k,
          nd.sons (lower_bound nd.keys (nd.cnt - 1) k)) := by
        simp only [InternalNode.lookup,
          if_pos (show 1 ≤ nd.cnt ∧ nd.cnt - 1 ≤ NODE_DEG - 1 from ⟨h1, by omega⟩)]
      obtain ⟨hroute_lt, hroute_lo, hroute_hi⟩ :=
        NodeRep.route nd k lo hi hsort h1 hklo hkhi
      rw [BTree.lookupGo_internal k fl t id nd hnd, hlkp]
      simp only [Option.some_bind]
      rw [ih fl t _ _ _ _ _ _ (by omega) (hch _ hroute_lt) hroute_lo hroute_hi,
        hm k]

/-- Assembling a two-child root: a node holding exactly the two represented
halves of a split separated by `sep` represents their glued map over the
unbounded interval. -/
theorem NodeRep.pair_root {K V : Type} [LinearOrder K]
    {iA : List (InternalNode K)} {lA : List (LeafNode K V)} (h : Nat) (idx : Nat)
    (Y : InternalNode K) (sep : K) (m0 m1 mAll : K → Option V)
    (S0i S0l S1i S1l : Finset Nat)
    (hY : iA.get? idx = some Y) (hc : Y.cnt = 2) (hk0 : Y.keys 0 = sep)
    (hrep0 : NodeRep iA lA h (Y.sons 0) m0 none (some sep) S0i S0l)
    (hrep1 : NodeRep iA lA h (Y.sons 1) m1 (some sep) none S1i S1l)
    (hdi : Disjoint S0i S1i) (hdl : Disjoint S0l S1l)
    (hn0 : idx ∉ S0i) (hn1 : idx ∉ S1i)
    (hsplit : ∀ k2, mAll k2 = if k2 ≤ sep then m0 k2 else m1 k2) :
    ∃ SI SL, NodeRep iA lA (h + 1) (NodeIndex.internal idx) mAll none none SI SL := by
  have hdeg : NODE_DEG = 32 := rfl
  have hsortY : ∀ i j, i ≤ j → j < Y.cnt - 1 → Y.keys i ≤ Y.keys j := by
    intro i j hij hj
    rw [hc] at hj
    have hi0 : i = 0 := by omega
    have hj0 : j = 0 := by omega
    rw [hi0, hj0]
  have hroute : ∀ k2, lower_bound Y.keys (Y.cnt - 1) k2 =
      if k2 ≤ sep then 0 else 1 := by
    intro k2
    by_cases hk2 : k2 ≤ sep
    · rw [if_pos hk2]
      refine lower_bound_eq_of Y.keys (Y.cnt - 1) k2 hsortY 0 (by omega)
        (fun j hj => absurd hj (by omega)) ?_
      intro _
      rw [hk0]
      exact hk2
    · rw [if_neg hk2]
      refine lower_bound_eq_of Y.keys (Y.cnt - 1) k2 hsortY 1 (by omega) ?_ ?_
      · intro j hj
        have hj0 : j = 0 := by omega
        rw [hj0, hk0]
        exact not_le.mp hk2
      · intro hcon
        rw [hc] at hcon
        omega
  refine ⟨_, _, NodeRep_internal.mpr ⟨Y, hY, by omega, by omega, ?_, ?_,
    (fun j => match j with | 0 => m0 | _ => m1),
    (fun j => match j with | 0 => S0i | _ => S1i),
    (fun j => match j with | 0 => S0l | _ => S1l), ?_, ?_, ?_, rfl, rfl, ?_⟩⟩
  · intro i j hij hj
    rw [hc] at hj
    omega
  · intro j hj
    rw [hc] at hj
    have hj0 : j = 0 := by omega
    rw [hj0, hk0]
    exact ⟨fun a ha => Option.noConfusion ha, fun b hb => Option.noConfusion hb⟩
  · intro j hj
    rw [hc] at hj
    rcases Nat.lt_or_ge j 1 with hj1 | hj1
    · have hj0 : j = 0 := by omega
      subst hj0
      have e1 : childLo none Y.keys 0 = none := by
        rw [childLo, if_pos rfl]
      have e2 : childHi none Y.keys Y.cnt 0 = some sep := by
        rw [childHi, if_neg (by omega), hk0]
      rw [e1, e2]
      exact hrep0
    · have hj0 : j = 1 := by omega
      subst hj0
      have e1 : childLo none Y.keys 1 = some sep := by
        rw [childLo, if_neg (by omega)]
        rw [show (1 : Nat) - 1 = 0 from rfl, hk0]
      have e2 : childHi none Y.keys Y.cnt 1 = none := by
        rw [childHi, if_pos (by omega)]
      rw [e1, e2]
      exact hrep1
  · intro j1 j2 h12 hj2
    rw [hc] at hj2
    have he : j1 = 0 ∧ j2 = 1 := by omega
    rw [he.1, he.2]
    exact ⟨hdi, hdl⟩
  · intro j hj
    rw [hc] at hj
    rcases Nat.lt_or_ge j 1 with hj1 | hj1
    · have hj0 : j = 0 := by omega
      rw [hj0]
      exact hn0
    · have hj0 : j = 1 := by omega
      rw [hj0]
      exact hn1
  · intro k2
    rw [hsplit k2, hroute k2]
    by_cases hk2 : k2 ≤ sep
    · rw [if_pos hk2, if_pos hk2]
    · rw [if_neg hk2, if_neg hk2]

/-- The freshly constructed tree represents the empty map. -/
theorem TreeRep.initial {K V : Type} [LinearOrder K] [Inhabited K] [Inhabited V] :
    TreeRep (BTree.new : BTree K V) (fun _ => none) := by
  refine ⟨0, ∅, {0}, NodeRep_leaf.mpr ⟨rfl, rfl, LeafNode.new, rfl,
    Nat.zero_le _, ?_, ?_, ?_⟩⟩
  · intro i j hij hj
    exact absurd hj (Nat.not_lt_zero j)
  · intro j hj
    exact absurd hj (Nat.not_lt_zero j)
  · intro k2
    rfl

/-- `BTree::lookup` returns the represented map's binding. -/
theorem BTree.lookup_refines {K V : Type} [LinearOrder K] (t : BTree K V)
    (m : K → Option V) (k : K) (hrep : TreeRep t m) :
    t.lookup k = some (m k) := by
  obtain ⟨hh, SI, SL, hrep⟩ := hrep
  have hsub : SI ⊆ Finset.range t.i.length := fun x hx =>
    Finset.mem_range.mpr ((NodeRep.footprint_lt hh _ _ _ _ _ _ hrep).1 x hx)
  have hcard := Finset.card_le_card hsub
  rw [Finset.card_range] at hcard
  have hhle := NodeRep.height_le hh _ _ _ _ _ _ hrep
  exact BTree.lookupGo_refines k hh (t.i.length + t.l.length + 2) t t.root m
    none none SI SL (by omega) hrep (fun a ha => Option.noConfusion ha)
    (fun b hb => Option.noConfusion hb)

/-- `BTree::insert` returns the represented map's previous binding and the
resulting tree represents the upserted map. -/
theorem BTree.insert_refines {K V : Type} [LinearOrder K] [Inhabited K]
    [Inhabited V] (t : BTree K V) (m : K → Option V) (k : K) (v : V)
    (hrep : TreeRep t m) :
    ∃ t2, t.insert k v = some (m k, t2) ∧ TreeRep t2 (mUpd m k v) := by
  obtain ⟨hh, SI, SL, hrep⟩ := hrep
  have hdeg : NODE_DEG = 32 := rfl
  have hsub : SI ⊆ Finset.range t.i.length := fun x hx =>
    Finset.mem_range.mpr ((NodeRep.footprint_lt hh _ _ _ _ _ _ hrep).1 x hx)
  have hcard := Finset.card_le_card hsub
  rw [Finset.card_range] at hcard
  have hhle := NodeRep.height_le hh _ _ _ _ _ _ hrep
  simp only [BTree.insert]
  rw [show t.i.length + t.l.length + 2 = (t.i.length + t.l.length + 1) + 1 from rfl]
  have hklo : loLt (none : Option K) k := fun a ha => Option.noConfusion ha
  have hkhi : leHi k (none : Option K) := fun b hb => Option.noConfusion hb
  cases hh with
  | zero =>
    cases hr : t.root with
    | internal id =>
      rw [hr] at hrep
      exact hrep.elim
    | leaf id =>
      rw [hr] at hrep
      obtain ⟨hSIe, hSLe, nd, hnd, hcle, hsortl, hbndl, hml⟩ := NodeRep_leaf.mp hrep
      have hidlt : id < t.l.length := lt_of_get?_some hnd
      by_cases hfull : nd.cnt = NODE_DEG
      · -- root is a full leaf: split, make a new internal root, upsert a half
        have hfull' : nd.full = true := by
          simp only [LeafNode.full, decide_eq_true_eq]
          exact hfull
        obtain ⟨sep, left, right, hsplit, hlc, hrc, hsortL, hsortR, hlkeys, hrkeys,
          hlow, hhigh⟩ := LeafNode.split_map nd hfull hsortl
        have hnewc : (InternalNode.new (NodeIndex.leaf id) : InternalNode K).cnt
            = 1 := rfl
        obtain ⟨nr2, hins, hfc, hkpre2, hkmid2, hkpost2, hspre2, hsmid2, hspost2⟩ :=
          InternalNode.child_insert_desc (InternalNode.new (NodeIndex.leaf id)) 1 sep
            (NodeIndex.leaf t.l.length) (by omega) (by omega) (by omega)
        have hroot6 : (t.i ++ [InternalNode.new (NodeIndex.leaf id)]).get?
            t.i.length = some (InternalNode.new (NodeIndex.leaf id)) :=
          List.get?_concat_length _ _
        have hE := BTree.insertGo_leaf_full_root k v
          (t.i.length + t.l.length + 1) t id 0 nd left right sep nr2 hnd hfull'
          hsplit hroot6 hins
        have hnr2c : nr2.cnt = 2 := by omega
        have hnr2k : nr2.keys 0 = sep := hkmid2
        have hnr2s0 : nr2.sons 0 = NodeIndex.leaf id := by
          rw [hspre2 0 (by omega)]
          show setIdx (fun _ => default) 0 (NodeIndex.leaf id) 0 = NodeIndex.leaf id
          exact setIdx_eq _ _ _
        have hnr2s1 : nr2.sons 1 = NodeIndex.leaf t.l.length := hsmid2
        have hrepL : ∀ (iB : List (InternalNode K)) (lB : List (LeafNode K V)),
            lB.get? id = some left →
            NodeRep iB lB 0 (NodeIndex.leaf id) (fun k2 => left.lookup k2)
              none (some sep) ∅ {id} := by
          intro iB lB hget
          refine NodeRep_leaf.mpr ⟨rfl, rfl, left, hget, by omega, hsortL, ?_,
            fun k2 => rfl⟩
          intro j hj
          obtain ⟨hle0, j2, hj2, hkey⟩ := hlkeys j hj
          refine ⟨fun a ha => Option.noConfusion ha, ?_⟩
          intro b hb
          rw [← Option.some_inj.mp hb]
          exact hle0
        have hrepR : ∀ (iB : List (InternalNode K)) (lB : List (LeafNode K V)),
            lB.get? t.l.length = some right →
            NodeRep iB lB 0 (NodeIndex.leaf t.l.length)
              (fun k2 => right.lookup k2) (some sep) none ∅ {t.l.length} := by
          intro iB lB hget
          refine NodeRep_leaf.mpr ⟨rfl, rfl, right, hget, by omega, hsortR, ?_,
            fun k2 => rfl⟩
          intro j hj
          obtain ⟨hgt0, j2, hj2, hkey⟩ := hrkeys j hj
          refine ⟨?_, fun b hb => Option.noConfusion hb⟩
          intro a ha
          rw [← Option.some_inj.mp ha]
          exact hgt0
        have hYget : ∀ (nd' : LeafNode K V) (id2 : Nat),
            ((t.i ++ [InternalNode.new (NodeIndex.leaf id)]).set t.i.length
              nr2).get? t.i.length = some nr2 := by
          intro nd' id2
          refine List.get?_set_eq_of_lt nr2 ?_
          simp only [List.length_append, List.length_cons, List.length_nil]
          omega
        by_cases hks : sep < k
        · obtain ⟨nd', heqi, hc1, hc2, hsort', hprov, hlkp⟩ :=
            LeafNode.insert_map right k v (by omega) hsortR
          have hval : right.lookup k = m k :=
            ((hhigh k hks).1).trans (hml k).symm
          refine ⟨⟨(t.i ++ [InternalNode.new (NodeIndex.leaf id)]).set t.i.length
              nr2, ((t.l.set id left) ++ [right]).set t.l.length nd',
              NodeIndex.internal t.i.length⟩, ?_, ?_⟩
          · rw [hE, if_pos hks, get?_set_append_new t.l id left right]
            simp only [Option.pure_def, Option.bind_eq_bind, Option.some_bind]
            rw [heqi]
            simp only [Option.pure_def, Option.bind_eq_bind, Option.some_bind]
            rw [hval]
          · have hglue : ∀ k2, mUpd m k v k2 =
                if k2 ≤ sep then left.lookup k2 else nd'.lookup k2 := by
              intro k2
              by_cases hk2s : k2 ≤ sep
              · rw [if_pos hk2s, (hlow k2 hk2s).1]
                have hk2 : k2 ≠ k := by
                  intro hc
                  rw [hc] at hk2s
                  exact absurd hks (not_lt.mpr hk2s)
                simp only [mUpd, if_neg hk2]
                exact hml k2
              · rw [if_neg hk2s, hlkp k2]
                by_cases hk2 : k2 = k
                · simp only [mUpd, if_pos hk2]
                · simp only [mUpd, if_neg hk2]
                  rw [(hhigh k2 (not_le.mp hk2s)).1]
                  exact hml k2
            obtain ⟨SI2, SL2, hpair⟩ := @NodeRep.pair_root K V _
              ((t.i ++ [InternalNode.new (NodeIndex.leaf id)]).set t.i.length nr2)
              (((t.l.set id left) ++ [right]).set t.l.length nd')
              0 t.i.length nr2 sep
              (fun k2 => left.lookup k2) (fun k2 => nd'.lookup k2) (mUpd m k v)
              ∅ {id} ∅ {t.l.length} (hYget nd' t.l.length) hnr2c hnr2k
              (by
                rw [hnr2s0]
                refine hrepL _ _ ?_
                rw [List.get?_set_ne _ _ (fun hc => by omega),
                  get?_set_append_at t.l id left right hidlt])
              (by
                rw [hnr2s1]
                refine NodeRep_leaf.mpr ⟨rfl, rfl, nd', ?_, by omega, hsort',
                  ?_, fun k2 => rfl⟩
                · exact List.get?_set_eq_of_lt nd' (by
                    simp only [List.length_append, List.length_set,
                      List.length_cons, List.length_nil]
                    omega)
                · intro j hj
                  rcases hprov j hj with hk2 | ⟨j2, hj2, hk2⟩
                  · rw [hk2]
                    refine ⟨?_, fun b hb => Option.noConfusion hb⟩
                    intro a ha
                    rw [← Option.some_inj.mp ha]
                    exact hks
                  · rw [hk2]
                    obtain ⟨hgt0, j3, hj3, hkey⟩ := hrkeys j2 hj2
                    refine ⟨?_, fun b hb => Option.noConfusion hb⟩
                    intro a ha
                    rw [← Option.some_inj.mp ha]
                    exact hgt0)
              (by simp) (by rw [Finset.disjoint_singleton]; omega)
              (by simp) (by simp) hglue
            exact ⟨1, SI2, SL2, hpair⟩
        · obtain ⟨nd', heqi, hc1, hc2, hsort', hprov, hlkp⟩ :=
            LeafNode.insert_map left k v (by omega) hsortL
          have hval : left.lookup k = m k :=
            ((hlow k (not_lt.mp hks)).1).trans (hml k).symm
          refine ⟨⟨(t.i ++ [InternalNode.new (NodeIndex.leaf id)]).set t.i.length
              nr2, ((t.l.set id left) ++ [right]).set id nd',
              NodeIndex.internal t.i.length⟩, ?_, ?_⟩
          · rw [hE, if_neg hks, get?_set_append_at t.l id left right hidlt]
            simp only [Option.pure_def, Option.bind_eq_bind, Option.some_bind]
            rw [heqi]
            simp only [Option.pure_def, Option.bind_eq_bind, Option.some_bind]
            rw [hval]
          · have hglue : ∀ k2, mUpd m k v k2 =
                if k2 ≤ sep then nd'.lookup k2 else right.lookup k2 := by
              intro k2
              by_cases hk2s : k2 ≤ sep
              · rw [if_pos hk2s, hlkp k2]
                by_cases hk2 : k2 = k
                · simp only [mUpd, if_pos hk2]
                · simp only [mUpd, if_neg hk2]
                  rw [(hlow k2 hk2s).1]
                  exact hml k2
              · rw [if_neg hk2s, (hhigh k2 (not_le.mp hk2s)).1]
                have hk2 : k2 ≠ k := by
                  intro hc
                  rw [hc] at hk2s
                  exact hk2s (not_lt.mp hks)
                simp only [mUpd, if_neg hk2]
                exact hml k2
            obtain ⟨SI2, SL2, hpair⟩ := @NodeRep.pair_root K V _
              ((t.i ++ [InternalNode.new (NodeIndex.leaf id)]).set t.i.length nr2)
              (((t.l.set id left) ++ [right]).set id nd')
              0 t.i.length nr2 sep
              (fun k2 => nd'.lookup k2) (fun k2 => right.lookup k2) (mUpd m k v)
              ∅ {id} ∅ {t.l.length} (hYget nd' id) hnr2c hnr2k
              (by
                rw [hnr2s0]
                refine NodeRep_leaf.mpr ⟨rfl, rfl, nd', ?_, by omega, hsort',
                  ?_, fun k2 => rfl⟩
                · exact List.get?_set_eq_of_lt nd' (by
                    simp only [List.length_append, List.length_set,
                      List.length_cons, List.length_nil]
                    omega)
                · intro j hj
                  rcases hprov j hj with hk2 | ⟨j2, hj2, hk2⟩
                  · rw [hk2]
                    refine ⟨fun a ha => Option.noConfusion ha, ?_⟩
                    intro b hb
                    rw [← Option.some_inj.mp hb]
                    exact not_lt.mp hks
                  · rw [hk2]
                    obtain ⟨hle0, j3, hj3, hkey⟩ := hlkeys j2 hj2
                    refine ⟨fun a ha => Option.noConfusion ha, ?_⟩
                    intro b hb
                    rw [← Option.some_inj.mp hb]
                    exact hle0)
              (by
                rw [hnr2s1]
                refine hrepR _ _ ?_
                rw [List.get?_set_ne _ _ (fun hc => by omega),
                  get?_set_append_new t.l id left right])
              (by simp) (by rw [Finset.disjoint_singleton]; omega)
              (by simp) (by simp) hglue
            exact ⟨1, SI2, SL2, hpair⟩
      · -- root is a non-full leaf: plain upsert in place
        have hfull' : nd.full = false := by
          simp only [LeafNode.full, decide_eq_false_iff_not]
          omega
        obtain ⟨nd', heqi, hc1, hc2, hsort', hprov, hlkp⟩ :=
          LeafNode.insert_map nd k v (by omega) hsortl
        refine ⟨{ t with l := t.l.set id nd' }, ?_, ?_⟩
        · rw [BTree.insertGo_leaf_notfull k v (t.i.length + t.l.length + 1) t
            id none 0 nd hnd hfull', heqi]
          simp only [Option.pure_def, Option.bind_eq_bind, Option.some_bind]
          rw [hml k]
        · refine ⟨0, ∅, {id}, ?_⟩
          have hroot2 : ({ t with l := t.l.set id nd' } : BTree K V).root =
              NodeIndex.leaf id := hr
          rw [hroot2]
          refine NodeRep_leaf.mpr ⟨rfl, rfl, nd',
            List.get?_set_eq_of_lt nd' hidlt, by omega, hsort', ?_, ?_⟩
          · intro j hj
            rcases hprov j hj with hk2 | ⟨j2, hj2, hk2⟩
            · rw [hk2]
              exact ⟨hklo, hkhi⟩
            · rw [hk2]
              exact hbndl j2 hj2
          · intro k2
            rw [hlkp k2]
            by_cases hk2 : k2 = k
            · simp only [mUpd, if_pos hk2]
            · simp only [mUpd, if_neg hk2]
              exact hml k2
  | succ hh2 =>
    cases hr : t.root with
    | leaf id =>
      rw [hr] at hrep
      exact hrep.elim
    | internal id =>
      rw [hr] at hrep
      obtain ⟨nd, hnd, h1, h2, hsort, hbnd, ms, SIs, SLs, hch, hdisj, hnid, hSIe,
        hSLe, hm⟩ := NodeRep_internal.mp hrep
      have hidlt : id < t.i.length := lt_of_get?_some hnd
      by_cases hfull : nd.cnt = NODE_DEG
      · -- root is a full internal node: split under a fresh root, descend
        have hfull' : nd.full = true := by
          simp only [InternalNode.full, decide_eq_true_eq]
          exact hfull
        obtain ⟨sep0, left, right, hsplit, hlc, hrc, hlk, hls, hrk, hrs, hsepe⟩ :=
          InternalNode.split_consumes_mid nd (by omega) (by omega)
        have hnewc : (InternalNode.new (NodeIndex.internal id) :
            InternalNode K).cnt = 1 := rfl
        obtain ⟨nr2, hins, hfc, hkpre2, hkmid2, hkpost2, hspre2, hsmid2, hspost2⟩ :=
          InternalNode.child_insert_desc (InternalNode.new (NodeIndex.internal id)) 1
            sep0 (NodeIndex.internal t.i.length) (by omega) (by omega) (by omega)
        have hBlen : ((t.i.set id left) ++ [right]).length = t.i.length + 1 := by
          simp only [List.length_append, List.length_set, List.length_cons,
            List.length_nil]
        have hroot3 : (((t.i.set id left) ++ [right]) ++
            [InternalNode.new (NodeIndex.internal id)]).get? (t.i.length + 1) =
            some (InternalNode.new (NodeIndex.internal id)) := by
          have h := List.get?_concat_length ((t.i.set id left) ++ [right])
            (InternalNode.new (NodeIndex.internal id))
          rwa [hBlen] at h
        have hE := BTree.insertGo_internal_full_root k v
          (t.i.length + t.l.length + 1) t id 0 nd left right sep0 nr2 hnd hfull'
          hsplit hroot3 hins
        have hnr2c : nr2.cnt = 2 := by omega
        have hnr2k : nr2.keys 0 = sep0 := hkmid2
        have hnr2s0 : nr2.sons 0 = NodeIndex.internal id := by
          rw [hspre2 0 (by omega)]
          show setIdx (fun _ => default) 0 (NodeIndex.internal id) 0 =
            NodeIndex.internal id
          exact setIdx_eq _ _ _
        have hnr2s1 : nr2.sons 1 = NodeIndex.internal t.i.length := hsmid2
        set A4 : List (InternalNode K) := (((t.i.set id left) ++ [right]) ++
          [InternalNode.new (NodeIndex.internal id)]).set (t.i.length + 1) nr2
          with hA4
        set t4 : BTree K V := ⟨A4, t.l, NodeIndex.internal (t.i.length + 1)⟩
          with ht4
        have hA4len : A4.length = t.i.length + 2 := by
          rw [hA4]
          simp only [List.length_set, List.length_append, List.length_cons,
            List.length_nil]
        have hlen4 : t4.i.length = t.i.length + 2 := hA4len
        have hlen4l : t4.l.length = t.l.length := rfl
        have hgetl : A4.get? id = some left := by
          rw [hA4, List.get?_set_ne _ _ (fun hc => by omega),
            List.get?_append (by omega), get?_set_append_at t.i id left right hidlt]
        have hgetr : A4.get? t.i.length = some right := by
          rw [hA4, List.get?_set_ne _ _ (fun hc => by omega),
            List.get?_append (by omega), get?_set_append_new t.i id left right]
        have hgetY : A4.get? (t.i.length + 1) = some nr2 := by
          rw [hA4]
          refine List.get?_set_eq_of_lt nr2 ?_
          simp only [List.length_append, List.length_set, List.length_cons,
            List.length_nil]
          omega
        have hfp : ∀ j, j < nd.cnt →
            (∀ x, x ∈ SIs j → x < t.i.length) ∧
            (∀ x, x ∈ SLs j → x < t.l.length) :=
          fun j hj => NodeRep.footprint_lt hh2 _ _ _ _ _ _ (hch j hj)
        have hagree_i : ∀ j, j < nd.cnt → ∀ x, x ∈ SIs j →
            A4.get? x = t.i.get? x := by
          intro j hj x hx
          have hxlt := (hfp j hj).1 x hx
          have hxid : x ≠ id := fun hc => hnid j hj (hc ▸ hx)
          rw [hA4, List.get?_set_ne _ _ (fun hc => by omega),
            List.get?_append (by omega),
            get?_set_append_old t.i id x left right hxlt hxid]
        have hnr : ∀ j, j < nd.cnt → t.i.length ∉ SIs j := by
          intro j hj hc
          have := (hfp j hj).1 _ hc
          omega
        obtain ⟨m1, m2, SI1, SL1, SI2, SL2, hrep1, hrep2, hseplo, hsephi, hmsplit,
          hdI, hdL, hp1i, hp2i, hp1l, hp2l⟩ :=
          @NodeRep.split_build K V _ _ t.i A4 t.l t.l hh2 nd ms SIs SLs m none
            none id t.i.length sep0 left right hfull hsort hbnd hch hdisj hm
            hsplit hgetl hgetr hagree_i (fun j hj x hx => rfl) hnid hnr (by omega)
        have hfpS1 := NodeRep.footprint_lt (hh2 + 1) _ _ _ _ _ _ hrep1
        have hfpS2 := NodeRep.footprint_lt (hh2 + 1) _ _ _ _ _ _ hrep2
        have hfpS1i : ∀ x, x ∈ SI1 → x < t4.i.length := fun x hx => hfpS1.1 x hx
        have hfpS2i : ∀ x, x ∈ SI2 → x < t4.i.length := fun x hx => hfpS2.1 x hx
        have hS1bound : ∀ x, x ∈ SI1 → x ≤ t.i.length := by
          intro x hx
          rcases hp1i x hx with hc | ⟨j, hj, hc⟩
          · omega
          · have := (hfp j hj).1 x hc
            omega
        have hS2bound : ∀ x, x ∈ SI2 → x ≤ t.i.length := by
          intro x hx
          rcases hp2i x hx with hc | ⟨j, hj, hc⟩
          · omega
          · have := (hfp j hj).1 x hc
            omega
        by_cases hks : sep0 < k
        · -- descend into the right half
          obtain ⟨t5, heq5, hroot5, hg5i, hg5l, hf5i, hf5l, SIX2, SLX2, habs,
            hgi2, hgl2⟩ :=
            BTree.descend_absorb k v hh2 (BTree.insertGo_refines k v hh2)
              (t.i.length + t.l.length + 1) t4 t.i.length right m2 (some sep0)
              none SI2 SL2 (by omega) hrep2 hgetr (by omega)
              (fun a ha => by rw [← Option.some_inj.mp ha]; exact hks) hkhi
          have hmk : m k = m2 k := by
            have hs := hmsplit k
            rw [if_neg (not_le.mpr hks)] at hs
            exact hs
          refine ⟨t5, ?_, ?_⟩
          · rw [hE, if_pos hks, hgetr]
            simp only [Option.pure_def, Option.bind_eq_bind, Option.some_bind]
            exact heq5.trans (by rw [hmk])
          · -- rebuild the root representation at the new root node
            have hY5 : t5.i.get? (t.i.length + 1) = some nr2 := by
              rw [hf5i (t.i.length + 1) (by omega) (fun hc => by
                have := hS2bound _ hc
                omega)]
              exact hgetY
            have hrep1T : NodeRep t5.i t5.l (hh2 + 1) (NodeIndex.internal id) m1
                none (some sep0) SI1 SL1 := by
              refine NodeRep.frame (hh2 + 1) _ _ _ _ _ _ hrep1 ?_ ?_
              · intro x hx
                exact hf5i x (hfpS1i x hx)
                  (fun hc => Finset.disjoint_left.mp hdI hx hc)
              · intro x hx
                exact hf5l x (hfpS1.2 x hx)
                  (fun hc => Finset.disjoint_left.mp hdL hx hc)
            have hglue : ∀ k2, mUpd m k v k2 =
                if k2 ≤ sep0 then m1 k2 else mUpd m2 k v k2 := by
              intro k2
              by_cases hk2s : k2 ≤ sep0
              · rw [if_pos hk2s]
                have hk2 : k2 ≠ k := by
                  intro hc
                  rw [hc] at hk2s
                  exact absurd hks (not_lt.mpr hk2s)
                have hs := hmsplit k2
                rw [if_pos hk2s] at hs
                simp only [mUpd, if_neg hk2]
                exact hs
              · rw [if_neg hk2s]
                by_cases hk2 : k2 = k
                · simp only [mUpd, if_pos hk2]
                · have hs := hmsplit k2
                  rw [if_neg hk2s] at hs
                  simp only [mUpd, if_neg hk2]
                  exact hs
            obtain ⟨SIr, SLr, hpair⟩ := NodeRep.pair_root (hh2 + 1)
              (t.i.length + 1) nr2 sep0 m1 (mUpd m2 k v) (mUpd m k v) SI1 SL1
              SIX2 SLX2 hY5 hnr2c hnr2k (by rw [hnr2s0]; exact hrep1T)
              (by rw [hnr2s1]; exact habs)
              (by
                rw [Finset.disjoint_left]
                intro x hx1 hx2
                rcases hgi2 x hx2 with hc | hc
                · exact Finset.disjoint_left.mp hdI hx1 hc
                · have := hS1bound x hx1
                  omega)
              (by
                rw [Finset.disjoint_left]
                intro x hx1 hx2
                rcases hgl2 x hx2 with hc | hc
                · exact Finset.disjoint_left.mp hdL hx1 hc
                · have := hfpS1.2 x hx1
                  omega)
              (fun hc => by have := hS1bound _ hc; omega)
              (fun hc => by
                rcases hgi2 _ hc with hc2 | hc2
                · have := hS2bound _ hc2
                  omega
                · omega)
              hglue
            refine ⟨hh2 + 2, SIr, SLr, ?_⟩
            have hroot5e : t5.root = NodeIndex.internal (t.i.length + 1) :=
              hroot5
            rw [hroot5e]
            exact hpair
        · -- descend into the left half
          obtain ⟨t5, heq5, hroot5, hg5i, hg5l, hf5i, hf5l, SIX2, SLX2, habs,
            hgi2, hgl2⟩ :=
            BTree.descend_absorb k v hh2 (BTree.insertGo_refines k v hh2)
              (t.i.length + t.l.length + 1) t4 id left m1 none (some sep0)
              SI1 SL1 (by omega) hrep1 hgetl (by omega) hklo
              (fun b hb => by rw [← Option.some_inj.mp hb]; exact not_lt.mp hks)
          have hmk : m k = m1 k := by
            have hs := hmsplit k
            rw [if_pos (not_lt.mp hks)] at hs
            exact hs
          refine ⟨t5, ?_, ?_⟩
          · rw [hE, if_neg hks, hgetl]
            simp only [Option.pure_def, Option.bind_eq_bind, Option.some_bind]
            exact heq5.trans (by rw [hmk])
          · have hY5 : t5.i.get? (t.i.length + 1) = some nr2 := by
              rw [hf5i (t.i.length + 1) (by omega) (fun hc => by
                have := hS1bound _ hc
                omega)]
              exact hgetY
            have hrep2T : NodeRep t5.i t5.l (hh2 + 1)
                (NodeIndex.internal t.i.length) m2 (some sep0) none SI2 SL2 := by
              refine NodeRep.frame (hh2 + 1) _ _ _ _ _ _ hrep2 ?_ ?_
              · intro x hx
                exact hf5i x (hfpS2i x hx)
                  (fun hc => Finset.disjoint_left.mp hdI hc hx)
              · intro x hx
                exact hf5l x (hfpS2.2 x hx)
                  (fun hc => Finset.disjoint_left.mp hdL hc hx)
            have hglue : ∀ k2, mUpd m k v k2 =
                if k2 ≤ sep0 then mUpd m1 k v k2 else m2 k2 := by
              intro k2
              by_cases hk2s : k2 ≤ sep0
              · rw [if_pos hk2s]
                by_cases hk2 : k2 = k
                · simp only [mUpd, if_pos hk2]
                · have hs := hmsplit k2
                  rw [if_pos hk2s] at hs
                  simp only [mUpd, if_neg hk2]
                  exact hs
              · rw [if_neg hk2s]
                have hk2 : k2 ≠ k := by
                  intro hc
                  rw [hc] at hk2s
                  exact hk2s (not_lt.mp hks)
                have hs := hmsplit k2
                rw [if_neg hk2s] at hs
                simp only [mUpd, if_neg hk2]
                exact hs
            obtain ⟨SIr, SLr, hpair⟩ := NodeRep.pair_root (hh2 + 1)
              (t.i.length + 1) nr2 sep0 (mUpd m1 k v) m2 (mUpd m k v) SIX2 SLX2
              SI2 SL2 hY5 hnr2c hnr2k (by rw [hnr2s0]; exact habs)
              (by rw [hnr2s1]; exact hrep2T)
              (by
                rw [Finset.disjoint_left]
                intro x hx1 hx2
                rcases hgi2 x hx1 with hc | hc
                · exact Finset.disjoint_left.mp hdI hc hx2
                · have := hS2bound x hx2
                  omega)
              (by
                rw [Finset.disjoint_left]
                intro x hx1 hx2
                rcases hgl2 x hx1 with hc | hc
                · exact Finset.disjoint_left.mp hdL hc hx2
                · have := hfpS2.2 x hx2
                  omega)
              (fun hc => by
                rcases hgi2 _ hc with hc2 | hc2
                · have := hS1bound _ hc2
                  omega
                · omega)
              (fun hc => by have := hS2bound _ hc; omega)
              hglue
            refine ⟨hh2 + 2, SIr, SLr, ?_⟩
            have hroot5e : t5.root = NodeIndex.internal (t.i.length + 1) :=
              hroot5
            rw [hroot5e]
            exact hpair
      · -- root is a non-full internal node: descend in place
        have hfull' : nd.full = false := by
          simp only [InternalNode.full, decide_eq_false_iff_not]
          omega
        obtain ⟨t2, heq, hroot, hgi, hgl, hfi, hfl2, SIX2, SLX2, habs, hgi2,
          hgl2⟩ :=
          BTree.descend_absorb k v hh2 (BTree.insertGo_refines k v hh2)
            (t.i.length + t.l.length + 1) t id nd m none none SI SL (by omega)
            hrep hnd (by omega) hklo hkhi
        refine ⟨t2, ?_, ⟨hh2 + 1, SIX2, SLX2, ?_⟩⟩
        · rw [BTree.insertGo_internal_notfull k v
            (t.i.length + t.l.length + 1) t id none 0 nd hnd hfull']
          exact heq
        · have hroot2 : t2.root = NodeIndex.internal id := by
            rw [hroot, hr]
          rw [hroot2]
          exact habs

/-! ## The refinement claim (C1): driver runs against a reference map

`specStep`/`specRun` are the spec-side reference: a map from keys to values
where insert is an upsert returning the previous value and lookup returns
the most recently inserted value (these definitions follow the
specification's words, not the source). -/

/-- One driver operation: an upsert or a lookup. -/
inductive Op (K V : Type) where
  | ins (k : K) (v : V)
  | look (k : K)

/-- The reference map processes one operation: insert returns the previous
value if the key was present (else absent) and binds the key; lookup
returns the current binding. -/
def specStep {K V : Type} [DecidableEq K] (m : K → Option V) :
    Op K V → Option V × (K → Option V)
  | Op.ins k v => (m k, mUpd m k v)
  | Op.look k => (m k, m)

/-- Run the reference map over an operation sequence, collecting every
operation's returned value. -/
def specRun {K V : Type} [DecidableEq K] (m : K → Option V) :
    List (Op K V) → List (Option V)
  | [] => []
  | op :: ops => (specStep m op).1 :: specRun (specStep m op).2 ops

/-- Run the B+tree over an operation sequence, collecting every operation's
returned value (`none` models a panic of any operation). -/
def btRun {K V : Type} [LinearOrder K] [Inhabited K] [Inhabited V]
    (t : BTree K V) : List (Op K V) → Option (List (Option V))
  | [] => some []
  | Op.ins k v :: ops => do
    let r ← t.insert k v
    let rest ← btRun r.2 ops
    pure (r.1 :: rest)
  | Op.look k :: ops => do
    let r ← t.lookup k
    let rest ← btRun t ops
    pure (r :: rest)

/-- A represented tree and its map produce identical runs. -/
theorem btRun_spec {K V : Type} [LinearOrder K] [Inhabited K] [Inhabited V] :
    ∀ (ops : List (Op K V)) (t : BTree K V) (m : K → Option V),
      TreeRep t m → btRun t ops = some (specRun m ops) := by
  intro ops
  induction ops with
  | nil =>
    intro t m _
    rfl
  | cons op ops ih =>
    intro t m hrep
    cases op with
    | ins k v =>
      obtain ⟨t2, heq, hrep2⟩ := BTree.insert_refines t m k v hrep
      simp only [btRun, heq, Option.pure_def, Option.bind_eq_bind,
        Option.some_bind, ih t2 (mUpd m k v) hrep2, specRun, specStep]
    | look k =>
      have heq := BTree.lookup_refines t m k hrep
      simp only [btRun, heq, Option.pure_def, Option.bind_eq_bind,
        Option.some_bind, ih t m hrep, specRun, specStep]

/-- C1: for every finite sequence of interleaved insert/lookup operations
applied to a freshly constructed `BTree`, the run succeeds and the value
returned by each operation equals the value returned by the same operation
applied to the reference ordered map driven by the identical sequence:
insert returns the previous value if the key was present (else absent), and
lookup returns the most recently inserted value for the key (else absent). -/
theorem btree_refines_reference_map {K V : Type} [LinearOrder K] [Inhabited K]
    [Inhabited V] (ops : List (Op K V)) :
    btRun (BTree.new : BTree K V) ops = some (specRun (fun _ => none) ops) :=
  btRun_spec ops BTree.new (fun _ => none) TreeRep.initial

-- Sanity checks mirroring the source's unit tests (`test_lower_bound` and
-- the smoke test).
example : lower_bound (fun j => [1, 4, 6, 9, 10].getD j 0) 5 0 = 0 := by decide
example : lower_bound (fun j => [1, 4, 6, 9, 10].getD j 0) 5 1 = 0 := by decide
example : lower_bound (fun j => [1, 4, 6, 9, 10].getD j 0) 5 3 = 1 := by decide
example : lower_bound (fun j => [1, 4, 6, 9, 10].getD j 0) 5 4 = 1 := by decide
example : lower_bound (fun j => [1, 4, 6, 9, 10].getD j 0) 5 5 = 2 := by decide
example : lower_bound (fun j => [1, 4, 6, 9, 10].getD j 0) 5 10 = 4 := by decide
example : lower_bound (fun j => [1, 4, 6, 9, 10].getD j 0) 5 11 = 5 := by decide
example : lower_bound (fun j => ([] : List Nat).getD j 0) 0 42 = 0 := by decide
